import Mathlib

/-!
# CS61C CNN forward-inference engine (`src/src/cnn.c`)

A shallow embedding of the volume type, the five layer kinds, the fixed
eleven-layer network and the classification driver of `cnn.c`, followed by
theorems about them.

Conventions of the embedding.

* `double` is modelled by an arbitrary linearly ordered field `α` (exact
  arithmetic); `exp` is passed to the softmax layer as a parameter, and the
  theorems about softmax take `α = ℝ` and `exp = Real.exp`.
* `int` is modelled by `Int` without wrap-around: signed overflow is undefined
  in C, so the embedding is exact on every run in which all `int` values are
  in range.  `/` on `int` is `Int.tdiv` (truncation toward zero).
* `uint64_t` is modelled by `Nat` with an explicit reduction modulo `2 ^ 64`
  (`u64`).
* A `double*` buffer is a `List α`, an array of volume pointers a
  `List (vol α)`.  An access outside a buffer is undefined in C; here such a
  read yields `0` (or the empty volume) and such a write is dropped.  The
  theorems carry the shape hypotheses that keep every access inside.
* Volumes reached through different pointers are assumed not to alias, so a
  function that mutates `out[i]` in place returns the updated array.
* A counting loop is `loop n body s`: the body is run for `k = 0, …, n - 1`
  on the state `s`.
* Where the exact model and `double` differ, the section `IEEE` repeats the
  embedding of the forward pass on values that can be infinite or NaN: every
  comparison with NaN is false, and sums and products overflow to an infinity.
-/

namespace CNN

/-! ## Loops and buffers -/

/-- Run `body 0`, `body 1`, …, `body (n - 1)` in this order on the state. -/
def loop {σ : Type} (n : Nat) (body : Nat → σ → σ) (s : σ) : σ :=
  (List.range n).foldl (fun s k => body k s) s

/-- Conversion of an `int` value to `uint64_t`, and reduction of a `uint64_t`
result: the value modulo `2 ^ 64`. -/
def u64 (i : Int) : Nat := (i % 2 ^ 64).toNat

/-- Read `w[i]` for an unsigned index. -/
def rd {β : Type} (dflt : β) (w : List β) (i : Nat) : β := w.getD i dflt

/-- Write `w[i] = x` for an unsigned index. -/
def wr {β : Type} (w : List β) (i : Nat) (x : β) : List β := w.set i x

/-- Read `w[i]` for an `int` index. -/
def rdI {β : Type} (dflt : β) (w : List β) (i : Int) : β :=
  if i < 0 then dflt else w.getD i.toNat dflt

/-- Write `w[i] = x` for an `int` index. -/
def wrI {β : Type} (w : List β) (i : Int) (x : β) : List β :=
  if i < 0 then w else w.set i.toNat x

/-! ## Vol -/

/-- `struct vol`: a three-dimensional array of numbers and its size. -/
structure vol (α : Type) where
  sx : Nat
  sy : Nat
  depth : Nat
  w : List α
deriving Repr, DecidableEq

instance {α : Type} : Inhabited (vol α) := ⟨⟨0, 0, 0, []⟩⟩

section Defs

variable {α : Type} [LinearOrderedField α]

/-- The buffer index `((v->sx * y)+x)*v->depth+d`, computed in `uint64_t`. -/
def vol_index (v : vol α) (x y d : Int) : Nat :=
  u64 ((((v.sx : Int) * y) + x) * (v.depth : Int) + d)

/-- `get_vol`. -/
def get_vol (v : vol α) (x y d : Int) : α :=
  rd 0 v.w (vol_index v x y d)

/-- `set_vol`. -/
def set_vol (v : vol α) (x y d : Int) (val : α) : vol α :=
  { v with w := wr v.w (vol_index v x y d) val }

/-- `make_vol`: the buffer has `sx*sy*d` cells, then every `(x, y, z)` is set
to `v`. -/
def make_vol (sx sy d : Int) (v : α) : vol α :=
  let out : vol α :=
    { sx := u64 sx, sy := u64 sy, depth := u64 d,
      w := List.replicate (sx * sy * d).toNat 0 }
  loop d.toNat (fun z out =>
    loop sy.toNat (fun y out =>
      loop sx.toNat (fun x out => set_vol out x y z v) out) out) out

/-- `copy_vol`. -/
def copy_vol (dest src : vol α) : vol α :=
  loop dest.sx (fun x dest =>
    loop dest.sy (fun y dest =>
      loop dest.depth (fun z dest =>
        set_vol dest x y z (get_vol src x y z)) dest) dest) dest

/-! ## Convolutional layer -/

/-- `struct conv_layer`. -/
structure conv_layer (α : Type) where
  out_depth : Int
  sx : Int
  in_depth : Int
  in_sx : Int
  in_sy : Int
  sy : Int
  stride : Int
  pad : Int
  l1_decay_mul : α
  l2_decay_mul : α
  out_sx : Int
  out_sy : Int
  bias : α
  biases : vol α
  filters : List (vol α)

/-- `make_conv_layer`.  The argument of `floor` is an `int` expression, so the
division is the truncating one and `floor` leaves its value unchanged. -/
def make_conv_layer (in_sx in_sy in_depth sx filters stride pad : Int) :
    conv_layer α :=
  let sy := sx
  { out_depth := filters
    sx := sx
    in_depth := in_depth
    in_sx := in_sx
    in_sy := in_sy
    sy := sy
    stride := stride
    pad := pad
    l1_decay_mul := 0
    l2_decay_mul := 1
    out_sx := (in_sx + pad * 2 - sx).tdiv stride + 1
    out_sy := (in_sy + pad * 2 - sy).tdiv stride + 1
    bias := 0
    biases := make_vol 1 1 filters 0
    filters := (List.range filters.toNat).map (fun _ => make_vol sx sy in_depth 0) }

/-- The body of the block loop of `conv_forward` at `fd`: four products. -/
def conv_block (f V : vol α) (fSx V_sx fdep vdep fy fx oy ox fd : Int) (a : α) : α :=
  let first : Int := ((fSx * fy) + fx) * fdep + fd
  let sec : Int := ((V_sx * oy) + ox) * vdep + fd
  let a := a + rdI 0 f.w first * rdI 0 V.w sec
  let a := a + rdI 0 f.w (first + 1) * rdI 0 V.w (sec + 1)
  let a := a + rdI 0 f.w (first + 2) * rdI 0 V.w (sec + 2)
  let a := a + rdI 0 f.w (first + 3) * rdI 0 V.w (sec + 3)
  a

/-- The body of the remainder loop of `conv_forward` at `fd`. -/
def conv_rest (f V : vol α) (V_sx fy fx oy ox fd : Int) (a : α) : α :=
  a + rd 0 f.w (u64 ((((f.sx : Int) * fy) + fx) * (f.depth : Int) + fd))
    * rd 0 V.w (u64 (((V_sx * oy) + ox) * (V.depth : Int) + fd))

/-- The two loops over `fd` of `conv_forward`: blocks of four up to
`fdep/4*4`, then the remainder up to `fdep`. -/
def conv_depth (f V : vol α) (fSx V_sx fdep vdep fy fx oy ox : Int) (a : α) : α :=
  let a := loop ((fdep.tdiv 4 * 4 + 3).tdiv 4).toNat
    (fun k a => conv_block f V fSx V_sx fdep vdep fy fx oy ox (4 * (k : Int)) a) a
  loop (fdep - fdep.tdiv 4 * 4).toNat
    (fun k a => conv_rest f V V_sx fy fx oy ox (fdep.tdiv 4 * 4 + (k : Int)) a) a

/-- The accumulation of `conv_forward` for one output position: the loops over
`fy` and `fx` with their bounds checks. -/
def conv_window (f V : vol α) (V_sx V_sy : Int) (x y : Int) : α :=
  let fSy : Int := f.sy
  let fSx : Int := f.sx
  let fdep : Int := f.depth
  let vdep : Int := V.depth
  loop fSy.toNat (fun fy a =>
    let oy := y + (fy : Int)
    if oy < V_sy ∧ oy ≥ 0 then
      loop fSx.toNat (fun fx a =>
        let ox := x + (fx : Int)
        if ox < V_sx ∧ ox ≥ 0 then
          conv_depth f V fSx V_sx fdep vdep fy fx oy ox a
        else a) a
    else a) 0

/-- The loop over `ax` of `conv_forward` for the channel `d` and the output row
`ay`, whose window starts at the input row `y`; `x` runs along with `ax`. -/
def conv_row (l : conv_layer α) (f V : vol α) (d ay : Nat) (y : Int) (A : vol α) :
    vol α :=
  let V_sx : Int := V.sx
  let V_sy : Int := V.sy
  (loop l.out_sx.toNat (fun ax (t : Int × vol α) =>
    let x := t.1
    let A := t.2
    let a := conv_window f V V_sx V_sy x y
    let a := a + rd 0 l.biases.w d
    (x + l.stride, set_vol A ax ay d a)) (-l.pad, A)).2

/-- The loop over `ay` of `conv_forward` for the channel `d` with filter `f`;
`y` runs along with `ay`. -/
def conv_plane (l : conv_layer α) (f V : vol α) (d : Nat) (A : vol α) : vol α :=
  (loop l.out_sy.toNat (fun ay (s : Int × vol α) =>
    let y := s.1
    let A := s.2
    (y + l.stride, conv_row l f V d ay y A)) (-l.pad, A)).2

/-- The body of the sample loop of `conv_forward`: the loop over the output
channels `d`, giving the new contents of `A`. -/
def conv_sample (l : conv_layer α) (V A : vol α) : vol α :=
  loop l.out_depth.toNat (fun d A =>
    conv_plane l (rd default l.filters d) V d A) A

/-- `conv_forward`: the samples `start, …, end` of `out` are recomputed. -/
def conv_forward (l : conv_layer α) (inp out : List (vol α)) (start end_ : Int) :
    List (vol α) :=
  loop (end_ + 1 - start).toNat (fun k out =>
    let i := start + (k : Int)
    let V := rdI default inp i
    let A := rdI default out i
    wrI out i (conv_sample l V A)) out

/-- The loops over `x`, `y` and `z` of `conv_load` for one filter: each
iteration reads the next value of the file and stores it at `(x, y, z)`.  The
state is the number of values read so far and the filter. -/
def conv_load_filter (sx sy depth : Int) (vals : List α) (pos : Nat) (f : vol α) :
    Nat × vol α :=
  loop sx.toNat (fun x s =>
    loop sy.toNat (fun y s =>
      loop depth.toNat (fun z (s : Nat × vol α) =>
        let val := rd 0 vals s.1
        (s.1 + 1, set_vol s.2 x y z val)) s) s) (pos, f)

/-- `conv_load`.  The parameter file is given by the four integers of its
header and the sequence `vals` of the floating-point values that follow them;
reading past the end of `vals` yields `0`.  The assertions are enabled: a
failing assertion aborts the load, which is the result `none`. -/
def conv_load (l : conv_layer α) (sx sy depth filters : Int) (vals : List α) :
    Option (conv_layer α) :=
  if sx = l.sx then
    if sy = l.sy then
      if depth = l.in_depth then
        if filters = l.out_depth then
          let s := loop l.out_depth.toNat (fun d (s : Nat × List (vol α)) =>
            let r := conv_load_filter sx sy depth vals s.1 (rd default s.2 d)
            (r.1, wr s.2 d r.2)) (0, l.filters)
          let b := loop l.out_depth.toNat (fun d (s : Nat × vol α) =>
            let val := rd 0 vals s.1
            (s.1 + 1, set_vol s.2 0 0 d val)) (s.1, l.biases)
          some { l with filters := s.2, biases := b.2 }
        else none
      else none
    else none
  else none

/-! ## Relu layer -/

/-- `struct relu_layer`. -/
structure relu_layer where
  in_depth : Int
  in_sx : Int
  in_sy : Int
  out_depth : Int
  out_sx : Int
  out_sy : Int
deriving Repr, DecidableEq

/-- `make_relu_layer`. -/
def make_relu_layer (in_sx in_sy in_depth : Int) : relu_layer :=
  { in_depth := in_depth
    in_sx := in_sx
    in_sy := in_sy
    out_sx := in_sx
    out_sy := in_sy
    out_depth := in_depth }

/-- The body of the sample loop of `relu_forward`: the new buffer of `out[j]`. -/
def relu_sample (l : relu_layer) (V A : vol α) : vol α :=
  loop (l.in_sx * l.in_sy * l.in_depth).toNat (fun i A =>
    { A with w := wr A.w i (if rd 0 V.w i < 0 then 0 else rd 0 V.w i) }) A

/-- `relu_forward`. -/
def relu_forward (l : relu_layer) (inp out : List (vol α)) (start end_ : Int) :
    List (vol α) :=
  loop (end_ + 1 - start).toNat (fun k out =>
    let j := start + (k : Int)
    wrI out j (relu_sample l (rdI default inp j) (rdI default out j))) out

/-! ## Pool layer -/

/-- `struct pool_layer`. -/
structure pool_layer where
  sx : Int
  in_depth : Int
  in_sx : Int
  in_sy : Int
  sy : Int
  stride : Int
  pad : Int
  out_depth : Int
  out_sx : Int
  out_sy : Int
deriving Repr, DecidableEq

/-- `make_pool_layer`; the division is the truncating `int` division, as in
`make_conv_layer`. -/
def make_pool_layer (in_sx in_sy in_depth sx stride : Int) : pool_layer :=
  let sy := sx
  let pad : Int := 0
  { sx := sx
    in_depth := in_depth
    in_sx := in_sx
    in_sy := in_sy
    sy := sy
    stride := stride
    pad := pad
    out_depth := in_depth
    out_sx := (in_sx + pad * 2 - sx).tdiv stride + 1
    out_sy := (in_sy + pad * 2 - sy).tdiv stride + 1 }

/-- The window scan of `pool_forward` for one output position: starting from
`-99999`, every in-bounds element larger than the running value replaces it. -/
def pool_window (l : pool_layer) (V : vol α) (x y : Int) (d : Int) : α :=
  loop l.sx.toNat (fun fx a =>
    loop l.sy.toNat (fun fy a =>
      let oy := y + (fy : Int)
      let ox := x + (fx : Int)
      if oy ≥ 0 ∧ oy < (V.sy : Int) ∧ ox ≥ 0 ∧ ox < (V.sx : Int) then
        let v := get_vol V ox oy d
        if v > a then v else a
      else a) a) (-99999)

/-- The loop over `ay` of `pool_forward` for the channel `d` and the output
column `ax`, whose window starts at the input column `x`; `y` runs along with
`ay`. -/
def pool_col (l : pool_layer) (V : vol α) (d ax : Nat) (x : Int) (A : vol α) : vol α :=
  (loop l.out_sy.toNat (fun ay (t : Int × vol α) =>
    let y := t.1
    let A := t.2
    let a := pool_window l V x y d
    (y + l.stride, set_vol A ax ay d a)) (-l.pad, A)).2

/-- The loop over `ax` of `pool_forward` for the channel `d`; `x` runs along
with `ax`. -/
def pool_plane (l : pool_layer) (V : vol α) (d : Nat) (A : vol α) : vol α :=
  (loop l.out_sx.toNat (fun ax (s : Int × vol α) =>
    let x := s.1
    let A := s.2
    (x + l.stride, pool_col l V d ax x A)) (-l.pad, A)).2

/-- The body of the sample loop of `pool_forward`: the loop over the channels
`d`, giving the new contents of `A`. -/
def pool_sample (l : pool_layer) (V A : vol α) : vol α :=
  loop l.out_depth.toNat (fun d A => pool_plane l V d A) A

/-- `pool_forward`. -/
def pool_forward (l : pool_layer) (inp out : List (vol α)) (start end_ : Int) :
    List (vol α) :=
  loop (end_ + 1 - start).toNat (fun k out =>
    let i := start + (k : Int)
    wrI out i (pool_sample l (rdI default inp i) (rdI default out i))) out

/-! ## Fully-connected layer -/

/-- `struct fc_layer`. -/
structure fc_layer (α : Type) where
  out_depth : Int
  in_depth : Int
  in_sx : Int
  in_sy : Int
  l1_decay_mul : α
  l2_decay_mul : α
  out_sx : Int
  out_sy : Int
  num_inputs : Int
  bias : α
  biases : vol α
  filters : List (vol α)

/-- `make_fc_layer`. -/
def make_fc_layer (in_sx in_sy in_depth num_neurons : Int) : fc_layer α :=
  let num_inputs := in_sx * in_sy * in_depth
  { out_depth := num_neurons
    in_depth := in_depth
    in_sx := in_sx
    in_sy := in_sy
    l1_decay_mul := 0
    l2_decay_mul := 1
    num_inputs := num_inputs
    out_sx := 1
    out_sy := 1
    filters := (List.range num_neurons.toNat).map (fun _ => make_vol 1 1 num_inputs 0)
    bias := 0
    biases := make_vol 1 1 num_neurons 0 }

/-- The value `fc_forward` computes for neuron `i`: the loop over `d`, then
the bias. -/
def fc_neuron (l : fc_layer α) (V : vol α) (i : Nat) : α :=
  let a := loop l.num_inputs.toNat (fun d a =>
    a + rd 0 V.w d * rd 0 (rd default l.filters i).w d) 0
  a + rd 0 l.biases.w i

/-- The body of the sample loop of `fc_forward`: the new contents of `A`. -/
def fc_sample (l : fc_layer α) (V A : vol α) : vol α :=
  loop l.out_depth.toNat (fun i A => { A with w := wr A.w i (fc_neuron l V i) }) A

/-- `fc_forward`. -/
def fc_forward (l : fc_layer α) (inp out : List (vol α)) (start end_ : Int) :
    List (vol α) :=
  loop (end_ + 1 - start).toNat (fun k out =>
    let j := start + (k : Int)
    wrI out j (fc_sample l (rdI default inp j) (rdI default out j))) out

/-- The loop over `d` of `fc_load` for one neuron: each iteration reads the
next value of the file and stores it in `filters[i]->w[d]`. -/
def fc_load_filter (num_inputs : Int) (vals : List α) (pos : Nat) (f : vol α) :
    Nat × vol α :=
  loop num_inputs.toNat (fun d (s : Nat × vol α) =>
    let val := rd 0 vals s.1
    (s.1 + 1, { s.2 with w := wr s.2.w d val })) (pos, f)

/-- `fc_load`, on the two integers of the header and the values `vals` that
follow them, with the conventions of `conv_load`. -/
def fc_load (l : fc_layer α) (num_inputs out_depth : Int) (vals : List α) :
    Option (fc_layer α) :=
  if out_depth = l.out_depth then
    if num_inputs = l.num_inputs then
      let s := loop l.out_depth.toNat (fun i (s : Nat × List (vol α)) =>
        let r := fc_load_filter l.num_inputs vals s.1 (rd default s.2 i)
        (r.1, wr s.2 i r.2)) (0, l.filters)
      let b := loop l.out_depth.toNat (fun i (s : Nat × vol α) =>
        let val := rd 0 vals s.1
        (s.1 + 1, { s.2 with w := wr s.2.w i val })) (s.1, l.biases)
      some { l with filters := s.2, biases := b.2 }
    else none
  else none

/-! ## Softmax layer -/

/-- `MAX_ES`: the maximum supported `out_depth`. -/
def MAX_ES : Nat := 16

/-- `struct softmax_layer`; the field `es` is allocated and never used. -/
structure softmax_layer where
  in_depth : Int
  in_sx : Int
  in_sy : Int
  out_depth : Int
  out_sx : Int
  out_sy : Int
deriving Repr, DecidableEq

/-- `make_softmax_layer`. -/
def make_softmax_layer (in_sx in_sy in_depth : Int) : softmax_layer :=
  { in_depth := in_depth
    in_sx := in_sx
    in_sy := in_sy
    out_sx := 1
    out_sy := 1
    out_depth := in_sx * in_sy * in_depth }

/-- The first loop of `softmax_forward`: the maximal activation. -/
def softmax_amax (l : softmax_layer) (V : vol α) : α :=
  loop (l.out_depth - 1).toNat (fun k amax =>
    let i := k + 1
    if rd 0 V.w i > amax then rd 0 V.w i else amax) (rd 0 V.w 0)

/-- The second loop of `softmax_forward`: the exponentials and their sum. -/
def softmax_exps (exp : α → α) (l : softmax_layer) (V : vol α) (amax : α)
    (es : List α) : α × List α :=
  loop l.out_depth.toNat (fun i (s : α × List α) =>
    let esum := s.1
    let es := s.2
    let e := exp (rd 0 V.w i - amax)
    (esum + e, wr es i e)) (0, es)

/-- The third loop of `softmax_forward`: normalise and output. -/
def softmax_norm (l : softmax_layer) (esum : α) (es : List α) (A : vol α) :
    List α × vol α :=
  loop l.out_depth.toNat (fun i (s : List α × vol α) =>
    let es := s.1
    let A := s.2
    let es := wr es i (rd 0 es i / esum)
    (es, { A with w := wr A.w i (rd 0 es i) })) (es, A)

/-- The body of the sample loop of `softmax_forward` on the scratch array `es`
and the output volume `A`. -/
def softmax_sample (exp : α → α) (l : softmax_layer) (V : vol α) (es : List α)
    (A : vol α) : List α × vol α :=
  let amax := softmax_amax l V
  let s := softmax_exps exp l V amax es
  softmax_norm l s.1 s.2 A

/-- `softmax_forward`; the scratch array `es` has `MAX_ES` cells and lives
across the samples. -/
def softmax_forward (exp : α → α) (l : softmax_layer) (inp out : List (vol α))
    (start end_ : Int) : List (vol α) :=
  (loop (end_ + 1 - start).toNat (fun k (s : List α × List (vol α)) =>
    let j := start + (k : Int)
    let es := s.1
    let out := s.2
    let r := softmax_sample exp l (rdI default inp j) es (rdI default out j)
    (r.1, wrI out j r.2)) (List.replicate MAX_ES 0, out)).2

/-! ## Network -/

/-- `LAYERS`. -/
def LAYERS : Nat := 11

/-- `struct network`. -/
structure network (α : Type) where
  v : List (vol α)
  l0 : conv_layer α
  l1 : relu_layer
  l2 : pool_layer
  l3 : conv_layer α
  l4 : relu_layer
  l5 : pool_layer
  l6 : conv_layer α
  l7 : relu_layer
  l8 : pool_layer
  l9 : fc_layer α
  l10 : softmax_layer

/-- `make_network`. -/
def make_network : network α :=
  let v0 : vol α := make_vol 32 32 3 0
  let l0 : conv_layer α := make_conv_layer 32 32 3 5 16 1 2
  let v1 : vol α := make_vol l0.out_sx l0.out_sy l0.out_depth 0
  let l1 := make_relu_layer v1.sx v1.sy v1.depth
  let v2 : vol α := make_vol l1.out_sx l1.out_sy l1.out_depth 0
  let l2 := make_pool_layer v2.sx v2.sy v2.depth 2 2
  let v3 : vol α := make_vol l2.out_sx l2.out_sy l2.out_depth 0
  let l3 : conv_layer α := make_conv_layer v3.sx v3.sy v3.depth 5 20 1 2
  let v4 : vol α := make_vol l3.out_sx l3.out_sy l3.out_depth 0
  let l4 := make_relu_layer v4.sx v4.sy v4.depth
  let v5 : vol α := make_vol l4.out_sx l4.out_sy l4.out_depth 0
  let l5 := make_pool_layer v5.sx v5.sy v5.depth 2 2
  let v6 : vol α := make_vol l5.out_sx l5.out_sy l5.out_depth 0
  let l6 : conv_layer α := make_conv_layer v6.sx v6.sy v6.depth 5 20 1 2
  let v7 : vol α := make_vol l6.out_sx l6.out_sy l6.out_depth 0
  let l7 := make_relu_layer v7.sx v7.sy v7.depth
  let v8 : vol α := make_vol l7.out_sx l7.out_sy l7.out_depth 0
  let l8 := make_pool_layer v8.sx v8.sy v8.depth 2 2
  let v9 : vol α := make_vol l8.out_sx l8.out_sy l8.out_depth 0
  let l9 : fc_layer α := make_fc_layer v9.sx v9.sy v9.depth 10
  let v10 : vol α := make_vol l9.out_sx l9.out_sy l9.out_depth 0
  let l10 := make_softmax_layer v10.sx v10.sy v10.depth
  let v11 : vol α := make_vol l10.out_sx l10.out_sy l10.out_depth 0
  { v := [v0, v1, v2, v3, v4, v5, v6, v7, v8, v9, v10, v11]
    l0 := l0, l1 := l1, l2 := l2, l3 := l3, l4 := l4, l5 := l5
    l6 := l6, l7 := l7, l8 := l8, l9 := l9, l10 := l10 }

/-- `make_batch`: for each of the `LAYERS+1` boundaries, `size` fresh volumes
of that boundary's dimensions. -/
def make_batch (old_net : network α) (size : Int) : List (List (vol α)) :=
  (List.range (LAYERS + 1)).map (fun i =>
    (List.range size.toNat).map (fun _ =>
      make_vol ((rd default old_net.v i).sx : Int) ((rd default old_net.v i).sy : Int)
        ((rd default old_net.v i).depth : Int) 0))

/-- `net_forward`: the eleven layers in order, each from slot `k` to slot
`k + 1` of the batch, over the same range of samples. -/
def net_forward (exp : α → α) (net : network α) (v : List (List (vol α)))
    (start end_ : Int) : List (List (vol α)) :=
  let v := wr v 1 (conv_forward net.l0 (rd [] v 0) (rd [] v 1) start end_)
  let v := wr v 2 (relu_forward net.l1 (rd [] v 1) (rd [] v 2) start end_)
  let v := wr v 3 (pool_forward net.l2 (rd [] v 2) (rd [] v 3) start end_)
  let v := wr v 4 (conv_forward net.l3 (rd [] v 3) (rd [] v 4) start end_)
  let v := wr v 5 (relu_forward net.l4 (rd [] v 4) (rd [] v 5) start end_)
  let v := wr v 6 (pool_forward net.l5 (rd [] v 5) (rd [] v 6) start end_)
  let v := wr v 7 (conv_forward net.l6 (rd [] v 6) (rd [] v 7) start end_)
  let v := wr v 8 (relu_forward net.l7 (rd [] v 7) (rd [] v 8) start end_)
  let v := wr v 9 (pool_forward net.l8 (rd [] v 8) (rd [] v 9) start end_)
  let v := wr v 10 (fc_forward net.l9 (rd [] v 9) (rd [] v 10) start end_)
  let v := wr v 11 (softmax_forward exp net.l10 (rd [] v 10) (rd [] v 11) start end_)
  v

/-- `CAT_LABEL`. -/
def CAT_LABEL : Nat := 3

/-- The first two statements of the body of the image loop of
`net_classify_cats`: a fresh batch of one sample, with the image copied into
the volume of slot 0. -/
def image_batch (net : network α) (image : vol α) : List (List (vol α)) :=
  let batch := make_batch net 1
  wr batch 0 (wr (rd [] batch 0) 0 (copy_vol (rd default (rd [] batch 0) 0) image))

/-- The body of the image loop of `net_classify_cats` for one image: the batch
holding the image, the forward pass on its sample 0, and the likelihood read
at `CAT_LABEL` in the last slot. -/
def classify_one (exp : α → α) (net : network α) (image : vol α) : α :=
  let batch := image_batch net image
  let batch := net_forward exp net batch 0 0
  rd 0 (rd default (rd [] batch 11) 0).w CAT_LABEL

/-- `net_classify_cats`: the iterations of the image loop are independent
(each has its own batch and writes `output[i]` only); they are run in index
order. -/
def net_classify_cats (exp : α → α) (net : network α) (input : List (vol α))
    (output : List α) (n : Int) : List α :=
  loop n.toNat (fun i output => wr output i (classify_one exp net (rd default input i))) output

end Defs

/-! ## Definitions used in the statements and proofs -/

section SpecDefs

/-- The buffer `w'` arises from `w` by writing `val j` at the indices `j` in
`W` (those inside the buffer) and leaving every other cell as it was. -/
def Writes {β : Type} (W : Nat → Prop) (val : Nat → β) (w w' : List β) : Prop :=
  w'.length = w.length ∧
    ∀ j, (W j → j < w.length → w'[j]? = some (val j)) ∧ (¬ W j → w'[j]? = w[j]?)

/-- The buffer index of the coordinate `(x, y, d)` as a natural number. -/
def flat (sx depth x y d : Nat) : Nat := (sx * y + x) * depth + d

/-- The coordinate `x` of a buffer index. -/
def unflat_x (sx depth j : Nat) : Nat := (j / depth) % sx

/-- The coordinate `y` of a buffer index. -/
def unflat_y (sx depth j : Nat) : Nat := (j / depth) / sx

/-- The coordinate `d` of a buffer index. -/
def unflat_d (depth j : Nat) : Nat := j % depth

variable {α : Type}

/-- The volume `B` has the dimensions of `A`, and its buffer arises from that
of `A` by the writes `W`, `val`. -/
def VWrites (W : Nat → Prop) (val : Nat → α) (A B : vol α) : Prop :=
  B.sx = A.sx ∧ B.sy = A.sy ∧ B.depth = A.depth ∧ Writes W val A.w B.w

/-- The volume `B` has the dimensions and the buffer length of `A`. -/
def SameShape (A B : vol α) : Prop :=
  B.sx = A.sx ∧ B.sy = A.sy ∧ B.depth = A.depth ∧ B.w.length = A.w.length

/-- The value function on buffer indices induced by a function of the
coordinates, for a volume of row length `sx` and depth `depth`. -/
def coord_val (sx depth : Nat) (g : Nat → Nat → Nat → α) (j : Nat) : α :=
  g (unflat_x sx depth j) (unflat_y sx depth j) (unflat_d depth j)

variable [LinearOrderedField α]

/-- The input `V` extended by zero outside `0 ≤ x < in_sx`, `0 ≤ y < in_sy`
(the zero-padded input of the specification). -/
def zero_ext (V : vol α) (in_sx in_sy : Int) (x y d : Int) : α :=
  if 0 ≤ x ∧ x < in_sx ∧ 0 ≤ y ∧ y < in_sy then get_vol V x y d else 0

/-- The value `conv_forward` stores at the output coordinate `(ax, ay, d)`:
the accumulation over the window that starts at
`(-pad + ax * stride, -pad + ay * stride)`, plus the bias of channel `d`. -/
def conv_out (l : conv_layer α) (V : vol α) (ax ay d : Nat) : α :=
  conv_window (rd default l.filters d) V (V.sx : Int) (V.sy : Int)
      (-l.pad + (ax : Int) * l.stride) (-l.pad + (ay : Int) * l.stride)
    + rd 0 l.biases.w d

/-- The shape conditions under which `conv_forward` is specified for the
input `V` and the output `A` of one sample: both have the dimensions the
layer records, every filter has the dimensions `sx × sy × in_depth`, there is
a bias per output channel, and every buffer has the length of its volume. -/
structure conv_ok (l : conv_layer α) (V A : vol α) : Prop where
  V_sx : (V.sx : Int) = l.in_sx
  V_sy : (V.sy : Int) = l.in_sy
  V_depth : (V.depth : Int) = l.in_depth
  V_len : V.w.length = V.sx * V.sy * V.depth
  V_size : V.sx * V.sy * V.depth < 2 ^ 64
  A_sx : (A.sx : Int) = l.out_sx
  A_sy : (A.sy : Int) = l.out_sy
  A_depth : (A.depth : Int) = l.out_depth
  A_len : A.w.length = A.sx * A.sy * A.depth
  A_size : A.sx * A.sy * A.depth < 2 ^ 64
  filters_len : l.filters.length = l.out_depth.toNat
  filters_shape : ∀ f, f ∈ l.filters →
    (f.sx : Int) = l.sx ∧ (f.sy : Int) = l.sy ∧ (f.depth : Int) = l.in_depth ∧
      f.w.length = f.sx * f.sy * f.depth ∧ f.sx * f.sy * f.depth < 2 ^ 64
  biases_len : l.biases.w.length = l.out_depth.toNat

end SpecDefs

/-- The exponential `softmax_forward` computes for the element `i`. -/
def softmax_e {α : Type} [LinearOrderedField α] (exp : α → α) (l : softmax_layer) (V : vol α)
    (i : Nat) : α :=
  exp (rd 0 V.w i - softmax_amax l V)

/-- The sum of the exponentials over the `out_depth` elements. -/
def softmax_esum {α : Type} [LinearOrderedField α] (exp : α → α) (l : softmax_layer)
    (V : vol α) : α :=
  ∑ i in Finset.range l.out_depth.toNat, softmax_e exp l V i

/-- The value `softmax_forward` stores at the output element `i`. -/
def softmax_out {α : Type} [LinearOrderedField α] (exp : α → α) (l : softmax_layer)
    (V : vol α) (i : Nat) : α :=
  softmax_e exp l V i / softmax_esum exp l V

/-- The dimensions `(sx, sy, depth)` of a volume. -/
def vol_dims {α : Type} (v : vol α) : Int × Int × Int := (v.sx, v.sy, v.depth)

/-- The input dimensions and the output dimensions recorded by each of the
eleven layers of a network, in order. -/
def layer_dims {α : Type} (net : network α) : List ((Int × Int × Int) × (Int × Int × Int)) :=
  [ ((net.l0.in_sx, net.l0.in_sy, net.l0.in_depth), (net.l0.out_sx, net.l0.out_sy, net.l0.out_depth)),
    ((net.l1.in_sx, net.l1.in_sy, net.l1.in_depth), (net.l1.out_sx, net.l1.out_sy, net.l1.out_depth)),
    ((net.l2.in_sx, net.l2.in_sy, net.l2.in_depth), (net.l2.out_sx, net.l2.out_sy, net.l2.out_depth)),
    ((net.l3.in_sx, net.l3.in_sy, net.l3.in_depth), (net.l3.out_sx, net.l3.out_sy, net.l3.out_depth)),
    ((net.l4.in_sx, net.l4.in_sy, net.l4.in_depth), (net.l4.out_sx, net.l4.out_sy, net.l4.out_depth)),
    ((net.l5.in_sx, net.l5.in_sy, net.l5.in_depth), (net.l5.out_sx, net.l5.out_sy, net.l5.out_depth)),
    ((net.l6.in_sx, net.l6.in_sy, net.l6.in_depth), (net.l6.out_sx, net.l6.out_sy, net.l6.out_depth)),
    ((net.l7.in_sx, net.l7.in_sy, net.l7.in_depth), (net.l7.out_sx, net.l7.out_sy, net.l7.out_depth)),
    ((net.l8.in_sx, net.l8.in_sy, net.l8.in_depth), (net.l8.out_sx, net.l8.out_sy, net.l8.out_depth)),
    ((net.l9.in_sx, net.l9.in_sy, net.l9.in_depth), (net.l9.out_sx, net.l9.out_sy, net.l9.out_depth)),
    ((net.l10.in_sx, net.l10.in_sy, net.l10.in_depth),
      (net.l10.out_sx, net.l10.out_sy, net.l10.out_depth)) ]

/-- The output size of the shape law of the specification: the floor of
`(in + 2 * pad - field) / stride + 1`, with exact (rational) division. -/
def shape_law (inp pad field stride : Int) : Int :=
  ⌊((inp + 2 * pad - field : Int) : ℚ) / ((stride : Int) : ℚ) + 1⌋

/-- The conditions on a network under which its output depends on the biases
of the fully-connected layer only: the last two boundary volumes are
`1 × 1 × 10`, the last two layers have ten outputs, and every filter weight of
the fully-connected layer reads `0`. -/
structure fc_zero_filters {α : Type} [LinearOrderedField α] (net : network α) : Prop where
  v10 : (rd default net.v 10).sx = 1 ∧ (rd default net.v 10).sy = 1 ∧
    (rd default net.v 10).depth = 10
  v11 : (rd default net.v 11).sx = 1 ∧ (rd default net.v 11).sy = 1 ∧
    (rd default net.v 11).depth = 10
  l9_out : net.l9.out_depth = 10
  l10_out : net.l10.out_depth = 10
  filters : ∀ i d, rd 0 (rd default net.l9.filters i).w d = 0

/-- The vector of the ten biases of the fully-connected layer. -/
def bias_vol {α : Type} [LinearOrderedField α] (net : network α) : vol α :=
  { sx := 1, sy := 1, depth := 10,
    w := (List.range 10).map (fun i => rd 0 net.l9.biases.w i) }

/-- The network of `make_network` in which the bias of the fully-connected
layer at the class index `CAT_LABEL` is set to `b` (the assignment
`l->biases->w[i] = val` of `fc_load`); every other filter weight and bias of
every layer keeps the value zero given by `make_network`. -/
def cat_bias_network {α : Type} [LinearOrderedField α] (b : α) : network α :=
  let net : network α := make_network
  { net with
    l9 := { net.l9 with
      biases := { net.l9.biases with w := wr net.l9.biases.w CAT_LABEL b } } }

/-- The volume `V` with `c` added to every element. -/
def shift_vol {α : Type} [LinearOrderedField α] (c : α) (V : vol α) : vol α :=
  { V with w := V.w.map (fun x => x + c) }

/-! ## Concrete inputs -/

/-- A convolution layer on `3 × 3 × 5` inputs with one `2 × 2 × 5` filter,
stride 1 and pad 1. -/
def conv_example_layer : conv_layer ℚ :=
  { (make_conv_layer 3 3 5 2 1 1 1 : conv_layer ℚ) with
    filters := [⟨2, 2, 5, (List.range 20).map (fun i => (i : ℚ) + 1)⟩]
    biases := ⟨1, 1, 1, [7]⟩ }

/-- An input volume for `conv_example_layer`. -/
def conv_example_in : vol ℚ := ⟨3, 3, 5, (List.range 45).map (fun i => (i : ℚ) * (i : ℚ))⟩

/-- An output volume for `conv_example_layer`. -/
def conv_example_out : vol ℚ := ⟨4, 4, 1, List.replicate 16 0⟩

/-- A fully-connected layer with two neurons on `1 × 1 × 3` inputs. -/
def fc_example_layer : fc_layer ℚ :=
  { (make_fc_layer 1 1 3 2 : fc_layer ℚ) with
    filters := [⟨1, 1, 3, [1, 2, 3]⟩, ⟨1, 1, 3, [-1, 0, 4]⟩]
    biases := ⟨1, 1, 2, [10, 20]⟩ }

/-- The volume `V` with every element multiplied by `c`. -/
def scale_vol {α : Type} [LinearOrderedField α] (c : α) (V : vol α) : vol α :=
  { V with w := V.w.map (fun x => c * x) }

/-- An all-zero input volume for `conv_example_layer`. -/
def conv_example_zero : vol ℚ := ⟨3, 3, 5, List.replicate 45 0⟩

/-- The layer `conv_example_layer` with its bias set to zero. -/
def conv_example_nobias : conv_layer ℚ :=
  { conv_example_layer with biases := ⟨1, 1, 1, [0]⟩ }

/-- The value `pool_forward` stores at the output coordinate `(ax, ay, d)`: the
scan of the window that starts at `(-pad + ax * stride, -pad + ay * stride)`. -/
def pool_out {α : Type} [LinearOrderedField α] (l : pool_layer) (V : vol α)
    (ax ay d : Nat) : α :=
  pool_window l V (-l.pad + (ax : Int) * l.stride) (-l.pad + (ay : Int) * l.stride) (d : Int)

/-- The shape conditions under which `pool_forward` is specified for the input
`V` and the output `A` of one sample: both have the dimensions the layer
records and buffers of the length of their volume. -/
structure pool_ok {α : Type} (l : pool_layer) (V A : vol α) : Prop where
  V_sx : (V.sx : Int) = l.in_sx
  V_sy : (V.sy : Int) = l.in_sy
  V_depth : (V.depth : Int) = l.in_depth
  V_len : V.w.length = V.sx * V.sy * V.depth
  V_size : V.sx * V.sy * V.depth < 2 ^ 64
  A_sx : (A.sx : Int) = l.out_sx
  A_sy : (A.sy : Int) = l.out_sy
  A_depth : (A.depth : Int) = l.out_depth
  A_len : A.w.length = A.sx * A.sy * A.depth
  A_size : A.sx * A.sy * A.depth < 2 ^ 64

/-- An input volume for a pool layer on `2 × 2 × 1` inputs. -/
def pool_example_in : vol ℚ := ⟨2, 2, 1, [1, 5, 3, 2]⟩

/-- The shape conditions under which `conv_load` is specified: there is a
filter per output channel, every filter has the dimensions
`sx × sy × in_depth` and a buffer of that many cells, the bias volume is
`1 × 1 × out_depth`, and the dimensions are non-negative. -/
structure conv_load_ok {α : Type} (l : conv_layer α) : Prop where
  sx_nonneg : 0 ≤ l.sx
  sy_nonneg : 0 ≤ l.sy
  depth_nonneg : 0 ≤ l.in_depth
  out_nonneg : 0 ≤ l.out_depth
  filters_len : l.filters.length = l.out_depth.toNat
  filters_shape : ∀ f, f ∈ l.filters →
    (f.sx : Int) = l.sx ∧ (f.sy : Int) = l.sy ∧ (f.depth : Int) = l.in_depth ∧
      f.w.length = f.sx * f.sy * f.depth ∧ f.sx * f.sy * f.depth < 2 ^ 64
  biases_sx : l.biases.sx = 1
  biases_sy : l.biases.sy = 1
  biases_depth : (l.biases.depth : Int) = l.out_depth
  biases_len : l.biases.w.length = l.biases.depth
  biases_size : l.biases.depth < 2 ^ 64

/-- A convolution layer with two `2 × 2 × 2` filters, as built by
`make_conv_layer`. -/
def load_example_layer : conv_layer ℚ := make_conv_layer 2 2 2 2 2 1 0

/-- The sample loop shared by the forward functions: for every `i` from
`start` to `end`, `out[i]` is replaced by `F in[i] out[i]`. -/
def sample_loop {α : Type} (F : vol α → vol α → vol α) (inp out : List (vol α))
    (start end_ : Int) : List (vol α) :=
  loop (end_ + 1 - start).toNat (fun k out =>
    wrI out (start + (k : Int))
      (F (rdI default inp (start + (k : Int))) (rdI default out (start + (k : Int))))) out

/-- Two volumes have the same dimensions. -/
def same_dims {α : Type} (A B : vol α) : Prop :=
  A.sx = B.sx ∧ A.sy = B.sy ∧ A.depth = B.depth

/-- Range processing of a forward operation `op` is framed and per-sample,
for output volumes that satisfy `P`: the number of samples is kept; nothing
changes when `start > end`; the samples outside `[start, end]` are left
unchanged; the sample `i` of the result is that of the call with the range
`[i, i]`; and it is determined by the input volume of the sample `i` alone,
whatever the other samples and whatever the previous contents of the output
volume (of the given dimensions) are. -/
def range_framed {α : Type} (P : vol α → Prop)
    (op : List (vol α) → List (vol α) → Int → Int → List (vol α)) : Prop :=
  (∀ inp out s e, (op inp out s e).length = out.length) ∧
  (∀ inp out s e, e < s → op inp out s e = out) ∧
  (∀ inp out s e (j : Nat), 0 ≤ s → ¬ (s ≤ (j : Int) ∧ (j : Int) ≤ e) →
    (op inp out s e)[j]? = out[j]?) ∧
  (∀ inp out s e (i : Nat), 0 ≤ s → s ≤ (i : Int) → (i : Int) ≤ e →
    (op inp out s e)[i]? = (op inp out (i : Int) (i : Int))[i]?) ∧
  (∀ inp inp' out out' s e (i : Nat) V A A', 0 ≤ s → s ≤ (i : Int) → (i : Int) ≤ e →
    inp[i]? = some V → inp'[i]? = some V → out[i]? = some A → out'[i]? = some A' →
    P A → P A' → same_dims A A' →
    (op inp out s e)[i]? = (op inp' out' (i : Int) (i : Int))[i]?)

/-- The output volume `A` has the dimensions `(osx, osy, odepth)` and a buffer
of that many cells. -/
def out_ok {α : Type} (osx osy odepth : Int) (A : vol α) : Prop :=
  (A.sx : Int) = osx ∧ (A.sy : Int) = osy ∧ (A.depth : Int) = odepth ∧
    A.w.length = A.sx * A.sy * A.depth ∧ A.sx * A.sy * A.depth < 2 ^ 64

/-- The buffer of the output volume `A` has `n` cells. -/
def buf_ok {α : Type} (n : Nat) (A : vol α) : Prop := A.w.length = n

/-- The sample body `F` is determined by its input volume and the dimensions
of its output volume, for output volumes satisfying `P`. -/
def determined {α : Type} (P : vol α → Prop) (F : vol α → vol α → vol α) : Prop :=
  ∀ V A A', P A → P A' → same_dims A A' → F V A = F V A'

/-- The forward pass as a chain of sample loops: the body number `n` of the
list reads the slot `k + n` of the batch and rewrites the slot `k + n + 1`. -/
def net_fold {α : Type} (Fs : List (vol α → vol α → vol α)) (k : Nat)
    (v : List (List (vol α))) (s e : Int) : List (List (vol α)) :=
  match Fs with
  | [] => v
  | F :: Fs =>
    net_fold Fs (k + 1)
      (wr v (k + 1) (sample_loop F (rd [] v k) (rd [] v (k + 1)) s e)) s e

/-- The sample bodies of the eleven layers of a network, in order. -/
def net_bodies {α : Type} [LinearOrderedField α] (exp : α → α) (net : network α) :
    List (vol α → vol α → vol α) :=
  [conv_sample net.l0, relu_sample net.l1, pool_sample net.l2,
    conv_sample net.l3, relu_sample net.l4, pool_sample net.l5,
    conv_sample net.l6, relu_sample net.l7, pool_sample net.l8,
    fc_sample net.l9,
    fun V A => (softmax_sample exp net.l10 V (List.replicate MAX_ES 0) A).2]

/-- The conditions on the output volumes of the eleven layers of a network, in
order: the dimensions and buffer length the layer records for its output. -/
def net_out_ok {α : Type} (net : network α) : List (vol α → Prop) :=
  [out_ok net.l0.out_sx net.l0.out_sy net.l0.out_depth,
    buf_ok (net.l1.in_sx * net.l1.in_sy * net.l1.in_depth).toNat,
    out_ok net.l2.out_sx net.l2.out_sy net.l2.out_depth,
    out_ok net.l3.out_sx net.l3.out_sy net.l3.out_depth,
    buf_ok (net.l4.in_sx * net.l4.in_sy * net.l4.in_depth).toNat,
    out_ok net.l5.out_sx net.l5.out_sy net.l5.out_depth,
    out_ok net.l6.out_sx net.l6.out_sy net.l6.out_depth,
    buf_ok (net.l7.in_sx * net.l7.in_sy * net.l7.in_depth).toNat,
    out_ok net.l8.out_sx net.l8.out_sy net.l8.out_depth,
    buf_ok net.l9.out_depth.toNat,
    buf_ok net.l10.out_depth.toNat]

/-- Range processing of `net_forward` is framed and per-sample: the number of
slots is kept; nothing changes when `start > end`; in every slot the samples
outside `[start, end]` are left unchanged; in every slot the sample `i` of the
result is that of the call with the range `[i, i]`; and for two batches of
`LAYERS + 1` slots whose sample `i` has the same input volume in slot 0 and,
in the slots `1, …, LAYERS`, output volumes of the same dimensions that
satisfy the conditions `net_out_ok` of the layers, the sample `i` of the
result is the same in every slot. -/
def net_framed {α : Type} [LinearOrderedField α] (exp : α → α) (net : network α) : Prop :=
  (∀ v s e, (net_forward exp net v s e).length = v.length) ∧
  (∀ v s e, e < s → net_forward exp net v s e = v) ∧
  (∀ v s e (j : Nat), 0 ≤ s → ¬ (s ≤ (j : Int) ∧ (j : Int) ≤ e) →
    ∀ m, (rd [] (net_forward exp net v s e) m)[j]? = (rd [] v m)[j]?) ∧
  (∀ v s e (i : Nat), 0 ≤ s → s ≤ (i : Int) → (i : Int) ≤ e →
    ∀ m, (rd [] (net_forward exp net v s e) m)[i]?
      = (rd [] (net_forward exp net v (i : Int) (i : Int)) m)[i]?) ∧
  (∀ v v' s e (i : Nat), 0 ≤ s → s ≤ (i : Int) → (i : Int) ≤ e →
    v.length = LAYERS + 1 → v'.length = LAYERS + 1 →
    (rd [] v 0)[i]? = (rd [] v' 0)[i]? →
    (∀ (n : Nat) (P : vol α → Prop), (net_out_ok net)[n]? = some P →
      ∃ A A', (rd [] v (n + 1))[i]? = some A ∧ (rd [] v' (n + 1))[i]? = some A' ∧
        P A ∧ P A' ∧ same_dims A A') →
    ∀ m, (rd [] (net_forward exp net v s e) m)[i]?
      = (rd [] (net_forward exp net v' (i : Int) (i : Int)) m)[i]?)

/-- The softmax of the specification without stabilisation: the exponential of
the element `i` divided by the sum of the exponentials of the `n` elements. -/
def softmax_unstabilized {α : Type} [LinearOrderedField α] (exp : α → α) (n : Nat)
    (V : vol α) (i : Nat) : α :=
  exp (rd 0 V.w i) / ∑ j in Finset.range n, exp (rd 0 V.w j)

/-- The outcomes of the bounds test of the window scan of `pool_forward` for
the window that starts at `(x, y)`, in the order of the scan (`fx` outer, `fy`
inner): `true` where the position `(x + fx, y + fy)` lies inside the input. -/
def pool_window_checks {α : Type} (l : pool_layer) (V : vol α) (x y : Int) : List Bool :=
  loop l.sx.toNat (fun fx t =>
    loop l.sy.toNat (fun fy t =>
      let oy := y + (fy : Int)
      let ox := x + (fx : Int)
      t ++ [decide (oy ≥ 0 ∧ oy < (V.sy : Int) ∧ ox ≥ 0 ∧ ox < (V.sx : Int))]) t) []

/-- The network has the relu, pool and softmax layers of `make_network`; its
convolution and fully-connected layers, which hold the parameters, are
arbitrary. -/
structure fixed_layout {α : Type} [LinearOrderedField α] (net : network α) : Prop where
  l1 : net.l1 = (make_network (α := α)).l1
  l2 : net.l2 = (make_network (α := α)).l2
  l4 : net.l4 = (make_network (α := α)).l4
  l5 : net.l5 = (make_network (α := α)).l5
  l7 : net.l7 = (make_network (α := α)).l7
  l8 : net.l8 = (make_network (α := α)).l8
  l10 : net.l10 = (make_network (α := α)).l10

/-- The buffer indices read by the body of the block loop of `conv_forward` at
`fd`, appended to the list `t` in the order of the four statements: each pair
is the index into `f->w` and the index into `V->w` of one product. -/
def conv_block_reads (fSx V_sx fdep vdep fy fx oy ox fd : Int) (t : List (Int × Int)) :
    List (Int × Int) :=
  let first : Int := ((fSx * fy) + fx) * fdep + fd
  let sec : Int := ((V_sx * oy) + ox) * vdep + fd
  let t := t ++ [(first, sec)]
  let t := t ++ [(first + 1, sec + 1)]
  let t := t ++ [(first + 2, sec + 2)]
  let t := t ++ [(first + 3, sec + 3)]
  t

/-- The buffer indices read by the body of the remainder loop of
`conv_forward` at `fd`, appended to the list `t`. -/
def conv_rest_reads {α : Type} (f V : vol α) (V_sx fy fx oy ox fd : Int)
    (t : List (Int × Int)) : List (Int × Int) :=
  t ++ [((u64 ((((f.sx : Int) * fy) + fx) * (f.depth : Int) + fd) : Int),
    (u64 (((V_sx * oy) + ox) * (V.depth : Int) + fd) : Int))]

/-- The buffer indices read by the two loops over `fd` of `conv_forward`, in
the order of the reads. -/
def conv_depth_reads {α : Type} (f V : vol α) (fSx V_sx fdep vdep fy fx oy ox : Int) :
    List (Int × Int) :=
  let t := loop ((fdep.tdiv 4 * 4 + 3).tdiv 4).toNat
    (fun k t => conv_block_reads fSx V_sx fdep vdep fy fx oy ox (4 * (k : Int)) t) []
  loop (fdep - fdep.tdiv 4 * 4).toNat
    (fun k t => conv_rest_reads f V V_sx fy fx oy ox (fdep.tdiv 4 * 4 + (k : Int)) t) t

/-- The plain loop over `fd` of the specification: the products of the element
`(fx, fy, fd)` of the filter and the element `(ox, oy, fd)` of the input are
added to `a` for `fd = 0, 1, …, fdep - 1` in this order. -/
def conv_depth_plain {α : Type} [LinearOrderedField α] (f V : vol α) (fx fy ox oy : Nat)
    (a : α) : α :=
  loop f.depth (fun fd a =>
    a + get_vol f (fx : Int) (fy : Int) (fd : Int) * get_vol V (ox : Int) (oy : Int) (fd : Int)) a

/-- A `2 × 2 × 6` filter. -/
def depth_example_f : vol ℚ := ⟨2, 2, 6, (List.range 24).map (fun i => (i : ℚ) + 1)⟩

/-- A `3 × 3 × 6` input volume. -/
def depth_example_V : vol ℚ := ⟨3, 3, 6, (List.range 54).map (fun i => (i : ℚ) * (i : ℚ))⟩

/-- The convolution layer `c` with non-zero parameters in place of the zeros of
`make_conv_layer`: the weight number `i` of the filter of channel `d` is
`(i + 1) / (d + 2)`, and the bias of channel `d` is `d - 3`. -/
def example_conv (c : conv_layer ℚ) : conv_layer ℚ :=
  { c with
    filters := List.map (fun d : Nat =>
      ({ sx := c.sx.toNat, sy := c.sy.toNat, depth := c.in_depth.toNat,
         w := List.map (fun i : Nat => ((i : ℚ) + 1) / ((d : ℚ) + 2))
           (List.range (c.sx * c.sy * c.in_depth).toNat) } : vol ℚ))
      (List.range c.out_depth.toNat)
    biases := { sx := 1, sy := 1, depth := c.out_depth.toNat,
                w := List.map (fun d : Nat => (d : ℚ) - 3) (List.range c.out_depth.toNat) } }

/-- The fully-connected layer `c` with non-zero parameters: the weight number
`i` of the neuron `n` is `(i - n) / 7`, and the bias of the neuron `n` is
`n / 2 - 1`. -/
def example_fc (c : fc_layer ℚ) : fc_layer ℚ :=
  { c with
    filters := List.map (fun n : Nat =>
      ({ sx := 1, sy := 1, depth := c.num_inputs.toNat,
         w := List.map (fun i : Nat => ((i : ℚ) - (n : ℚ)) / 7)
           (List.range c.num_inputs.toNat) } : vol ℚ))
      (List.range c.out_depth.toNat)
    biases := { sx := 1, sy := 1, depth := c.out_depth.toNat,
                w := List.map (fun n : Nat => (n : ℚ) / 2 - 1) (List.range c.out_depth.toNat) } }

/-- The network of `make_network` with the non-zero parameters of
`example_conv` and `example_fc` in its four layers that have parameters. -/
def example_network : network ℚ :=
  { (make_network (α := ℚ)) with
    l0 := example_conv (make_network (α := ℚ)).l0
    l3 := example_conv (make_network (α := ℚ)).l3
    l6 := example_conv (make_network (α := ℚ)).l6
    l9 := example_fc (make_network (α := ℚ)).l9 }

/-- A `32 × 32 × 3` image whose value number `i` is `i`. -/
def example_image : vol ℚ :=
  { sx := 32, sy := 32, depth := 3, w := List.map (fun i : Nat => (i : ℚ)) (List.range 3072) }

/-- A `32 × 32 × 3` image all of whose values are `7`. -/
def example_image_flat : vol ℚ :=
  { sx := 32, sy := 32, depth := 3, w := List.replicate 3072 7 }

/-- A `32 × 32 × 3` image whose value number `i` is `i % 5 - 2`. -/
def example_image_wave : vol ℚ :=
  { sx := 32, sy := 32, depth := 3,
    w := List.map (fun i : Nat => ((i % 5 : Nat) : ℚ) - 2) (List.range 3072) }

/-- Three different `32 × 32 × 3` images. -/
def example_images : List (vol ℚ) := [example_image, example_image_flat, example_image_wave]

/-- The images of `example_images` in the order 1, 2, 0. -/
def example_images_rotated : List (vol ℚ) :=
  [example_image_flat, example_image_wave, example_image]

/-! ## A second embedding: `double` with its special values

The embedding above takes `double` to be a linearly ordered field, in which
every value is comparable with `0`.  The definitions of this section embed the
forward pass on values that can also be an infinity or NaN, with the
comparisons of IEEE 754 (every comparison with NaN is false).  The sums and
products of finite values are exact up to the overflow threshold (rounding to
53 bits is not modelled, and the two zeros are identified); beyond it they are
an infinity.  Subtraction, division and `exp`, which only the last two layers
use, are parameters of the arithmetic. -/

namespace IEEE

/-- A value of type `double`: a finite number, `+∞`, `-∞` or NaN. -/
inductive double where
  | fin (q : ℚ)
  | pinf
  | ninf
  | nan
deriving DecidableEq

/-- The least magnitude that rounds to an infinity (round to nearest):
`DBL_MAX` plus half a unit in its last place. -/
def overflow_threshold : ℚ := 2 ^ 1024 - 2 ^ 970

/-- The result of an operation whose exact value is `q`. -/
def double.round (q : ℚ) : double :=
  if overflow_threshold ≤ q then double.pinf
  else if q ≤ -overflow_threshold then double.ninf
  else double.fin q

/-- `a + b` on `double`. -/
def double.add : double → double → double
  | double.nan, _ => double.nan
  | _, double.nan => double.nan
  | double.pinf, double.ninf => double.nan
  | double.ninf, double.pinf => double.nan
  | double.pinf, _ => double.pinf
  | _, double.pinf => double.pinf
  | double.ninf, _ => double.ninf
  | _, double.ninf => double.ninf
  | double.fin a, double.fin b => double.round (a + b)

/-- `a * b` on `double`. -/
def double.mul : double → double → double
  | double.nan, _ => double.nan
  | _, double.nan => double.nan
  | double.fin a, double.fin b => double.round (a * b)
  | double.fin a, double.pinf =>
    if a = 0 then double.nan else if 0 < a then double.pinf else double.ninf
  | double.fin a, double.ninf =>
    if a = 0 then double.nan else if 0 < a then double.ninf else double.pinf
  | double.pinf, double.fin b =>
    if b = 0 then double.nan else if 0 < b then double.pinf else double.ninf
  | double.ninf, double.fin b =>
    if b = 0 then double.nan else if 0 < b then double.ninf else double.pinf
  | double.pinf, double.pinf => double.pinf
  | double.pinf, double.ninf => double.ninf
  | double.ninf, double.pinf => double.ninf
  | double.ninf, double.ninf => double.pinf

/-- `a < b` on `double`: false when either side is NaN. -/
def double.lt : double → double → Bool
  | double.nan, _ => false
  | _, double.nan => false
  | double.fin a, double.fin b => decide (a < b)
  | double.fin _, double.pinf => true
  | double.fin _, double.ninf => false
  | double.pinf, _ => false
  | double.ninf, double.ninf => false
  | double.ninf, _ => true

/-- `-a` on `double`. -/
def double.neg : double → double
  | double.fin a => double.fin (-a)
  | double.pinf => double.ninf
  | double.ninf => double.pinf
  | double.nan => double.nan

/-- `a - b` on `double`. -/
def double.sub (a b : double) : double := double.add a (double.neg b)

/-- `a / b` on `double`; the zero divisor is the positive zero. -/
def double.div : double → double → double
  | double.nan, _ => double.nan
  | _, double.nan => double.nan
  | double.fin a, double.fin b =>
    if b = 0 then (if a = 0 then double.nan else if 0 < a then double.pinf else double.ninf)
    else double.round (a / b)
  | double.fin _, double.pinf => double.fin 0
  | double.fin _, double.ninf => double.fin 0
  | double.pinf, double.fin b => if 0 ≤ b then double.pinf else double.ninf
  | double.ninf, double.fin b => if 0 ≤ b then double.ninf else double.pinf
  | double.pinf, double.pinf => double.nan
  | double.pinf, double.ninf => double.nan
  | double.ninf, double.pinf => double.nan
  | double.ninf, double.ninf => double.nan

/-- A stand-in for `exp`, whose values on rationals are not rational: `1 + q²`
on a finite `q`, with the values of `exp` at the infinities and NaN.  Only the
softmax layer uses it. -/
def double.exp : double → double
  | double.fin q => double.round (1 + q * q)
  | double.pinf => double.pinf
  | double.ninf => double.fin 0
  | double.nan => double.nan

/-- The arithmetic of `double` used by the forward pass. -/
structure arith where
  add : double → double → double
  mul : double → double → double
  sub : double → double → double
  div : double → double → double
  exp : double → double

/-- `get_vol`. -/
def get_vol (v : vol double) (x y d : Int) : double :=
  rd (double.fin 0) v.w (vol_index v x y d)

/-- The body of the block loop of `conv_forward` at `fd`: four products. -/
def conv_block (o : arith) (f V : vol double) (fSx V_sx fdep vdep fy fx oy ox fd : Int)
    (a : double) : double :=
  let first : Int := ((fSx * fy) + fx) * fdep + fd
  let sec : Int := ((V_sx * oy) + ox) * vdep + fd
  let a := o.add a (o.mul (rdI (double.fin 0) f.w first) (rdI (double.fin 0) V.w sec))
  let a := o.add a
    (o.mul (rdI (double.fin 0) f.w (first + 1)) (rdI (double.fin 0) V.w (sec + 1)))
  let a := o.add a
    (o.mul (rdI (double.fin 0) f.w (first + 2)) (rdI (double.fin 0) V.w (sec + 2)))
  let a := o.add a
    (o.mul (rdI (double.fin 0) f.w (first + 3)) (rdI (double.fin 0) V.w (sec + 3)))
  a

/-- The body of the remainder loop of `conv_forward` at `fd`. -/
def conv_rest (o : arith) (f V : vol double) (V_sx fy fx oy ox fd : Int) (a : double) :
    double :=
  o.add a
    (o.mul (rd (double.fin 0) f.w (u64 ((((f.sx : Int) * fy) + fx) * (f.depth : Int) + fd)))
      (rd (double.fin 0) V.w (u64 (((V_sx * oy) + ox) * (V.depth : Int) + fd))))

/-- The two loops over `fd` of `conv_forward`. -/
def conv_depth (o : arith) (f V : vol double) (fSx V_sx fdep vdep fy fx oy ox : Int)
    (a : double) : double :=
  let a := loop ((fdep.tdiv 4 * 4 + 3).tdiv 4).toNat
    (fun k a => conv_block o f V fSx V_sx fdep vdep fy fx oy ox (4 * (k : Int)) a) a
  loop (fdep - fdep.tdiv 4 * 4).toNat
    (fun k a => conv_rest o f V V_sx fy fx oy ox (fdep.tdiv 4 * 4 + (k : Int)) a) a

/-- The accumulation of `conv_forward` for one output position. -/
def conv_window (o : arith) (f V : vol double) (V_sx V_sy : Int) (x y : Int) : double :=
  let fSy : Int := f.sy
  let fSx : Int := f.sx
  let fdep : Int := f.depth
  let vdep : Int := V.depth
  loop fSy.toNat (fun fy a =>
    let oy := y + (fy : Int)
    if oy < V_sy ∧ oy ≥ 0 then
      loop fSx.toNat (fun fx a =>
        let ox := x + (fx : Int)
        if ox < V_sx ∧ ox ≥ 0 then
          conv_depth o f V fSx V_sx fdep vdep fy fx oy ox a
        else a) a
    else a) (double.fin 0)

/-- The loop over `ax` of `conv_forward` for the channel `d` and the output row
`ay`. -/
def conv_row (o : arith) (l : conv_layer double) (f V : vol double) (d ay : Nat) (y : Int)
    (A : vol double) : vol double :=
  let V_sx : Int := V.sx
  let V_sy : Int := V.sy
  (loop l.out_sx.toNat (fun ax (t : Int × vol double) =>
    let x := t.1
    let A := t.2
    let a := conv_window o f V V_sx V_sy x y
    let a := o.add a (rd (double.fin 0) l.biases.w d)
    (x + l.stride, set_vol A ax ay d a)) (-l.pad, A)).2

/-- The loop over `ay` of `conv_forward` for the channel `d` with filter `f`. -/
def conv_plane (o : arith) (l : conv_layer double) (f V : vol double) (d : Nat)
    (A : vol double) : vol double :=
  (loop l.out_sy.toNat (fun ay (s : Int × vol double) =>
    let y := s.1
    let A := s.2
    (y + l.stride, conv_row o l f V d ay y A)) (-l.pad, A)).2

/-- The body of the sample loop of `conv_forward`. -/
def conv_sample (o : arith) (l : conv_layer double) (V A : vol double) : vol double :=
  loop l.out_depth.toNat (fun d A =>
    conv_plane o l (rd default l.filters d) V d A) A

/-- `conv_forward`. -/
def conv_forward (o : arith) (l : conv_layer double) (inp out : List (vol double))
    (start end_ : Int) : List (vol double) :=
  loop (end_ + 1 - start).toNat (fun k out =>
    let i := start + (k : Int)
    let V := rdI default inp i
    let A := rdI default out i
    wrI out i (conv_sample o l V A)) out

/-- The body of the sample loop of `relu_forward`:
`(V->w[i] < 0.0) ? 0.0 : V->w[i]` for every `i`. -/
def relu_sample (l : relu_layer) (V A : vol double) : vol double :=
  loop (l.in_sx * l.in_sy * l.in_depth).toNat (fun i A =>
    let x := rd (double.fin 0) V.w i
    { A with w := wr A.w i (if double.lt x (double.fin 0) then double.fin 0 else x) }) A

/-- `relu_forward`. -/
def relu_forward (l : relu_layer) (inp out : List (vol double)) (start end_ : Int) :
    List (vol double) :=
  loop (end_ + 1 - start).toNat (fun k out =>
    let j := start + (k : Int)
    wrI out j (relu_sample l (rdI default inp j) (rdI default out j))) out

/-- The window scan of `pool_forward` for one output position: starting from
`-99999`, every in-bounds element `v` with `v > a` replaces the running value
`a`. -/
def pool_window (l : pool_layer) (V : vol double) (x y : Int) (d : Int) : double :=
  loop l.sx.toNat (fun fx a =>
    loop l.sy.toNat (fun fy a =>
      let oy := y + (fy : Int)
      let ox := x + (fx : Int)
      if oy ≥ 0 ∧ oy < (V.sy : Int) ∧ ox ≥ 0 ∧ ox < (V.sx : Int) then
        let v := get_vol V ox oy d
        if double.lt a v then v else a
      else a) a) (double.fin (-99999))

/-- The loop over `ay` of `pool_forward` for the channel `d` and the output
column `ax`. -/
def pool_col (l : pool_layer) (V : vol double) (d ax : Nat) (x : Int) (A : vol double) :
    vol double :=
  (loop l.out_sy.toNat (fun ay (t : Int × vol double) =>
    let y := t.1
    let A := t.2
    let a := pool_window l V x y d
    (y + l.stride, set_vol A ax ay d a)) (-l.pad, A)).2

/-- The loop over `ax` of `pool_forward` for the channel `d`. -/
def pool_plane (l : pool_layer) (V : vol double) (d : Nat) (A : vol double) : vol double :=
  (loop l.out_sx.toNat (fun ax (s : Int × vol double) =>
    let x := s.1
    let A := s.2
    (x + l.stride, pool_col l V d ax x A)) (-l.pad, A)).2

/-- The body of the sample loop of `pool_forward`. -/
def pool_sample (l : pool_layer) (V A : vol double) : vol double :=
  loop l.out_depth.toNat (fun d A => pool_plane l V d A) A

/-- `pool_forward`. -/
def pool_forward (l : pool_layer) (inp out : List (vol double)) (start end_ : Int) :
    List (vol double) :=
  loop (end_ + 1 - start).toNat (fun k out =>
    let i := start + (k : Int)
    wrI out i (pool_sample l (rdI default inp i) (rdI default out i))) out

/-- The value `fc_forward` computes for neuron `i`. -/
def fc_neuron (o : arith) (l : fc_layer double) (V : vol double) (i : Nat) : double :=
  let a := loop l.num_inputs.toNat (fun d a =>
    o.add a (o.mul (rd (double.fin 0) V.w d)
      (rd (double.fin 0) (rd default l.filters i).w d))) (double.fin 0)
  o.add a (rd (double.fin 0) l.biases.w i)

/-- The body of the sample loop of `fc_forward`. -/
def fc_sample (o : arith) (l : fc_layer double) (V A : vol double) : vol double :=
  loop l.out_depth.toNat (fun i A => { A with w := wr A.w i (fc_neuron o l V i) }) A

/-- `fc_forward`. -/
def fc_forward (o : arith) (l : fc_layer double) (inp out : List (vol double))
    (start end_ : Int) : List (vol double) :=
  loop (end_ + 1 - start).toNat (fun k out =>
    let j := start + (k : Int)
    wrI out j (fc_sample o l (rdI default inp j) (rdI default out j))) out

/-- The first loop of `softmax_forward`: the maximal activation. -/
def softmax_amax (l : softmax_layer) (V : vol double) : double :=
  loop (l.out_depth - 1).toNat (fun k amax =>
    let i := k + 1
    if double.lt amax (rd (double.fin 0) V.w i) then rd (double.fin 0) V.w i else amax)
    (rd (double.fin 0) V.w 0)

/-- The second loop of `softmax_forward`: the exponentials and their sum. -/
def softmax_exps (o : arith) (l : softmax_layer) (V : vol double) (amax : double)
    (es : List double) : double × List double :=
  loop l.out_depth.toNat (fun i (s : double × List double) =>
    let esum := s.1
    let es := s.2
    let e := o.exp (o.sub (rd (double.fin 0) V.w i) amax)
    (o.add esum e, wr es i e)) (double.fin 0, es)

/-- The third loop of `softmax_forward`: normalise and output. -/
def softmax_norm (o : arith) (l : softmax_layer) (esum : double) (es : List double)
    (A : vol double) : List double × vol double :=
  loop l.out_depth.toNat (fun i (s : List double × vol double) =>
    let es := s.1
    let A := s.2
    let es := wr es i (o.div (rd (double.fin 0) es i) esum)
    (es, { A with w := wr A.w i (rd (double.fin 0) es i) })) (es, A)

/-- The body of the sample loop of `softmax_forward`. -/
def softmax_sample (o : arith) (l : softmax_layer) (V : vol double) (es : List double)
    (A : vol double) : List double × vol double :=
  let amax := softmax_amax l V
  let s := softmax_exps o l V amax es
  softmax_norm o l s.1 s.2 A

/-- `softmax_forward`. -/
def softmax_forward (o : arith) (l : softmax_layer) (inp out : List (vol double))
    (start end_ : Int) : List (vol double) :=
  (loop (end_ + 1 - start).toNat (fun k (s : List double × List (vol double)) =>
    let j := start + (k : Int)
    let es := s.1
    let out := s.2
    let r := softmax_sample o l (rdI default inp j) es (rdI default out j)
    (r.1, wrI out j r.2)) (List.replicate MAX_ES (double.fin 0), out)).2

/-- `net_forward`. -/
def net_forward (o : arith) (net : network double) (v : List (List (vol double)))
    (start end_ : Int) : List (List (vol double)) :=
  let v := wr v 1 (conv_forward o net.l0 (rd [] v 0) (rd [] v 1) start end_)
  let v := wr v 2 (relu_forward net.l1 (rd [] v 1) (rd [] v 2) start end_)
  let v := wr v 3 (pool_forward net.l2 (rd [] v 2) (rd [] v 3) start end_)
  let v := wr v 4 (conv_forward o net.l3 (rd [] v 3) (rd [] v 4) start end_)
  let v := wr v 5 (relu_forward net.l4 (rd [] v 4) (rd [] v 5) start end_)
  let v := wr v 6 (pool_forward net.l5 (rd [] v 5) (rd [] v 6) start end_)
  let v := wr v 7 (conv_forward o net.l6 (rd [] v 6) (rd [] v 7) start end_)
  let v := wr v 8 (relu_forward net.l7 (rd [] v 7) (rd [] v 8) start end_)
  let v := wr v 9 (pool_forward net.l8 (rd [] v 8) (rd [] v 9) start end_)
  let v := wr v 10 (fc_forward o net.l9 (rd [] v 9) (rd [] v 10) start end_)
  let v := wr v 11 (softmax_forward o net.l10 (rd [] v 10) (rd [] v 11) start end_)
  v

/-- The value `conv_forward` stores at the output coordinate `(ax, ay, d)`. -/
def conv_out (o : arith) (l : conv_layer double) (V : vol double) (ax ay d : Nat) : double :=
  o.add (conv_window o (rd default l.filters d) V (V.sx : Int) (V.sy : Int)
      (-l.pad + (ax : Int) * l.stride) (-l.pad + (ay : Int) * l.stride))
    (rd (double.fin 0) l.biases.w d)

/-- The value `pool_forward` stores at the output coordinate `(ax, ay, d)`. -/
def pool_out (l : pool_layer) (V : vol double) (ax ay d : Nat) : double :=
  pool_window l V (-l.pad + (ax : Int) * l.stride) (-l.pad + (ay : Int) * l.stride) (d : Int)

end IEEE

/-! ## Loops, buffers and indices -/

/-! ## Loop lemmas -/

theorem loop_zero {σ : Type} (body : Nat → σ → σ) (s : σ) : loop 0 body s = s := by
  simp [loop]

theorem loop_succ {σ : Type} (n : Nat) (body : Nat → σ → σ) (s : σ) :
    loop (n + 1) body s = body n (loop n body s) := by
  simp [loop, List.range_succ, List.foldl_append]

/-- Invariant rule for a counting loop. -/
theorem loop_inv {σ : Type} (P : Nat → σ → Prop) (n : Nat) (body : Nat → σ → σ) (s : σ)
    (h0 : P 0 s) (hstep : ∀ k, k < n → ∀ t, P k t → P (k + 1) (body k t)) :
    P n (loop n body s) := by
  induction n with
  | zero => simpa [loop_zero] using h0
  | succ n ih =>
    rw [loop_succ]
    exact hstep n (Nat.lt_succ_self n) _
      (ih (fun k hk t ht => hstep k (Nat.lt_succ_of_lt hk) t ht))

/-- Two loops whose bodies agree below the bound are equal. -/
theorem loop_congr {σ : Type} (n : Nat) (body body' : Nat → σ → σ) (s : σ)
    (h : ∀ k, k < n → ∀ t, body k t = body' k t) : loop n body s = loop n body' s := by
  induction n with
  | zero => simp [loop_zero]
  | succ n ih =>
    rw [loop_succ, loop_succ, ih (fun k hk t => h k (Nat.lt_succ_of_lt hk) t),
      h n (Nat.lt_succ_self n)]

/-- A loop that adds a term per iteration computes the sum of the terms. -/
theorem loop_add {α : Type} [LinearOrderedField α] (n : Nat) (body : Nat → α → α)
    (t : Nat → α) (a : α) (h : ∀ k, k < n → ∀ b, body k b = b + t k) :
    loop n body a = a + ∑ k in Finset.range n, t k := by
  induction n with
  | zero => simp [loop_zero]
  | succ n ih =>
    rw [loop_succ, ih (fun k hk b => h k (Nat.lt_succ_of_lt hk) b), h n (Nat.lt_succ_self n),
      Finset.sum_range_succ, add_assoc]

/-- A loop that carries a running variable incremented by `c` each iteration:
the variable at iteration `k` is `x0 + k * c`. -/
theorem loop_run {σ : Type} (n : Nat) (c x0 : Int) (g : Nat → Int → σ → σ) (s : σ) :
    loop n (fun k (t : Int × σ) => (t.1 + c, g k t.1 t.2)) (x0, s)
      = (x0 + (n : Int) * c, loop n (fun k u => g k (x0 + (k : Int) * c) u) s) := by
  induction n with
  | zero => simp [loop_zero]
  | succ n ih =>
    rw [loop_succ, loop_succ, ih]
    simp only [Nat.cast_succ, Prod.mk.injEq, and_true]
    ring

/-! ## Buffers written by loops -/

theorem Writes_refl {β : Type} (val : Nat → β) (w : List β) :
    Writes (fun _ => False) val w w :=
  ⟨rfl, fun _ => ⟨fun h => h.elim, fun _ => rfl⟩⟩

theorem Writes_trans {β : Type} {W1 W2 : Nat → Prop} {val : Nat → β} {w w' w'' : List β}
    (h1 : Writes W1 val w w') (h2 : Writes W2 val w' w'') :
    Writes (fun j => W1 j ∨ W2 j) val w w'' := by
  refine ⟨h2.1.trans h1.1, fun j => ⟨fun hj hlt => ?_, fun hj => ?_⟩⟩
  · by_cases h : W2 j
    · exact (h2.2 j).1 h (h1.1 ▸ hlt)
    · rw [(h2.2 j).2 h]
      exact (h1.2 j).1 (hj.resolve_right h) hlt
  · rw [(h2.2 j).2 (fun h => hj (Or.inr h)), (h1.2 j).2 (fun h => hj (Or.inl h))]

theorem Writes_mono {β : Type} {W W' : Nat → Prop} {val : Nat → β} {w w' : List β}
    (h : Writes W val w w') (hW : ∀ j, W j ↔ W' j) : Writes W' val w w' :=
  ⟨h.1, fun j => ⟨fun hj hlt => (h.2 j).1 ((hW j).2 hj) hlt,
    fun hj => (h.2 j).2 (fun h' => hj ((hW j).1 h'))⟩⟩

theorem Writes_set {β : Type} (val : Nat → β) (w : List β) (i : Nat) (x : β)
    (hx : val i = x) : Writes (fun j => j = i) val w (wr w i x) := by
  refine ⟨by simp [wr], fun j => ⟨fun hj hlt => ?_, fun hj => ?_⟩⟩
  · subst hj
    simp [wr, List.getElem?_set, hlt, hx]
  · have : ¬ i = j := fun h => hj h.symm
    simp [wr, List.getElem?_set, this]

theorem Writes_loop {β : Type} (n : Nat) (body : Nat → List β → List β)
    (W : Nat → Nat → Prop) (val : Nat → β) (w : List β)
    (h : ∀ k, k < n → ∀ u, u.length = w.length → Writes (W k) val u (body k u)) :
    Writes (fun j => ∃ k, k < n ∧ W k j) val w (loop n body w) := by
  refine loop_inv (fun m u => Writes (fun j => ∃ k, k < m ∧ W k j) val w u) n body w ?_ ?_
  · exact Writes_mono (Writes_refl val w) (fun j => by simp)
  · intro k hk u hu
    refine Writes_mono (Writes_trans hu (h k hk u hu.1)) (fun j => ⟨?_, ?_⟩)
    · rintro (⟨i, hi, hW⟩ | hW)
      · exact ⟨i, Nat.lt_succ_of_lt hi, hW⟩
      · exact ⟨k, Nat.lt_succ_self k, hW⟩
    · rintro ⟨i, hi, hW⟩
      rcases Nat.lt_succ_iff_lt_or_eq.mp hi with hlt | heq
      · exact Or.inl ⟨i, hlt, hW⟩
      · exact Or.inr (heq ▸ hW)

/-- The value read after the writes, at an index that was written. -/
theorem Writes_rd_mem {β : Type} {W : Nat → Prop} {val : Nat → β} {w w' : List β}
    (h : Writes W val w w') (dflt : β) (j : Nat) (hj : W j) (hlt : j < w.length) :
    rd dflt w' j = val j := by
  have := (h.2 j).1 hj hlt
  simp [rd, List.getD, this]

/-- The value read after the writes, at an index that was not written. -/
theorem Writes_rd_not_mem {β : Type} {W : Nat → Prop} {val : Nat → β} {w w' : List β}
    (h : Writes W val w w') (dflt : β) (j : Nat) (hj : ¬ W j) :
    rd dflt w' j = rd dflt w j := by
  have := (h.2 j).2 hj
  simp [rd, List.getD, this]

section VolWrites

variable {α : Type}

theorem VWrites_sameShape {W : Nat → Prop} {val : Nat → α} {A B : vol α}
    (h : VWrites W val A B) : SameShape A B :=
  ⟨h.1, h.2.1, h.2.2.1, h.2.2.2.1⟩

theorem VWrites_mono {W W' : Nat → Prop} {val : Nat → α} {A B : vol α}
    (h : VWrites W val A B) (hW : ∀ j, W j ↔ W' j) : VWrites W' val A B :=
  ⟨h.1, h.2.1, h.2.2.1, Writes_mono h.2.2.2 hW⟩

theorem VWrites_loop (n : Nat) (body : Nat → vol α → vol α)
    (W : Nat → Nat → Prop) (val : Nat → α) (A : vol α)
    (h : ∀ k, k < n → ∀ B, SameShape A B → VWrites (W k) val B (body k B)) :
    VWrites (fun j => ∃ k, k < n ∧ W k j) val A (loop n body A) := by
  refine loop_inv (fun m B => VWrites (fun j => ∃ k, k < m ∧ W k j) val A B) n body A ?_ ?_
  · exact ⟨rfl, rfl, rfl, Writes_mono (Writes_refl val A.w) (fun j => by simp)⟩
  · intro k hk B hB
    have hs := h k hk B (VWrites_sameShape hB)
    refine ⟨hs.1.trans hB.1, hs.2.1.trans hB.2.1, hs.2.2.1.trans hB.2.2.1, ?_⟩
    refine Writes_mono (Writes_trans hB.2.2.2 hs.2.2.2) (fun j => ⟨?_, ?_⟩)
    · rintro (⟨i, hi, hW⟩ | hW)
      · exact ⟨i, Nat.lt_succ_of_lt hi, hW⟩
      · exact ⟨k, Nat.lt_succ_self k, hW⟩
    · rintro ⟨i, hi, hW⟩
      rcases Nat.lt_succ_iff_lt_or_eq.mp hi with hlt | heq
      · exact Or.inl ⟨i, hlt, hW⟩
      · exact Or.inr (heq ▸ hW)

end VolWrites

theorem flat_lt {sx sy depth x y d : Nat} (hx : x < sx) (hy : y < sy) (hd : d < depth) :
    flat sx depth x y d < sx * sy * depth := by
  unfold flat
  have h1 : sx * y + x + 1 ≤ sx * sy := by
    have : sx * (y + 1) ≤ sx * sy := Nat.mul_le_mul_left sx hy
    rw [Nat.mul_succ] at this
    omega
  have h2 : (sx * y + x + 1) * depth ≤ sx * sy * depth := Nat.mul_le_mul_right depth h1
  rw [Nat.add_mul, Nat.one_mul] at h2
  omega

theorem unflat_d_flat {sx depth x y d : Nat} (hd : d < depth) :
    unflat_d depth (flat sx depth x y d) = d := by
  unfold unflat_d flat
  rw [Nat.add_comm, Nat.add_mul_mod_self_right, Nat.mod_eq_of_lt hd]

theorem flat_div {sx depth x y d : Nat} (hd : d < depth) :
    flat sx depth x y d / depth = sx * y + x := by
  unfold flat
  have hpos : 0 < depth := Nat.lt_of_le_of_lt (Nat.zero_le d) hd
  rw [Nat.add_comm, Nat.add_mul_div_right _ _ hpos, Nat.div_eq_of_lt hd, Nat.zero_add]

theorem unflat_x_flat {sx depth x y d : Nat} (hx : x < sx) (hd : d < depth) :
    unflat_x sx depth (flat sx depth x y d) = x := by
  unfold unflat_x
  rw [flat_div hd, Nat.add_comm, Nat.add_mul_mod_self_left, Nat.mod_eq_of_lt hx]

theorem unflat_y_flat {sx depth x y d : Nat} (hx : x < sx) (hd : d < depth) :
    unflat_y sx depth (flat sx depth x y d) = y := by
  unfold unflat_y
  have hpos : 0 < sx := Nat.lt_of_le_of_lt (Nat.zero_le x) hx
  rw [flat_div hd, Nat.add_comm, Nat.add_mul_div_left _ _ hpos, Nat.div_eq_of_lt hx,
    Nat.zero_add]

theorem flat_unflat {sx sy depth j : Nat} (hj : j < sx * sy * depth) :
    flat sx depth (unflat_x sx depth j) (unflat_y sx depth j) (unflat_d depth j) = j ∧
      unflat_x sx depth j < sx ∧ unflat_y sx depth j < sy ∧ unflat_d depth j < depth := by
  have hdepth : 0 < depth := by
    rcases Nat.eq_zero_or_pos depth with h | h
    · subst h; simp at hj
    · exact h
  have hsx : 0 < sx := by
    rcases Nat.eq_zero_or_pos sx with h | h
    · subst h; simp at hj
    · exact h
  unfold flat unflat_x unflat_y unflat_d
  refine ⟨?_, Nat.mod_lt _ hsx, ?_, Nat.mod_lt _ hdepth⟩
  · rw [Nat.div_add_mod, Nat.mul_comm, Nat.div_add_mod]
  · rw [Nat.div_div_eq_div_mul, Nat.div_lt_iff_lt_mul (Nat.mul_pos hdepth hsx)]
    calc j < sx * sy * depth := hj
      _ = sy * (depth * sx) := by ring

theorem u64_natCast (n : Nat) (h : n < 2 ^ 64) : u64 (n : Int) = n := by
  unfold u64
  have : ((n : Int) % 2 ^ 64) = (n : Int) := Int.emod_eq_of_lt (by omega) (by exact_mod_cast h)
  rw [this, Int.toNat_natCast]

section

variable {α : Type}

theorem vol_index_eq (v : vol α) (x y d : Nat) (h : flat v.sx v.depth x y d < 2 ^ 64) :
    vol_index v (x : Int) (y : Int) (d : Int) = flat v.sx v.depth x y d := by
  unfold vol_index
  have : ((((v.sx : Int) * (y : Int)) + (x : Int)) * (v.depth : Int) + (d : Int))
      = ((flat v.sx v.depth x y d : Nat) : Int) := by
    unfold flat; push_cast; ring
  rw [this, u64_natCast _ h]

end

section ConvDepth

variable {α : Type} [LinearOrderedField α]

theorem rdI_natCast {β : Type} (dflt : β) (w : List β) (n : Nat) :
    rdI dflt w (n : Int) = rd dflt w n := by
  unfold rdI rd
  have : ¬ ((n : Int) < 0) := by omega
  simp [this]

theorem wrI_natCast {β : Type} (w : List β) (n : Nat) (x : β) :
    wrI w (n : Int) x = wr w n x := by
  unfold wrI wr
  have : ¬ ((n : Int) < 0) := by omega
  simp [this]

theorem get_vol_eq_rd (v : vol α) (x y d : Nat) (h : flat v.sx v.depth x y d < 2 ^ 64) :
    get_vol v (x : Int) (y : Int) (d : Int) = rd 0 v.w (flat v.sx v.depth x y d) := by
  unfold get_vol
  rw [vol_index_eq v x y d h]

/-- Sum of a sequence in blocks of four followed by a remainder. -/
theorem sum_blocks_four (t : Nat → α) (q r : Nat) :
    (∑ k in Finset.range q, (t (4 * k) + t (4 * k + 1) + t (4 * k + 2) + t (4 * k + 3)))
      + ∑ k in Finset.range r, t (4 * q + k) = ∑ fd in Finset.range (4 * q + r), t fd := by
  rw [Finset.sum_range_add]
  congr 1
  induction q with
  | zero => simp
  | succ q ih =>
    rw [Finset.sum_range_succ, ih, Nat.mul_succ, Finset.sum_range_succ, Finset.sum_range_succ,
      Finset.sum_range_succ, Finset.sum_range_succ]
    ring

/-- The block loop and the remainder loop over `fd` add the products of the
`fdep` pairs of elements at `(fx, fy)` of the filter and `(ox, oy)` of the
input. -/
theorem conv_depth_eq (f V : vol α) (fx fy ox oy : Nat) (a : α)
    (hfx : fx < f.sx) (hfy : fy < f.sy) (hox : ox < V.sx) (hoy : oy < V.sy)
    (hdep : V.depth = f.depth)
    (hf : f.sx * f.sy * f.depth < 2 ^ 64) (hV : V.sx * V.sy * V.depth < 2 ^ 64) :
    conv_depth f V (f.sx : Int) (V.sx : Int) (f.depth : Int) (V.depth : Int)
        (fy : Int) (fx : Int) (oy : Int) (ox : Int) a
      = a + ∑ fd in Finset.range f.depth,
          get_vol f (fx : Int) (fy : Int) (fd : Int) * get_vol V (ox : Int) (oy : Int) (fd : Int) := by
  have hq : (f.depth : Int).tdiv 4 = ((f.depth / 4 : Nat) : Int) := by
    rw [Int.tdiv_eq_ediv (by omega) (by norm_num)]; omega
  have hcnt : (((f.depth : Int).tdiv 4 * 4 + 3).tdiv 4).toNat = f.depth / 4 := by
    rw [hq, Int.tdiv_eq_ediv (by omega) (by norm_num)]; omega
  have hrem : ((f.depth : Int) - (f.depth : Int).tdiv 4 * 4).toNat = f.depth % 4 := by
    rw [hq]; omega
  have hgf : ∀ fd, fd < f.depth →
      get_vol f (fx : Int) (fy : Int) (fd : Int) = rd 0 f.w (flat f.sx f.depth fx fy fd) :=
    fun fd hfd => get_vol_eq_rd f fx fy fd (lt_trans (flat_lt hfx hfy hfd) hf)
  have hgV : ∀ fd, fd < f.depth →
      get_vol V (ox : Int) (oy : Int) (fd : Int) = rd 0 V.w (flat V.sx V.depth ox oy fd) :=
    fun fd hfd => get_vol_eq_rd V ox oy fd (lt_trans (flat_lt hox hoy (hdep ▸ hfd)) hV)
  have hfirst : ∀ fd : Nat, (((f.sx : Int) * (fy : Int)) + (fx : Int)) * (f.depth : Int) + (fd : Int)
      = ((flat f.sx f.depth fx fy fd : Nat) : Int) := by
    intro fd; unfold flat; push_cast; ring
  have hsec : ∀ fd : Nat, (((V.sx : Int) * (oy : Int)) + (ox : Int)) * (V.depth : Int) + (fd : Int)
      = ((flat V.sx V.depth ox oy fd : Nat) : Int) := by
    intro fd; unfold flat; push_cast; ring
  unfold conv_depth
  simp only [hcnt, hrem]
  rw [loop_add (f.depth / 4) _
    (fun k => get_vol f fx fy ((4 * k : Nat) : Int) * get_vol V ox oy ((4 * k : Nat) : Int)
      + get_vol f fx fy ((4 * k + 1 : Nat) : Int) * get_vol V ox oy ((4 * k + 1 : Nat) : Int)
      + get_vol f fx fy ((4 * k + 2 : Nat) : Int) * get_vol V ox oy ((4 * k + 2 : Nat) : Int)
      + get_vol f fx fy ((4 * k + 3 : Nat) : Int) * get_vol V ox oy ((4 * k + 3 : Nat) : Int)) a]
  · rw [loop_add (f.depth % 4) _
      (fun k => get_vol f fx fy ((4 * (f.depth / 4) + k : Nat) : Int)
        * get_vol V ox oy ((4 * (f.depth / 4) + k : Nat) : Int))]
    · rw [add_assoc]
      congr 1
      have := sum_blocks_four
        (fun fd => get_vol f (fx : Int) (fy : Int) (fd : Int) * get_vol V (ox : Int) (oy : Int) (fd : Int))
        (f.depth / 4) (f.depth % 4)
      rw [this, Nat.div_add_mod]
    · intro k hk b
      have hlt : 4 * (f.depth / 4) + k < f.depth := by omega
      have e : (f.depth : Int).tdiv 4 * 4 + (k : Int) = ((4 * (f.depth / 4) + k : Nat) : Int) := by
        rw [hq]; push_cast; ring
      unfold conv_rest
      rw [e, hfirst, hsec, u64_natCast _ (lt_trans (flat_lt hfx hfy hlt) hf),
        u64_natCast _ (lt_trans (flat_lt hox hoy (hdep ▸ hlt)) hV), hgf _ hlt, hgV _ hlt]
  · intro k hk b
    have h0 : 4 * k < f.depth := by omega
    have h1 : 4 * k + 1 < f.depth := by omega
    have h2 : 4 * k + 2 < f.depth := by omega
    have h3 : 4 * k + 3 < f.depth := by omega
    have e0 : (4 * (k : Int)) = ((4 * k : Nat) : Int) := by push_cast; ring
    unfold conv_block
    simp only [e0, hfirst, hsec]
    have ef : ∀ i : Nat, ((flat f.sx f.depth fx fy (4 * k) : Nat) : Int) + (i : Int)
        = ((flat f.sx f.depth fx fy (4 * k + i) : Nat) : Int) := by
      intro i; unfold flat; push_cast; ring
    have eV : ∀ i : Nat, ((flat V.sx V.depth ox oy (4 * k) : Nat) : Int) + (i : Int)
        = ((flat V.sx V.depth ox oy (4 * k + i) : Nat) : Int) := by
      intro i; unfold flat; push_cast; ring
    have ef1 := ef 1; have ef2 := ef 2; have ef3 := ef 3
    have eV1 := eV 1; have eV2 := eV 2; have eV3 := eV 3
    simp only [Nat.cast_one, Nat.cast_ofNat] at ef1 ef2 ef3 eV1 eV2 eV3
    rw [ef1, ef2, ef3, eV1, eV2, eV3]
    simp only [rdI_natCast]
    rw [hgf _ h0, hgf _ h1, hgf _ h2, hgf _ h3, hgV _ h0, hgV _ h1, hgV _ h2, hgV _ h3]
    ring

end ConvDepth

section ConvWindow

variable {α : Type} [LinearOrderedField α]

/-- The loops over `fy`, `fx` and `fd` of `conv_forward` compute the dot
product of the filter with the zero-extended window of the input that starts
at `(x, y)`. -/
theorem conv_window_eq (f V : vol α) (x y : Int) (hdep : V.depth = f.depth)
    (hf : f.sx * f.sy * f.depth < 2 ^ 64) (hV : V.sx * V.sy * V.depth < 2 ^ 64) :
    conv_window f V (V.sx : Int) (V.sy : Int) x y
      = ∑ fy in Finset.range f.sy, ∑ fx in Finset.range f.sx, ∑ fd in Finset.range f.depth,
          get_vol f (fx : Int) (fy : Int) (fd : Int)
            * zero_ext V (V.sx : Int) (V.sy : Int) (x + (fx : Int)) (y + (fy : Int)) (fd : Int) := by
  unfold conv_window
  simp only [Int.toNat_natCast]
  rw [loop_add f.sy _ (fun fy => ∑ fx in Finset.range f.sx, ∑ fd in Finset.range f.depth,
          get_vol f (fx : Int) (fy : Int) (fd : Int)
            * zero_ext V (V.sx : Int) (V.sy : Int) (x + (fx : Int)) (y + (fy : Int)) (fd : Int)) 0]
  · rw [zero_add]
  · intro fy hfy b
    by_cases hy : y + (fy : Int) < (V.sy : Int) ∧ y + (fy : Int) ≥ 0
    · rw [if_pos hy]
      obtain ⟨oy, hoy⟩ := Int.eq_ofNat_of_zero_le hy.2
      have hoylt : oy < V.sy := by omega
      apply loop_add
      intro fx hfx c
      by_cases hx : x + (fx : Int) < (V.sx : Int) ∧ x + (fx : Int) ≥ 0
      · rw [if_pos hx]
        obtain ⟨ox, hox⟩ := Int.eq_ofNat_of_zero_le hx.2
        have hoxlt : ox < V.sx := by omega
        have hz : ∀ fd : Nat, zero_ext V (V.sx : Int) (V.sy : Int) (x + (fx : Int))
            (y + (fy : Int)) (fd : Int) = get_vol V (ox : Int) (oy : Int) (fd : Int) := by
          intro fd
          unfold zero_ext
          rw [if_pos ⟨hx.2, hx.1, hy.2, hy.1⟩, hox, hoy]
        simp only [hz]
        rw [hox, hoy]
        exact conv_depth_eq f V fx fy ox oy c hfx hfy hoxlt hoylt hdep hf hV
      · rw [if_neg hx]
        have hz : ∀ fd : Nat, zero_ext V (V.sx : Int) (V.sy : Int) (x + (fx : Int))
            (y + (fy : Int)) (fd : Int) = 0 := by
          intro fd
          unfold zero_ext
          rw [if_neg]
          intro h
          exact hx ⟨h.2.1, h.1⟩
        simp [hz]
    · rw [if_neg hy]
      have hz : ∀ fx fd : Nat, zero_ext V (V.sx : Int) (V.sy : Int) (x + (fx : Int))
          (y + (fy : Int)) (fd : Int) = 0 := by
        intro fx fd
        unfold zero_ext
        rw [if_neg]
        intro h
        exact hy ⟨h.2.2.2, h.2.2.1⟩
      simp [hz]

end ConvWindow

section Fill

variable {α : Type}

theorem SameShape_refl (A : vol α) : SameShape A A := ⟨rfl, rfl, rfl, rfl⟩

theorem SameShape_trans {A B C : vol α} (h1 : SameShape A B) (h2 : SameShape B C) :
    SameShape A C :=
  ⟨h2.1.trans h1.1, h2.2.1.trans h1.2.1, h2.2.2.1.trans h1.2.2.1, h2.2.2.2.trans h1.2.2.2⟩

theorem VWrites_trans_shape {W : Nat → Prop} {val : Nat → α} {A B C : vol α}
    (hs : SameShape A B) (h : VWrites W val B C) (hlen : B.w = A.w) : VWrites W val A C :=
  ⟨h.1.trans hs.1, h.2.1.trans hs.2.1, h.2.2.1.trans hs.2.2.1, hlen ▸ h.2.2.2⟩

/-- One `set_vol` at an in-range coordinate writes the cell `flat x y d`. -/
theorem set_vol_writes (B : vol α) (x y d : Nat) (a : α) (g : Nat → Nat → Nat → α)
    (hx : x < B.sx) (hy : y < B.sy) (hd : d < B.depth)
    (hsz : B.sx * B.sy * B.depth < 2 ^ 64) (hg : g x y d = a) :
    VWrites (fun j => j = flat B.sx B.depth x y d) (coord_val B.sx B.depth g) B
      (set_vol B (x : Int) (y : Int) (d : Int) a) := by
  refine ⟨rfl, rfl, rfl, ?_⟩
  unfold set_vol
  simp only
  rw [vol_index_eq B x y d (lt_trans (flat_lt hx hy hd) hsz)]
  apply Writes_set
  unfold coord_val
  rw [unflat_x_flat hx hd, unflat_y_flat hx hd, unflat_d_flat hd, hg]

/-- Three nested loops whose innermost body performs the writes `W a b c`. -/
theorem VWrites_loop3 (n1 n2 n3 : Nat) (step : Nat → Nat → Nat → vol α → vol α)
    (W : Nat → Nat → Nat → Nat → Prop) (val : Nat → α) (A : vol α)
    (h : ∀ a, a < n1 → ∀ b, b < n2 → ∀ c, c < n3 → ∀ B, SameShape A B →
      VWrites (W a b c) val B (step a b c B)) :
    VWrites (fun j => ∃ a, a < n1 ∧ ∃ b, b < n2 ∧ ∃ c, c < n3 ∧ W a b c j) val A
      (loop n1 (fun a A => loop n2 (fun b A => loop n3 (fun c A => step a b c A) A) A) A) := by
  apply VWrites_loop n1 _ (fun a j => ∃ b, b < n2 ∧ ∃ c, c < n3 ∧ W a b c j)
  intro a ha B hB
  apply VWrites_loop n2 _ (fun b j => ∃ c, c < n3 ∧ W a b c j)
  intro b hb C hC
  apply VWrites_loop n3 _ (fun c j => W a b c j)
  intro c hc D hD
  exact h a ha b hb c hc D (SameShape_trans (SameShape_trans hB hC) hD)

variable [LinearOrderedField α]

/-- Reading back a coordinate written by loops that store `g x y d` at every
coordinate of the set `S`. -/
theorem VWrites_get_vol_eq {S : Nat → Nat → Nat → Prop} {g : Nat → Nat → Nat → α}
    {A B : vol α}
    (h : VWrites (fun j => ∃ x y d, S x y d ∧ j = flat A.sx A.depth x y d)
      (coord_val A.sx A.depth g) A B)
    (hlen : A.w.length = A.sx * A.sy * A.depth) (hsz : A.sx * A.sy * A.depth < 2 ^ 64)
    (x y d : Nat) (hS : S x y d) (hx : x < A.sx) (hy : y < A.sy) (hd : d < A.depth) :
    get_vol B (x : Int) (y : Int) (d : Int) = g x y d := by
  have hflt := flat_lt hx hy hd
  rw [get_vol_eq_rd B x y d (by rw [h.1, h.2.2.1]; exact lt_trans hflt hsz), h.1, h.2.2.1,
    Writes_rd_mem h.2.2.2 0 _ ⟨x, y, d, hS, rfl⟩ (hlen ▸ hflt)]
  unfold coord_val
  rw [unflat_x_flat hx hd, unflat_y_flat hx hd, unflat_d_flat hd]

end Fill

section SampleLoop

variable {β : Type}

theorem wr_length (w : List β) (i : Nat) (x : β) : (wr w i x).length = w.length := by
  simp [wr]

theorem getElem?_wr (w : List β) (i j : Nat) (x : β) :
    (wr w i x)[j]? = if i = j then (if i < w.length then some x else none) else w[j]? := by
  simp [wr, List.getElem?_set]

theorem rd_eq (dflt : β) (w : List β) (i : Nat) : rd dflt w i = (w[i]?).getD dflt := by
  simp [rd, List.getD]

theorem loop_wr_length (n : Nat) (idx : Nat → Nat) (G : Nat → List β → β) (w : List β) :
    (loop n (fun k w => wr w (idx k) (G k w)) w).length = w.length := by
  induction n with
  | zero => simp [loop_zero]
  | succ n ih => rw [loop_succ, wr_length, ih]

/-- A loop whose iteration `k` replaces the cell `s + k` by a function of its
current contents maps that function over the cells `s, …, s + n - 1`. -/
theorem loop_pointwise (dflt : β) (n s : Nat) (G : Nat → β → β) (w : List β) (j : Nat) :
    (loop n (fun k w => wr w (s + k) (G (s + k) (rd dflt w (s + k)))) w)[j]?
      = if s ≤ j ∧ j < s + n then (w[j]?).map (G j) else w[j]? := by
  induction n with
  | zero =>
    have : ¬ (s ≤ j ∧ j < s + 0) := by omega
    rw [loop_zero, if_neg this]
  | succ n ih =>
    rw [loop_succ]
    have hlen := loop_wr_length n (fun k => s + k) (fun k w => G (s + k) (rd dflt w (s + k))) w
    rw [getElem?_wr, hlen]
    by_cases hj : s + n = j
    · subst hj
      have hc : s ≤ s + n ∧ s + n < s + (n + 1) := by omega
      rw [if_pos rfl, if_pos hc]
      have hprev : ¬ (s ≤ s + n ∧ s + n < s + n) := by omega
      rw [if_neg hprev] at ih
      by_cases hlt : s + n < w.length
      · rw [if_pos hlt, rd_eq dflt _ (s + n), ih, List.getElem?_eq_getElem hlt]
        rfl
      · rw [if_neg hlt]
        simp [List.getElem?_eq_none (Nat.le_of_not_lt hlt)]
    · rw [if_neg hj, ih]
      by_cases hc : s ≤ j ∧ j < s + n
      · have hc' : s ≤ j ∧ j < s + (n + 1) := by omega
        rw [if_pos hc, if_pos hc']
      · have hc' : ¬ (s ≤ j ∧ j < s + (n + 1)) := by omega
        rw [if_neg hc, if_neg hc']

/-- The sample loop shared by the forward functions: the samples from `start`
to `end` of `out` are replaced by `F in[i] out[i]`, the others are kept. -/
theorem sample_loop_get (dflt : β) (F : β → β → β) (inp out : List β) (start end_ : Int)
    (h0 : 0 ≤ start) (i : Nat) :
    (loop (end_ + 1 - start).toNat (fun k out =>
        wrI out (start + (k : Int))
          (F (rdI dflt inp (start + (k : Int))) (rdI dflt out (start + (k : Int))))) out)[i]?
      = if start ≤ (i : Int) ∧ (i : Int) ≤ end_ then (out[i]?).map (F (rd dflt inp i))
        else out[i]? := by
  obtain ⟨s, hs⟩ := Int.eq_ofNat_of_zero_le h0
  subst hs
  have hbody : (fun (k : Nat) (out : List β) =>
        wrI out ((s : Int) + (k : Int))
          (F (rdI dflt inp ((s : Int) + (k : Int))) (rdI dflt out ((s : Int) + (k : Int)))))
      = (fun k out => wr out (s + k) ((fun m b => F (rd dflt inp m) b) (s + k)
          (rd dflt out (s + k)))) := by
    funext k out
    have e : (s : Int) + (k : Int) = ((s + k : Nat) : Int) := by push_cast; rfl
    rw [e, wrI_natCast, rdI_natCast, rdI_natCast]
  rw [hbody, loop_pointwise dflt _ s (fun m b => F (rd dflt inp m) b) out i]
  by_cases hc : (s : Int) ≤ (i : Int) ∧ (i : Int) ≤ end_
  · have hc' : s ≤ i ∧ i < s + (end_ + 1 - (s : Int)).toNat := by omega
    rw [if_pos hc, if_pos hc']
  · have hc' : ¬ (s ≤ i ∧ i < s + (end_ + 1 - (s : Int)).toNat) := by omega
    rw [if_neg hc, if_neg hc']

end SampleLoop

section ConvSample

variable {α : Type} [LinearOrderedField α]

theorem conv_row_eq (l : conv_layer α) (f V : vol α) (d ay : Nat) (y : Int) (A : vol α) :
    conv_row l f V d ay y A
      = loop l.out_sx.toNat (fun ax A => set_vol A (ax : Int) (ay : Int) (d : Int)
          (conv_window f V (V.sx : Int) (V.sy : Int) (-l.pad + (ax : Int) * l.stride) y
            + rd 0 l.biases.w d)) A :=
  congrArg Prod.snd (loop_run l.out_sx.toNat l.stride (-l.pad)
    (fun ax x A => set_vol A (ax : Int) (ay : Int) (d : Int)
      (conv_window f V (V.sx : Int) (V.sy : Int) x y + rd 0 l.biases.w d)) A)

theorem conv_plane_eq (l : conv_layer α) (f V : vol α) (d : Nat) (A : vol α) :
    conv_plane l f V d A
      = loop l.out_sy.toNat (fun ay A =>
          conv_row l f V d ay (-l.pad + (ay : Int) * l.stride) A) A :=
  congrArg Prod.snd (loop_run l.out_sy.toNat l.stride (-l.pad)
    (fun ay y A => conv_row l f V d ay y A) A)

/-- The sample body of `conv_forward` as three nested loops of `set_vol`. -/
theorem conv_sample_eq (l : conv_layer α) (V A : vol α) :
    conv_sample l V A
      = loop l.out_depth.toNat (fun d A =>
          loop l.out_sy.toNat (fun ay A =>
            loop l.out_sx.toNat (fun ax A =>
              set_vol A (ax : Int) (ay : Int) (d : Int) (conv_out l V ax ay d)) A) A) A := by
  unfold conv_sample
  simp only [conv_plane_eq, conv_row_eq, conv_out]

/-- The sample body of `conv_forward` writes `conv_out` at every coordinate of
the output volume and keeps its dimensions. -/
theorem conv_sample_writes (l : conv_layer α) (V A : vol α)
    (hsx : (A.sx : Int) = l.out_sx) (hsy : (A.sy : Int) = l.out_sy)
    (hdepth : (A.depth : Int) = l.out_depth) (hsz : A.sx * A.sy * A.depth < 2 ^ 64) :
    VWrites (fun j => ∃ x y d, (x < A.sx ∧ y < A.sy ∧ d < A.depth) ∧
        j = flat A.sx A.depth x y d)
      (coord_val A.sx A.depth (conv_out l V)) A (conv_sample l V A) := by
  rw [conv_sample_eq]
  have h3 := VWrites_loop3 l.out_depth.toNat l.out_sy.toNat l.out_sx.toNat
    (fun d ay ax B => set_vol B (ax : Int) (ay : Int) (d : Int) (conv_out l V ax ay d))
    (fun d ay ax j => j = flat A.sx A.depth ax ay d)
    (coord_val A.sx A.depth (conv_out l V)) A ?_
  · refine VWrites_mono h3 (fun j => ⟨?_, ?_⟩)
    · rintro ⟨d, hd, ay, hay, ax, hax, hj⟩
      exact ⟨ax, ay, d, ⟨by omega, by omega, by omega⟩, hj⟩
    · rintro ⟨x, y, d, ⟨hx, hy, hd⟩, hj⟩
      exact ⟨d, by omega, y, by omega, x, by omega, hj⟩
  · intro d hd ay hay ax hax B hB
    have := set_vol_writes B ax ay d (conv_out l V ax ay d) (conv_out l V)
      (by rw [hB.1]; omega) (by rw [hB.2.1]; omega) (by rw [hB.2.2.1]; omega)
      (by rw [hB.1, hB.2.1, hB.2.2.1]; exact hsz) rfl
    rw [hB.1, hB.2.2.1] at this
    exact this

end ConvSample

section C1

variable {α : Type} [LinearOrderedField α]

theorem rd_of_getElem? {β : Type} (dflt : β) (w : List β) (i : Nat) (x : β)
    (h : w[i]? = some x) : rd dflt w i = x := by
  rw [rd_eq, h]; rfl

/-- The sample `i` of the result of `conv_forward`, for `i` in the range. -/
theorem conv_forward_get (l : conv_layer α) (inp out : List (vol α)) (start end_ : Int)
    (i : Nat) (V A : vol α) (hstart : 0 ≤ start)
    (hi : start ≤ (i : Int) ∧ (i : Int) ≤ end_)
    (hV : inp[i]? = some V) (hA : out[i]? = some A) :
    (conv_forward l inp out start end_)[i]? = some (conv_sample l V A) := by
  unfold conv_forward
  have := sample_loop_get default (conv_sample l) inp out start end_ hstart i
  simp only [] at this ⊢
  rw [this, if_pos hi, hA, rd_of_getElem? default inp i V hV]
  rfl

/-- The value of `conv_sample` at an output coordinate, as the sum of the
specification. -/
theorem conv_sample_get (l : conv_layer α) (V A : vol α) (hok : conv_ok l V A)
    (ax ay d : Nat) (hax : (ax : Int) < l.out_sx) (hay : (ay : Int) < l.out_sy)
    (hd : (d : Int) < l.out_depth) :
    get_vol (conv_sample l V A) (ax : Int) (ay : Int) (d : Int)
      = rd 0 l.biases.w d
        + ∑ fx in Finset.range l.sx.toNat, ∑ fy in Finset.range l.sy.toNat,
            ∑ fd in Finset.range l.in_depth.toNat,
              get_vol (rd default l.filters d) (fx : Int) (fy : Int) (fd : Int)
                * zero_ext V l.in_sx l.in_sy ((ax : Int) * l.stride - l.pad + (fx : Int))
                    ((ay : Int) * l.stride - l.pad + (fy : Int)) (fd : Int) := by
  have hx : ax < A.sx := by have := hok.A_sx; omega
  have hy : ay < A.sy := by have := hok.A_sy; omega
  have hdd : d < A.depth := by have := hok.A_depth; omega
  have hw := conv_sample_writes l V A hok.A_sx hok.A_sy hok.A_depth hok.A_size
  rw [VWrites_get_vol_eq hw hok.A_len hok.A_size ax ay d ⟨hx, hy, hdd⟩ hx hy hdd]
  have hdlt : d < l.filters.length := by rw [hok.filters_len]; omega
  have hf : rd default l.filters d = l.filters[d] :=
    rd_of_getElem? default l.filters d _ (List.getElem?_eq_getElem hdlt)
  obtain ⟨fsx, fsy, fdep, -, fsz⟩ := hok.filters_shape _ (List.getElem_mem hdlt)
  rw [← hf] at fsx fsy fdep fsz
  have hdep : V.depth = (rd default l.filters d).depth := by
    have := hok.V_depth; omega
  unfold conv_out
  rw [conv_window_eq _ V _ _ hdep fsz hok.V_size, add_comm, Finset.sum_comm]
  have e1 : l.sx.toNat = (rd default l.filters d).sx := by omega
  have e2 : l.sy.toNat = (rd default l.filters d).sy := by omega
  have e3 : l.in_depth.toNat = (rd default l.filters d).depth := by omega
  rw [e1, e2, e3, hok.V_sx, hok.V_sy]
  congr 1
  refine Finset.sum_congr rfl (fun fx _ => Finset.sum_congr rfl (fun fy _ =>
    Finset.sum_congr rfl (fun fd _ => ?_)))
  have ex : -l.pad + (ax : Int) * l.stride + (fx : Int)
      = (ax : Int) * l.stride - l.pad + (fx : Int) := by ring
  have ey : -l.pad + (ay : Int) * l.stride + (fy : Int)
      = (ay : Int) * l.stride - l.pad + (fy : Int) := by ring
  rw [ex, ey]

/-- C1. `conv_forward` computes the zero-padded strided convolution: for a
sample `i` of the range whose input `V` and output `A` have the shapes of the
layer, the result holds at every output coordinate `(ax, ay, d)` the bias of
channel `d` plus the sum over the filter coordinates `(fx, fy, fd)` of
`filters[d](fx, fy, fd) * V'(ax*stride - pad + fx, ay*stride - pad + fy, fd)`,
where `V'` is `V` extended by zero. -/
theorem conv_forward_spec (l : conv_layer α) (inp out : List (vol α)) (start end_ : Int)
    (i : Nat) (V A : vol α) (hstart : 0 ≤ start)
    (hi : start ≤ (i : Int) ∧ (i : Int) ≤ end_)
    (hV : inp[i]? = some V) (hA : out[i]? = some A) (hok : conv_ok l V A)
    (ax ay d : Nat) (hax : (ax : Int) < l.out_sx) (hay : (ay : Int) < l.out_sy)
    (hd : (d : Int) < l.out_depth) :
    ∃ A', (conv_forward l inp out start end_)[i]? = some A' ∧
      get_vol A' (ax : Int) (ay : Int) (d : Int)
        = rd 0 l.biases.w d
          + ∑ fx in Finset.range l.sx.toNat, ∑ fy in Finset.range l.sy.toNat,
              ∑ fd in Finset.range l.in_depth.toNat,
                get_vol (rd default l.filters d) (fx : Int) (fy : Int) (fd : Int)
                  * zero_ext V l.in_sx l.in_sy ((ax : Int) * l.stride - l.pad + (fx : Int))
                      ((ay : Int) * l.stride - l.pad + (fy : Int)) (fd : Int) :=
  ⟨conv_sample l V A, conv_forward_get l inp out start end_ i V A hstart hi hV hA,
    conv_sample_get l V A hok ax ay d hax hay hd⟩

end C1

theorem conv_example_ok : conv_ok conv_example_layer conv_example_in conv_example_out where
  V_sx := by decide
  V_sy := by decide
  V_depth := by decide
  V_len := by decide
  V_size := by decide
  A_sx := by decide
  A_sy := by decide
  A_depth := by decide
  A_len := by decide
  A_size := by decide
  filters_len := by decide
  filters_shape := by
    intro f hf
    rw [show conv_example_layer.filters
      = [⟨2, 2, 5, (List.range 20).map (fun i => (i : ℚ) + 1)⟩] from rfl,
      List.mem_singleton] at hf
    subst hf
    refine ⟨by decide, by decide, by decide, by decide, by decide⟩
  biases_len := by decide

theorem conv_forward_spec_witness :
    conv_ok conv_example_layer conv_example_in conv_example_out ∧
    ∃ A', (conv_forward conv_example_layer [conv_example_in] [conv_example_out] 0 0)[0]?
        = some A' ∧
      get_vol A' ((1 : Nat) : Int) ((2 : Nat) : Int) ((0 : Nat) : Int)
        = rd 0 conv_example_layer.biases.w 0
          + ∑ fx in Finset.range conv_example_layer.sx.toNat,
              ∑ fy in Finset.range conv_example_layer.sy.toNat,
                ∑ fd in Finset.range conv_example_layer.in_depth.toNat,
                  get_vol (rd default conv_example_layer.filters 0) (fx : Int) (fy : Int) (fd : Int)
                    * zero_ext conv_example_in conv_example_layer.in_sx
                        conv_example_layer.in_sy
                        (((1 : Nat) : Int) * conv_example_layer.stride
                          - conv_example_layer.pad + (fx : Int))
                        (((2 : Nat) : Int) * conv_example_layer.stride
                          - conv_example_layer.pad + (fy : Int)) (fd : Int) :=
  ⟨conv_example_ok,
    conv_forward_spec conv_example_layer [conv_example_in] [conv_example_out] 0 0 0
      conv_example_in conv_example_out (by decide) (by decide) rfl rfl conv_example_ok
      1 2 0 (by decide) (by decide) (by decide)⟩

/-! ## Pooling -/

/-- C2. At a `1 × 1 × 1` input whose only element is `-100000`, with a window of
size 1, `pool_forward` stores the start value `-99999` of its scan, not the
element of the window: the window maximum is `-100000`. -/
theorem pool_forward_below_start_value :
    pool_forward (make_pool_layer 1 1 1 1 1) [(⟨1, 1, 1, [-100000]⟩ : vol ℚ)]
        [⟨1, 1, 1, [0]⟩] 0 0 = [⟨1, 1, 1, [-99999]⟩] ∧
      get_vol (⟨1, 1, 1, [-100000]⟩ : vol ℚ) 0 0 0 = -100000 := by
  decide

/-! ## Softmax -/

section Softmax

variable {α : Type} [LinearOrderedField α]

theorem rd_wr_self {β : Type} (dflt : β) (w : List β) (i : Nat) (x : β) (h : i < w.length) :
    rd dflt (wr w i x) i = x := by
  rw [rd_eq, getElem?_wr, if_pos rfl, if_pos h]; rfl

/-- The second loop of `softmax_forward`: the sum of the exponentials, and the
exponentials stored in the scratch array. -/
theorem softmax_exps_eq (exp : α → α) (l : softmax_layer) (V : vol α) (es : List α) :
    (softmax_exps exp l V (softmax_amax l V) es).1 = softmax_esum exp l V ∧
      Writes (fun j => j < l.out_depth.toNat) (softmax_e exp l V) es
        (softmax_exps exp l V (softmax_amax l V) es).2 := by
  unfold softmax_exps softmax_esum
  refine loop_inv (fun k (s : α × List α) =>
      s.1 = ∑ i in Finset.range k, softmax_e exp l V i ∧
        Writes (fun j => j < k) (softmax_e exp l V) es s.2) _ _ _ ?_ ?_
  · exact ⟨by simp, Writes_mono (Writes_refl _ es) (fun j => by simp)⟩
  · intro k _ s hs
    refine ⟨?_, ?_⟩
    · simp only [hs.1, Finset.sum_range_succ, softmax_e]
    · refine Writes_mono (Writes_trans hs.2 (Writes_set (softmax_e exp l V) s.2 k _ rfl)) (fun j => ?_)
      omega

/-- The third loop of `softmax_forward`: every output element below
`out_depth` receives its exponential divided by `esum`. -/
theorem softmax_norm_eq (l : softmax_layer) (esum : α) (e : Nat → α) (es0 es : List α)
    (A : vol α) (hes : Writes (fun j => j < l.out_depth.toNat) e es0 es)
    (hlen : l.out_depth.toNat ≤ es0.length) :
    (softmax_norm l esum es A).1.length = es0.length ∧
      VWrites (fun j => j < l.out_depth.toNat) (fun j => e j / esum) A
        (softmax_norm l esum es A).2 := by
  unfold softmax_norm
  have h := loop_inv (fun k (s : List α × vol α) =>
      s.1.length = es0.length ∧ (∀ j, k ≤ j → s.1[j]? = es[j]?) ∧
        VWrites (fun j => j < k) (fun j => e j / esum) A s.2) l.out_depth.toNat
      (fun i (s : List α × vol α) =>
        (wr s.1 i (rd 0 s.1 i / esum),
          { s.2 with w := wr s.2.w i (rd 0 (wr s.1 i (rd 0 s.1 i / esum)) i) }))
      (es, A) ?_ ?_
  · exact ⟨h.1, h.2.2⟩
  · exact ⟨hes.1, fun _ _ => rfl, rfl, rfl, rfl, Writes_mono (Writes_refl _ A.w) (fun j => by simp)⟩
  · intro k hk s hs
    obtain ⟨hl, hkeep, hsx, hsy, hdep, hw⟩ := hs
    have hklt : k < s.1.length := by rw [hl]; omega
    have hrd : rd 0 s.1 k = e k := by
      rw [rd_eq, hkeep k (Nat.le_refl k), (hes.2 k).1 hk (by omega)]; rfl
    refine ⟨by rw [wr_length, hl], ?_, hsx, hsy, hdep, ?_⟩
    · intro j hj
      rw [getElem?_wr, if_neg (by omega), hkeep j (by omega)]
    · show Writes (fun j => j < k + 1) (fun j => e j / esum) A.w
        (wr s.2.w k (rd 0 (wr s.1 k (rd 0 s.1 k / esum)) k))
      rw [rd_wr_self 0 s.1 k _ hklt, hrd]
      refine Writes_mono (Writes_trans hw (Writes_set (fun j => e j / esum) s.2.w k _ rfl)) (fun j => ?_)
      omega

/-- The sample body of `softmax_forward`: the scratch array keeps its length,
and the output volume receives `softmax_out` at every element below
`out_depth`. -/
theorem softmax_sample_eq (exp : α → α) (l : softmax_layer) (V : vol α) (es : List α)
    (A : vol α) (hlen : l.out_depth.toNat ≤ es.length) :
    (softmax_sample exp l V es A).1.length = es.length ∧
      VWrites (fun j => j < l.out_depth.toNat) (softmax_out exp l V) A
        (softmax_sample exp l V es A).2 := by
  unfold softmax_sample
  have h1 := softmax_exps_eq exp l V es
  have h2 := softmax_norm_eq l (softmax_exps exp l V (softmax_amax l V) es).1
    (softmax_e exp l V) es _ A h1.2 hlen
  simp only [h1.1] at h2
  simp only [h1.1]
  exact h2

end Softmax

section VolUnique

variable {α : Type}

/-- Two volumes that arise from the same volume by the same writes are equal. -/
theorem VWrites_unique {W : Nat → Prop} {val : Nat → α} {A B C : vol α}
    (hB : VWrites W val A B) (hC : VWrites W val A C) : B = C := by
  obtain ⟨b1, b2, b3, bl, bw⟩ := hB
  obtain ⟨c1, c2, c3, cl, cw⟩ := hC
  have hw : B.w = C.w := by
    apply List.ext_getElem?
    intro j
    by_cases hj : W j
    · by_cases hlt : j < A.w.length
      · rw [(bw j).1 hj hlt, (cw j).1 hj hlt]
      · rw [List.getElem?_eq_none (by omega), List.getElem?_eq_none (by omega)]
    · rw [(bw j).2 hj, (cw j).2 hj]
  cases B; cases C
  simp only [vol.mk.injEq]
  exact ⟨b1.trans c1.symm, b2.trans c2.symm, b3.trans c3.symm, hw⟩

end VolUnique

section Softmax2

variable {α : Type} [LinearOrderedField α]

/-- The output volume of the sample body of `softmax_forward` does not depend
on the contents of the scratch array. -/
theorem softmax_sample_snd (exp : α → α) (l : softmax_layer) (V : vol α) (es : List α)
    (A : vol α) (hes : es.length = MAX_ES) (hn : l.out_depth.toNat ≤ MAX_ES) :
    (softmax_sample exp l V es A).2
      = (softmax_sample exp l V (List.replicate MAX_ES 0) A).2 :=
  VWrites_unique (softmax_sample_eq exp l V es A (by omega)).2
    (softmax_sample_eq exp l V (List.replicate MAX_ES 0) A (by simpa using hn)).2

/-- `softmax_forward` as a sample loop whose body starts from a fresh scratch
array. -/
theorem softmax_forward_eq (exp : α → α) (l : softmax_layer) (inp out : List (vol α))
    (start end_ : Int) (hn : l.out_depth.toNat ≤ MAX_ES) :
    softmax_forward exp l inp out start end_
      = loop (end_ + 1 - start).toNat (fun k out =>
          wrI out (start + (k : Int))
            ((fun V A => (softmax_sample exp l V (List.replicate MAX_ES 0) A).2)
              (rdI default inp (start + (k : Int))) (rdI default out (start + (k : Int))))) out := by
  unfold softmax_forward
  have h := loop_inv (fun k (s : List α × List (vol α)) =>
      s.1.length = MAX_ES ∧
        s.2 = loop k (fun k out =>
          wrI out (start + (k : Int))
            ((fun V A => (softmax_sample exp l V (List.replicate MAX_ES 0) A).2)
              (rdI default inp (start + (k : Int))) (rdI default out (start + (k : Int))))) out)
    (end_ + 1 - start).toNat
    (fun k (s : List α × List (vol α)) =>
      ((softmax_sample exp l (rdI default inp (start + (k : Int))) s.1
          (rdI default s.2 (start + (k : Int)))).1,
        wrI s.2 (start + (k : Int))
          (softmax_sample exp l (rdI default inp (start + (k : Int))) s.1
            (rdI default s.2 (start + (k : Int)))).2))
    (List.replicate MAX_ES 0, out) ?_ ?_
  · exact h.2
  · exact ⟨by simp, by rw [loop_zero]⟩
  · intro k _ s hs
    refine ⟨?_, ?_⟩
    · show (softmax_sample exp l _ s.1 _).1.length = MAX_ES
      rw [(softmax_sample_eq exp l _ s.1 _ (by omega)).1, hs.1]
    · show wrI s.2 _ (softmax_sample exp l _ s.1 _).2 = _
      rw [loop_succ, softmax_sample_snd exp l _ s.1 _ hs.1 hn, hs.2]

/-- The sample `j` of the result of `softmax_forward`, for `j` in the range:
the output volume with `softmax_out` written at every element below
`out_depth`. -/
theorem softmax_forward_get (exp : α → α) (l : softmax_layer) (inp out : List (vol α))
    (start end_ : Int) (j : Nat) (V A : vol α) (hstart : 0 ≤ start)
    (hj : start ≤ (j : Int) ∧ (j : Int) ≤ end_)
    (hV : inp[j]? = some V) (hA : out[j]? = some A) (hn : l.out_depth.toNat ≤ MAX_ES) :
    ∃ A', (softmax_forward exp l inp out start end_)[j]? = some A' ∧
      VWrites (fun i => i < l.out_depth.toNat) (softmax_out exp l V) A A' := by
  refine ⟨(softmax_sample exp l V (List.replicate MAX_ES 0) A).2, ?_,
    (softmax_sample_eq exp l V _ A (by simpa using hn)).2⟩
  rw [softmax_forward_eq exp l inp out start end_ hn,
    sample_loop_get default (fun V A => (softmax_sample exp l V (List.replicate MAX_ES 0) A).2)
      inp out start end_ hstart j, if_pos hj, hA, rd_of_getElem? default inp j V hV]
  rfl

end Softmax2

section SoftmaxDist

variable {α : Type} [LinearOrderedField α]

theorem softmax_esum_pos (exp : α → α) (hpos : ∀ x, 0 < exp x) (l : softmax_layer)
    (V : vol α) (h1 : 1 ≤ l.out_depth) : 0 < softmax_esum exp l V := by
  unfold softmax_esum
  apply Finset.sum_pos
  · intro i _
    exact hpos _
  · exact ⟨0, Finset.mem_range.mpr (by omega)⟩

theorem softmax_out_nonneg (exp : α → α) (hpos : ∀ x, 0 < exp x) (l : softmax_layer)
    (V : vol α) (h1 : 1 ≤ l.out_depth) (i : Nat) : 0 ≤ softmax_out exp l V i :=
  div_nonneg (le_of_lt (hpos _)) (le_of_lt (softmax_esum_pos exp hpos l V h1))

theorem softmax_out_le_one (exp : α → α) (hpos : ∀ x, 0 < exp x) (l : softmax_layer)
    (V : vol α) (h1 : 1 ≤ l.out_depth) (i : Nat) (hi : i < l.out_depth.toNat) :
    softmax_out exp l V i ≤ 1 := by
  unfold softmax_out
  rw [div_le_one (softmax_esum_pos exp hpos l V h1)]
  unfold softmax_esum
  exact Finset.single_le_sum (f := softmax_e exp l V)
    (fun k _ => le_of_lt (hpos _)) (Finset.mem_range.mpr hi)

theorem softmax_out_sum (exp : α → α) (hpos : ∀ x, 0 < exp x) (l : softmax_layer)
    (V : vol α) (h1 : 1 ≤ l.out_depth) :
    ∑ i in Finset.range l.out_depth.toNat, softmax_out exp l V i = 1 := by
  unfold softmax_out
  rw [← Finset.sum_div]
  exact div_self (ne_of_gt (softmax_esum_pos exp hpos l V h1))

end SoftmaxDist

/-- C3. `softmax_forward` outputs a probability distribution: in exact real
arithmetic, for a sample of the range whose input and output vectors have
length `out_depth` with `1 ≤ out_depth ≤ 16`, the output vector has length
`out_depth`, every output element lies in `[0, 1]`, and the `out_depth` output
elements sum to exactly `1`. -/
theorem softmax_forward_distribution (l : softmax_layer) (inp out : List (vol ℝ))
    (start end_ : Int) (j : Nat) (V A : vol ℝ) (hstart : 0 ≤ start)
    (hj : start ≤ (j : Int) ∧ (j : Int) ≤ end_)
    (hV : inp[j]? = some V) (hA : out[j]? = some A)
    (h1 : 1 ≤ l.out_depth) (h16 : l.out_depth ≤ 16)
    (_hVlen : V.w.length = l.out_depth.toNat) (hAlen : A.w.length = l.out_depth.toNat) :
    ∃ A', (softmax_forward Real.exp l inp out start end_)[j]? = some A' ∧
      A'.w.length = l.out_depth.toNat ∧
      (∀ i, i < l.out_depth.toNat → 0 ≤ rd 0 A'.w i ∧ rd 0 A'.w i ≤ 1) ∧
      ∑ i in Finset.range l.out_depth.toNat, rd 0 A'.w i = 1 := by
  have hn : l.out_depth.toNat ≤ MAX_ES := by unfold MAX_ES; omega
  obtain ⟨A', hA', hw⟩ :=
    softmax_forward_get Real.exp l inp out start end_ j V A hstart hj hV hA hn
  have hrd : ∀ i, i < l.out_depth.toNat → rd 0 A'.w i = softmax_out Real.exp l V i :=
    fun i hi => Writes_rd_mem hw.2.2.2 0 i hi (by omega)
  refine ⟨A', hA', hw.2.2.2.1.trans hAlen, ?_, ?_⟩
  · intro i hi
    rw [hrd i hi]
    exact ⟨softmax_out_nonneg Real.exp Real.exp_pos l V h1 i,
      softmax_out_le_one Real.exp Real.exp_pos l V h1 i hi⟩
  · rw [Finset.sum_congr rfl (fun i hi => hrd i (Finset.mem_range.mp hi))]
    exact softmax_out_sum Real.exp Real.exp_pos l V h1

theorem softmax_forward_distribution_witness :
    (0 : Int) ≤ 0 ∧ ((0 : Int) ≤ ((0 : Nat) : Int) ∧ (((0 : Nat) : Int)) ≤ 0) ∧
    1 ≤ (make_softmax_layer 1 1 3).out_depth ∧ (make_softmax_layer 1 1 3).out_depth ≤ 16 ∧
    ∃ A', (softmax_forward Real.exp (make_softmax_layer 1 1 3)
        [(⟨1, 1, 3, [1, 2, 3]⟩ : vol ℝ)] [⟨1, 1, 3, [0, 0, 0]⟩] 0 0)[0]? = some A' ∧
      A'.w.length = (make_softmax_layer 1 1 3).out_depth.toNat ∧
      (∀ i, i < (make_softmax_layer 1 1 3).out_depth.toNat →
        0 ≤ rd 0 A'.w i ∧ rd 0 A'.w i ≤ 1) ∧
      ∑ i in Finset.range (make_softmax_layer 1 1 3).out_depth.toNat, rd 0 A'.w i = 1 :=
  ⟨by decide, by decide, by decide, by decide,
    softmax_forward_distribution (make_softmax_layer 1 1 3)
      [(⟨1, 1, 3, [1, 2, 3]⟩ : vol ℝ)] [⟨1, 1, 3, [0, 0, 0]⟩] 0 0 0
      ⟨1, 1, 3, [1, 2, 3]⟩ ⟨1, 1, 3, [0, 0, 0]⟩ (by decide) (by decide) rfl rfl
      (by decide) (by decide) rfl rfl⟩

/-! ## Fully-connected and rectify layers -/

section BufferLoops

variable {α : Type}

/-- One assignment `A->w[i] = x` writes the cell `i`. -/
theorem wr_vol_writes (B : vol α) (i : Nat) (x : α) (val : Nat → α) (hx : val i = x) :
    VWrites (fun j => j = i) val B { B with w := wr B.w i x } :=
  ⟨rfl, rfl, rfl, Writes_set val B.w i x hx⟩

/-- A loop whose iteration `i` assigns `val i` to `A->w[i]` writes the cells
below its bound. -/
theorem wr_loop_writes (n : Nat) (val : Nat → α) (A : vol α) :
    VWrites (fun j => j < n) val A
      (loop n (fun i A => { A with w := wr A.w i (val i) }) A) := by
  refine VWrites_mono (VWrites_loop n _ (fun i j => j = i) val A
    (fun i _ B _ => wr_vol_writes B i (val i) val rfl)) (fun j => ⟨?_, ?_⟩)
  · rintro ⟨k, hk, rfl⟩; exact hk
  · intro hj; exact ⟨j, hj, rfl⟩

end BufferLoops

section FC

variable {α : Type} [LinearOrderedField α]

/-- The value computed for a neuron is the bias plus the dot product. -/
theorem fc_neuron_eq (l : fc_layer α) (V : vol α) (i : Nat) :
    fc_neuron l V i
      = rd 0 l.biases.w i
        + ∑ d in Finset.range l.num_inputs.toNat,
            rd 0 V.w d * rd 0 (rd default l.filters i).w d := by
  unfold fc_neuron
  simp only []
  rw [loop_add l.num_inputs.toNat _
    (fun d => rd 0 V.w d * rd 0 (rd default l.filters i).w d) 0 (fun _ _ _ => rfl),
    zero_add, add_comm]

/-- The sample body of `fc_forward` writes the neuron values at the elements
below `out_depth`. -/
theorem fc_sample_writes (l : fc_layer α) (V A : vol α) :
    VWrites (fun j => j < l.out_depth.toNat) (fc_neuron l V) A (fc_sample l V A) :=
  wr_loop_writes l.out_depth.toNat (fc_neuron l V) A

/-- The sample `j` of the result of `fc_forward`, for `j` in the range. -/
theorem fc_forward_get (l : fc_layer α) (inp out : List (vol α)) (start end_ : Int)
    (j : Nat) (V A : vol α) (hstart : 0 ≤ start)
    (hj : start ≤ (j : Int) ∧ (j : Int) ≤ end_)
    (hV : inp[j]? = some V) (hA : out[j]? = some A) :
    (fc_forward l inp out start end_)[j]? = some (fc_sample l V A) := by
  unfold fc_forward
  have := sample_loop_get default (fc_sample l) inp out start end_ hstart j
  simp only [] at this ⊢
  rw [this, if_pos hj, hA, rd_of_getElem? default inp j V hV]
  rfl

/-- C4. `fc_forward` computes an affine map of the flattened input: for a
sample `j` of the range whose output vector has `out_depth` elements, and
every neuron `i < out_depth`, the output element `i` is `biases[i]` plus the
sum over `d < num_inputs` of `in[j].w[d] * filters[i].w[d]`; and
`make_fc_layer` sets `num_inputs = in_sx * in_sy * in_depth`. -/
theorem fc_forward_affine (l : fc_layer α) (inp out : List (vol α)) (start end_ : Int)
    (j : Nat) (V A : vol α) (hstart : 0 ≤ start)
    (hj : start ≤ (j : Int) ∧ (j : Int) ≤ end_)
    (hV : inp[j]? = some V) (hA : out[j]? = some A)
    (hAlen : A.w.length = l.out_depth.toNat) (i : Nat) (hi : (i : Int) < l.out_depth) :
    (∃ A', (fc_forward l inp out start end_)[j]? = some A' ∧
      rd 0 A'.w i
        = rd 0 l.biases.w i
          + ∑ d in Finset.range l.num_inputs.toNat,
              rd 0 V.w d * rd 0 (rd default l.filters i).w d) ∧
    ∀ in_sx in_sy in_depth num_neurons : Int,
      (make_fc_layer in_sx in_sy in_depth num_neurons : fc_layer α).num_inputs
        = in_sx * in_sy * in_depth := by
  refine ⟨⟨fc_sample l V A, fc_forward_get l inp out start end_ j V A hstart hj hV hA, ?_⟩,
    fun _ _ _ _ => rfl⟩
  rw [Writes_rd_mem (fc_sample_writes l V A).2.2.2 0 i (by omega) (by omega), fc_neuron_eq]

end FC

section Relu

variable {α : Type} [LinearOrderedField α]

/-- The sample body of `relu_forward` writes the rectified input at the
buffer indices below `in_sx * in_sy * in_depth`. -/
theorem relu_sample_writes (l : relu_layer) (V A : vol α) :
    VWrites (fun j => j < (l.in_sx * l.in_sy * l.in_depth).toNat)
      (fun i => if rd 0 V.w i < 0 then 0 else rd 0 V.w i) A (relu_sample l V A) :=
  wr_loop_writes (l.in_sx * l.in_sy * l.in_depth).toNat
    (fun i => if rd 0 V.w i < 0 then 0 else rd 0 V.w i) A

/-- The sample `j` of the result of `relu_forward`, for `j` in the range. -/
theorem relu_forward_get (l : relu_layer) (inp out : List (vol α)) (start end_ : Int)
    (j : Nat) (V A : vol α) (hstart : 0 ≤ start)
    (hj : start ≤ (j : Int) ∧ (j : Int) ≤ end_)
    (hV : inp[j]? = some V) (hA : out[j]? = some A) :
    (relu_forward l inp out start end_)[j]? = some (relu_sample l V A) := by
  unfold relu_forward
  have := sample_loop_get default (relu_sample l) inp out start end_ hstart j
  simp only [] at this ⊢
  rw [this, if_pos hj, hA, rd_of_getElem? default inp j V hV]
  rfl

theorem relu_value (x : α) : (if x < 0 then 0 else x) = max x 0 := by
  by_cases h : x < 0
  · rw [if_pos h, max_eq_right (le_of_lt h)]
  · rw [if_neg h, max_eq_left (not_lt.mp h)]

/-- C5. `relu_forward` is pointwise max with zero: for a sample `j` of the
range whose input and output buffers have `in_sx * in_sy * in_depth` elements,
and every buffer index `i` below that number, the output element `i` is
`max (input element i) 0`. -/
theorem relu_forward_max (l : relu_layer) (inp out : List (vol α)) (start end_ : Int)
    (j : Nat) (V A : vol α) (hstart : 0 ≤ start)
    (hj : start ≤ (j : Int) ∧ (j : Int) ≤ end_)
    (hV : inp[j]? = some V) (hA : out[j]? = some A)
    (_hVlen : V.w.length = (l.in_sx * l.in_sy * l.in_depth).toNat)
    (hAlen : A.w.length = (l.in_sx * l.in_sy * l.in_depth).toNat)
    (i : Nat) (hi : (i : Int) < l.in_sx * l.in_sy * l.in_depth) :
    ∃ A', (relu_forward l inp out start end_)[j]? = some A' ∧
      rd 0 A'.w i = max (rd 0 V.w i) 0 := by
  refine ⟨relu_sample l V A, relu_forward_get l inp out start end_ j V A hstart hj hV hA, ?_⟩
  rw [Writes_rd_mem (relu_sample_writes l V A).2.2.2 0 i (by omega) (by omega), relu_value]

end Relu

theorem fc_forward_affine_witness :
    (0 : Int) ≤ 0 ∧ ((0 : Int) ≤ ((0 : Nat) : Int) ∧ ((0 : Nat) : Int) ≤ 0) ∧
    ((1 : Nat) : Int) < fc_example_layer.out_depth ∧
    (∃ A', (fc_forward fc_example_layer [(⟨1, 1, 3, [5, 6, 7]⟩ : vol ℚ)]
        [⟨1, 1, 2, [0, 0]⟩] 0 0)[0]? = some A' ∧
      rd 0 A'.w 1
        = rd 0 fc_example_layer.biases.w 1
          + ∑ d in Finset.range fc_example_layer.num_inputs.toNat,
              rd 0 (⟨1, 1, 3, [5, 6, 7]⟩ : vol ℚ).w d
                * rd 0 (rd default fc_example_layer.filters 1).w d) ∧
    ∀ in_sx in_sy in_depth num_neurons : Int,
      (make_fc_layer in_sx in_sy in_depth num_neurons : fc_layer ℚ).num_inputs
        = in_sx * in_sy * in_depth :=
  ⟨by decide, by decide, by decide,
    fc_forward_affine fc_example_layer [(⟨1, 1, 3, [5, 6, 7]⟩ : vol ℚ)] [⟨1, 1, 2, [0, 0]⟩]
      0 0 0 ⟨1, 1, 3, [5, 6, 7]⟩ ⟨1, 1, 2, [0, 0]⟩ (by decide) (by decide) rfl rfl rfl 1
      (by decide)⟩

theorem relu_forward_max_witness :
    (0 : Int) ≤ 0 ∧ ((0 : Int) ≤ ((0 : Nat) : Int) ∧ ((0 : Nat) : Int) ≤ 0) ∧
    ((1 : Nat) : Int) < (make_relu_layer 1 1 3).in_sx * (make_relu_layer 1 1 3).in_sy
      * (make_relu_layer 1 1 3).in_depth ∧
    ∃ A', (relu_forward (make_relu_layer 1 1 3) [(⟨1, 1, 3, [5, -6, 7]⟩ : vol ℚ)]
        [⟨1, 1, 3, [0, 0, 0]⟩] 0 0)[0]? = some A' ∧
      rd 0 A'.w 1 = max (rd 0 (⟨1, 1, 3, [5, -6, 7]⟩ : vol ℚ).w 1) 0 :=
  ⟨by decide, by decide, by decide,
    relu_forward_max (make_relu_layer 1 1 3) [(⟨1, 1, 3, [5, -6, 7]⟩ : vol ℚ)]
      [⟨1, 1, 3, [0, 0, 0]⟩] 0 0 0 ⟨1, 1, 3, [5, -6, 7]⟩ ⟨1, 1, 3, [0, 0, 0]⟩
      (by decide) (by decide) rfl rfl rfl rfl 1 (by decide)⟩

/-! ## make_vol and make_network -/

section MakeVol

variable {α : Type}

theorem set_vol_sameShape (B : vol α) (x y d : Int) (a : α) :
    SameShape B (set_vol B x y d a) :=
  ⟨rfl, rfl, rfl, wr_length _ _ _⟩

theorem loop_sameShape (n : Nat) (body : Nat → vol α → vol α) (A : vol α)
    (h : ∀ k B, SameShape B (body k B)) : SameShape A (loop n body A) :=
  loop_inv (fun _ B => SameShape A B) n body A (SameShape_refl A)
    (fun k _ B hB => SameShape_trans hB (h k B))

variable [LinearOrderedField α]

/-- The dimensions and the buffer length of the volume `make_vol` returns. -/
theorem make_vol_shape (sx sy d : Int) (v : α) :
    (make_vol sx sy d v).sx = u64 sx ∧ (make_vol sx sy d v).sy = u64 sy ∧
      (make_vol sx sy d v).depth = u64 d ∧
      (make_vol sx sy d v).w.length = (sx * sy * d).toNat := by
  unfold make_vol
  have h := loop_sameShape d.toNat
    (fun z out => loop sy.toNat (fun y out =>
      loop sx.toNat (fun x out => set_vol out (x : Int) (y : Int) (z : Int) v) out) out)
    ({ sx := u64 sx, sy := u64 sy, depth := u64 d,
       w := List.replicate (sx * sy * d).toNat 0 } : vol α)
    (fun z B => loop_sameShape _ _ B (fun y C => loop_sameShape _ _ C
      (fun x D => set_vol_sameShape D _ _ _ v)))
  exact ⟨h.1, h.2.1, h.2.2.1, by rw [h.2.2.2]; simp⟩

/-- For dimensions that fit, `make_vol` returns the volume of these dimensions
whose buffer holds the fill value in each of its `sx * sy * d` cells. -/
theorem make_vol_eq (sx sy d : Nat) (v : α) (hsx : sx < 2 ^ 64) (hsy : sy < 2 ^ 64)
    (hd : d < 2 ^ 64) (hsz : sx * sy * d < 2 ^ 64) :
    make_vol (sx : Int) (sy : Int) (d : Int) v
      = { sx := sx, sy := sy, depth := d, w := List.replicate (sx * sy * d) v } := by
  have hn : ((sx : Int) * (sy : Int) * (d : Int)).toNat = sx * sy * d := by
    have : (sx : Int) * (sy : Int) * (d : Int) = ((sx * sy * d : Nat) : Int) := by push_cast; ring
    rw [this, Int.toNat_natCast]
  unfold make_vol
  simp only [Int.toNat_natCast, u64_natCast sx hsx, u64_natCast sy hsy, u64_natCast d hd, hn]
  have h3 := VWrites_loop3 d sy sx
    (fun z y x B => set_vol B (x : Int) (y : Int) (z : Int) v)
    (fun z y x j => j = flat sx d x y z) (coord_val sx d (fun _ _ _ => v))
    ({ sx := sx, sy := sy, depth := d, w := List.replicate (sx * sy * d) 0 } : vol α) ?_
  · obtain ⟨e1, e2, e3, hlen, hw⟩ := h3
    simp only [List.length_replicate] at hlen hw
    generalize loop d (fun z out => loop sy (fun y out =>
      loop sx (fun x out => set_vol out (x : Int) (y : Int) (z : Int) v) out) out)
      ({ sx := sx, sy := sy, depth := d, w := List.replicate (sx * sy * d) 0 } : vol α) = R
      at e1 e2 e3 hlen hw
    cases R with
    | mk rsx rsy rdepth rbuf =>
      simp only at e1 e2 e3 hlen hw
      subst e1 e2 e3
      simp only [vol.mk.injEq, true_and]
      apply List.ext_getElem?
      intro j
      by_cases hj : j < rsx * rsy * rdepth
      · obtain ⟨hf, hx, hy, hz⟩ := flat_unflat hj
        rw [(hw j).1 ⟨_, hz, _, hy, _, hx, hf.symm⟩ hj,
          List.getElem?_eq_getElem (by simpa using hj)]
        simp [coord_val]
      · rw [List.getElem?_eq_none (by omega), List.getElem?_eq_none (by simp; omega)]
  · intro z hz y hy x hx B hB
    have := set_vol_writes B x y z v (fun _ _ _ => v)
      (by rw [hB.1]; exact hx) (by rw [hB.2.1]; exact hy) (by rw [hB.2.2.1]; exact hz)
      (by rw [hB.1, hB.2.1, hB.2.2.1]; exact hsz) rfl
    rw [hB.1, hB.2.2.1] at this
    exact this

end MakeVol

section MakeNetwork

variable {α : Type} [LinearOrderedField α]

theorem make_vol_sx (sx sy d : Int) (v : α) : (make_vol sx sy d v).sx = u64 sx :=
  (make_vol_shape sx sy d v).1

theorem make_vol_sy (sx sy d : Int) (v : α) : (make_vol sx sy d v).sy = u64 sy :=
  (make_vol_shape sx sy d v).2.1

theorem make_vol_depth (sx sy d : Int) (v : α) : (make_vol sx sy d v).depth = u64 d :=
  (make_vol_shape sx sy d v).2.2.1

theorem make_vol_length (sx sy d : Int) (v : α) :
    (make_vol sx sy d v).w.length = (sx * sy * d).toNat :=
  (make_vol_shape sx sy d v).2.2.2

/-- The dimensions of the twelve boundary volumes of `make_network`. -/
theorem make_network_v_dims :
    (make_network (α := α)).v.map vol_dims
      = [(32, 32, 3), (32, 32, 16), (32, 32, 16), (16, 16, 16), (16, 16, 20), (16, 16, 20),
          (8, 8, 20), (8, 8, 20), (8, 8, 20), (4, 4, 20), (1, 1, 10), (1, 1, 10)] := by
  simp [make_network, vol_dims, make_vol_sx, make_vol_sy, make_vol_depth, make_conv_layer,
    make_relu_layer, make_pool_layer, make_fc_layer, make_softmax_layer, u64,
    show Int.tdiv 30 2 = 15 from by decide, show Int.tdiv 14 2 = 7 from by decide,
    show Int.tdiv 6 2 = 3 from by decide]

/-- The dimensions recorded by the eleven layers of `make_network`. -/
theorem make_network_layer_dims :
    layer_dims (make_network (α := α))
      = [((32, 32, 3), (32, 32, 16)), ((32, 32, 16), (32, 32, 16)),
          ((32, 32, 16), (16, 16, 16)), ((16, 16, 16), (16, 16, 20)),
          ((16, 16, 20), (16, 16, 20)), ((16, 16, 20), (8, 8, 20)),
          ((8, 8, 20), (8, 8, 20)), ((8, 8, 20), (8, 8, 20)), ((8, 8, 20), (4, 4, 20)),
          ((4, 4, 20), (1, 1, 10)), ((1, 1, 10), (1, 1, 10))] := by
  simp [make_network, layer_dims, make_vol_sx, make_vol_sy, make_vol_depth, make_conv_layer,
    make_relu_layer, make_pool_layer, make_fc_layer, make_softmax_layer, u64,
    show Int.tdiv 30 2 = 15 from by decide, show Int.tdiv 14 2 = 7 from by decide,
    show Int.tdiv 6 2 = 3 from by decide]

end MakeNetwork

/-- C6. `make_network` wires shapes consistently: its twelve boundary volumes
have the dimensions `(32,32,3)`, `(32,32,16)`, `(32,32,16)`, `(16,16,16)`,
`(16,16,20)`, `(16,16,20)`, `(8,8,20)`, `(8,8,20)`, `(8,8,20)`, `(4,4,20)`,
`(1,1,10)`, `(1,1,10)` in order, and for every layer `k` in `0..10` the input
dimensions the layer records are those of boundary volume `k` and its output
dimensions are those of boundary volume `k + 1` (the list of the layers'
dimension pairs is the list of pairs of consecutive boundary dimensions). -/
theorem make_network_shapes {α : Type} [LinearOrderedField α] :
    (make_network (α := α)).v.map vol_dims
        = [(32, 32, 3), (32, 32, 16), (32, 32, 16), (16, 16, 16), (16, 16, 20), (16, 16, 20),
            (8, 8, 20), (8, 8, 20), (8, 8, 20), (4, 4, 20), (1, 1, 10), (1, 1, 10)] ∧
      layer_dims (make_network (α := α))
        = List.zip ((make_network (α := α)).v.map vol_dims)
            ((make_network (α := α)).v.map vol_dims).tail ∧
      (layer_dims (make_network (α := α))).length = LAYERS := by
  rw [make_network_layer_dims, make_network_v_dims]
  exact ⟨rfl, rfl, rfl⟩

/-! ## Shape law -/

/-- When the filter fits inside the padded input, the truncating quotient of
`make_conv_layer` and `make_pool_layer` is the floor of the exact quotient,
and the computed sizes are those of the shape law. -/
theorem shape_law_of_fits (in_sx in_sy in_depth sx filters stride pad : Int)
    (hstride : 1 ≤ stride) (hx : sx ≤ in_sx + pad * 2) (hy : sx ≤ in_sy + pad * 2) :
    (make_conv_layer in_sx in_sy in_depth sx filters stride pad : conv_layer ℚ).out_sx
        = shape_law in_sx pad sx stride ∧
      (make_conv_layer in_sx in_sy in_depth sx filters stride pad : conv_layer ℚ).out_sy
        = shape_law in_sy pad sx stride := by
  have key : ∀ n : Int, 0 ≤ n → n.tdiv stride + 1 = ⌊((n : Int) : ℚ) / ((stride : Int) : ℚ) + 1⌋ := by
    intro n hn
    obtain ⟨s, hs⟩ := Int.eq_ofNat_of_zero_le (le_trans (by norm_num) hstride : (0 : Int) ≤ stride)
    rw [Int.floor_add_one, Int.tdiv_eq_ediv hn (by omega), hs]
    have := Rat.floor_intCast_div_natCast n s
    simp only [Int.cast_natCast]
    rw [this]
  unfold shape_law make_conv_layer
  simp only
  refine ⟨?_, ?_⟩
  · rw [show in_sx + 2 * pad - sx = in_sx + pad * 2 - sx from by ring]
    exact key _ (by omega)
  · rw [show in_sy + 2 * pad - sx = in_sy + pad * 2 - sx from by ring]
    exact key _ (by omega)

/-- C7. At `in_sx = in_sy = 1`, `pad = 0`, filter size `2` and `stride = 2` the
shape law gives the output size `⌊-1/2 + 1⌋ = 0`, while `make_conv_layer` and
`make_pool_layer` both set `out_sx = out_sy = 1`: their quotient `(-1) / 2` is
the truncating `int` division, which is `0`. -/
theorem shape_law_truncates :
    shape_law 1 0 2 2 = 0 ∧
      (make_conv_layer 1 1 1 2 1 2 0 : conv_layer ℚ).out_sx = 1 ∧
      (make_conv_layer 1 1 1 2 1 2 0 : conv_layer ℚ).out_sy = 1 ∧
      (make_pool_layer 1 1 1 2 2).out_sx = 1 ∧
      (make_pool_layer 1 1 1 2 2).out_sy = 1 := by
  refine ⟨?_, by decide, by decide, by decide, by decide⟩
  unfold shape_law
  rw [Int.floor_eq_iff]
  norm_num

/-! ## The forward pass and the classification driver -/

section NetForward

variable {α : Type} [LinearOrderedField α]

theorem rd_wr_ne {β : Type} (dflt : β) (w : List β) (i j : Nat) (x : β) (h : i ≠ j) :
    rd dflt (wr w i x) j = rd dflt w j := by
  rw [rd_eq, rd_eq, getElem?_wr, if_neg h]

/-- The last slot of the batch after `net_forward`: the softmax layer applied
to the output of the fully-connected layer. -/
theorem net_forward_last (exp : α → α) (net : network α) (v : List (List (vol α)))
    (s e : Int) (hv : v.length = 12) :
    rd [] (net_forward exp net v s e) 11
      = softmax_forward exp net.l10
          (fc_forward net.l9 (rd [] (net_forward exp net v s e) 9) (rd [] v 10) s e)
          (rd [] v 11) s e := by
  unfold net_forward
  simp +decide only [rd_wr_ne, rd_wr_self, wr_length, hv, ne_eq,
    not_false_eq_true, Nat.lt_add_one]

end NetForward

section WritesAll

variable {α : Type}

/-- Writes at every index of the buffer determine the volume. -/
theorem VWrites_all {n : Nat} {val : Nat → α} {A B : vol α}
    (h : VWrites (fun j => j < n) val A B) (hlen : A.w.length = n) :
    B = { A with w := (List.range n).map val } := by
  obtain ⟨e1, e2, e3, hl, hw⟩ := h
  cases B with
  | mk bsx bsy bdepth bw =>
    simp only at e1 e2 e3 hl hw
    subst e1 e2 e3
    simp only [vol.mk.injEq, true_and]
    apply List.ext_getElem?
    intro j
    by_cases hj : j < n
    · rw [(hw j).1 hj (by omega), List.getElem?_eq_getElem (by simpa using hj)]
      simp
    · rw [List.getElem?_eq_none (by omega), List.getElem?_eq_none (by simp; omega)]

end WritesAll

section Tail

variable {α : Type} [LinearOrderedField α]

/-- Every cell of a volume made with fill value `0` reads `0`. -/
theorem rd_make_vol_zero (sx sy d : Int) (j : Nat) :
    rd 0 (make_vol sx sy d (0 : α)).w j = 0 := by
  unfold make_vol
  have step : ∀ (B : vol α) (x y z : Int), (∀ j, rd 0 B.w j = 0) →
      ∀ j, rd 0 (set_vol B x y z (0 : α)).w j = 0 := by
    intro B x y z hB j
    unfold set_vol
    simp only
    rw [rd_eq, getElem?_wr]
    by_cases h : vol_index B x y z = j
    · rw [if_pos h]
      by_cases h2 : vol_index B x y z < B.w.length
      · rw [if_pos h2]; rfl
      · rw [if_neg h2]; rfl
    · rw [if_neg h, ← rd_eq]
      exact hB j
  refine loop_inv (fun _ (B : vol α) => ∀ j, rd 0 B.w j = 0) _ _ _ ?_ ?_ j
  · intro j
    rw [rd_eq]
    by_cases h : j < (sx * sy * d).toNat
    · rw [List.getElem?_eq_getElem (by simpa using h)]
      simp
    · rw [List.getElem?_eq_none (by simp; omega)]
      rfl
  · intro z _ B hB
    refine loop_inv (fun _ (B : vol α) => ∀ j, rd 0 B.w j = 0) _ _ _ hB ?_
    intro y _ C hC
    refine loop_inv (fun _ (B : vol α) => ∀ j, rd 0 B.w j = 0) _ _ _ hC ?_
    intro x _ D hD
    exact step D _ _ _ hD

theorem make_batch_length (net : network α) (size : Int) :
    (make_batch net size).length = 12 := by
  simp [make_batch, LAYERS]

/-- The slot `k` of a batch of one sample. -/
theorem make_batch_slot (net : network α) (k : Nat) (hk : k < 12) :
    rd [] (make_batch net 1) k
      = [make_vol ((rd default net.v k).sx : Int) ((rd default net.v k).sy : Int)
          ((rd default net.v k).depth : Int) 0] := by
  unfold make_batch
  rw [rd_eq, List.getElem?_map, List.getElem?_range (by simpa [LAYERS] using hk)]
  rfl

/-- `fc_forward` on a single sample. -/
theorem fc_forward_single (l : fc_layer α) (inp : List (vol α)) (A : vol α) :
    fc_forward l inp [A] 0 0 = [fc_sample l (rd default inp 0) A] := by
  unfold fc_forward
  rw [show ((0 : Int) + 1 - 0).toNat = 1 from rfl, loop_succ, loop_zero]
  simp [wrI, rdI, rd]

/-- `softmax_forward` on a single sample. -/
theorem softmax_forward_single (exp : α → α) (l : softmax_layer) (V A : vol α) :
    softmax_forward exp l [V] [A] 0 0
      = [(softmax_sample exp l V (List.replicate MAX_ES 0) A).2] := by
  unfold softmax_forward
  rw [show ((0 : Int) + 1 - 0).toNat = 1 from rfl, loop_succ, loop_zero]
  simp [wrI, rdI]

/-- A fully-connected layer whose filter weights all read `0` outputs its
biases. -/
theorem fc_sample_zero_filters (l : fc_layer α) (V A : vol α)
    (hfil : ∀ i d, rd 0 (rd default l.filters i).w d = 0)
    (hlen : A.w.length = l.out_depth.toNat) :
    fc_sample l V A
      = { A with w := (List.range l.out_depth.toNat).map (fun i => rd 0 l.biases.w i) } := by
  rw [VWrites_all (fc_sample_writes l V A) hlen]
  congr 1
  apply List.map_congr_left
  intro i _
  rw [fc_neuron_eq]
  simp [hfil]

end Tail

section Tail2

variable {α : Type} [LinearOrderedField α]

theorem image_batch_slot (net : network α) (image : vol α) (k : Nat) (hk : k < 12)
    (hk0 : 0 ≠ k) (hdims : (rd default net.v k).sx = 1 ∧ (rd default net.v k).sy = 1 ∧
      (rd default net.v k).depth = 10) :
    rd [] (image_batch net image) k
      = [{ sx := 1, sy := 1, depth := 10, w := List.replicate 10 0 }] := by
  unfold image_batch
  simp only []
  rw [rd_wr_ne _ _ _ _ _ hk0, make_batch_slot net k hk, hdims.1, hdims.2.1, hdims.2.2,
    make_vol_eq 1 1 10 0 (by norm_num) (by norm_num) (by norm_num) (by norm_num)]

/-- On a network whose fully-connected layer has zero filter weights, the last
slot of the batch after the forward pass holds the softmax of the biases of
that layer, whatever the image. -/
theorem net_forward_tail (exp : α → α) (net : network α) (image : vol α)
    (h : fc_zero_filters net) :
    rd [] (net_forward exp net (image_batch net image) 0 0) 11
      = [{ sx := 1, sy := 1, depth := 10,
           w := (List.range 10).map (softmax_out exp net.l10 (bias_vol net)) }] := by
  have hlen : (image_batch net image).length = 12 := by
    unfold image_batch
    simp only []
    rw [wr_length, make_batch_length]
  rw [net_forward_last exp net _ 0 0 hlen, image_batch_slot net image 10 (by norm_num)
    (by norm_num) h.v10, image_batch_slot net image 11 (by norm_num) (by norm_num) h.v11,
    fc_forward_single, fc_sample_zero_filters net.l9 _ _ h.filters (by rw [h.l9_out]; rfl),
    softmax_forward_single]
  simp only [h.l9_out]
  show [(softmax_sample exp net.l10 (bias_vol net) (List.replicate MAX_ES 0)
    { sx := 1, sy := 1, depth := 10, w := List.replicate 10 0 }).2] = _
  have hw := (softmax_sample_eq exp net.l10 (bias_vol net) (List.replicate MAX_ES 0)
    { sx := 1, sy := 1, depth := 10, w := List.replicate 10 0 }
    (by rw [h.l10_out]; simp [MAX_ES])).2
  rw [VWrites_all hw (by rw [h.l10_out]; rfl), h.l10_out]
  rfl

end Tail2

section Classify

variable {α : Type} [LinearOrderedField α]

/-- Writes at every index of a buffer determine the buffer. -/
theorem Writes_all {β : Type} {n : Nat} {val : Nat → β} {w w' : List β}
    (h : Writes (fun j => j < n) val w w') (hlen : w.length = n) :
    w' = (List.range n).map val := by
  apply List.ext_getElem?
  intro j
  by_cases hj : j < n
  · rw [(h.2 j).1 hj (by omega), List.getElem?_eq_getElem (by simpa using hj)]
    simp
  · rw [List.getElem?_eq_none (by have := h.1; omega), List.getElem?_eq_none (by simp; omega)]

/-- `net_classify_cats` writes, at every index `i` below `n`, the likelihood
computed from the image `i` alone, and leaves the other cells of `output`. -/
theorem net_classify_cats_writes (exp : α → α) (net : network α) (input : List (vol α))
    (output : List α) (n : Int) :
    Writes (fun j => j < n.toNat) (fun i => classify_one exp net (rd default input i)) output
      (net_classify_cats exp net input output n) := by
  unfold net_classify_cats
  refine Writes_mono (Writes_loop n.toNat _ (fun i j => j = i)
    (fun i => classify_one exp net (rd default input i)) output
    (fun i _ u _ => Writes_set _ u i _ rfl)) (fun j => ⟨?_, ?_⟩)
  · rintro ⟨k, hk, rfl⟩; exact hk
  · intro hj; exact ⟨j, hj, rfl⟩

/-- The likelihood `classify_one` returns on a network whose fully-connected
layer has zero filter weights: the softmax of the biases at `CAT_LABEL`. -/
theorem classify_one_tail (exp : α → α) (net : network α) (image : vol α)
    (h : fc_zero_filters net) :
    classify_one exp net image = softmax_out exp net.l10 (bias_vol net) CAT_LABEL := by
  unfold classify_one
  simp only []
  rw [net_forward_tail exp net image h]
  simp [rd, CAT_LABEL]

/-- Every filter weight of a layer built by `make_fc_layer` reads `0`. -/
theorem make_fc_layer_filters_zero (in_sx in_sy in_depth num_neurons : Int) (i d : Nat) :
    rd 0 (rd default (make_fc_layer in_sx in_sy in_depth num_neurons : fc_layer α).filters i).w d
      = 0 := by
  unfold make_fc_layer
  simp only []
  rw [rd_eq default, List.getElem?_map]
  by_cases hi : i < num_neurons.toNat
  · rw [List.getElem?_range hi]
    exact rd_make_vol_zero _ _ _ d
  · rw [List.getElem?_eq_none (by simp; omega)]
    rfl

/-- Every bias of a layer built by `make_fc_layer` reads `0`. -/
theorem make_fc_layer_biases_zero (in_sx in_sy in_depth num_neurons : Int) (i : Nat) :
    rd 0 (make_fc_layer in_sx in_sy in_depth num_neurons : fc_layer α).biases.w i = 0 :=
  rd_make_vol_zero _ _ _ i

/-- The fully-connected layer of `make_network` is built by `make_fc_layer`
with ten neurons. -/
theorem make_network_l9 :
    ∃ a b c : Int, (make_network (α := α)).l9 = make_fc_layer a b c 10 :=
  ⟨_, _, _, rfl⟩

/-- The network of `make_network` satisfies `fc_zero_filters`. -/
theorem make_network_fc_zero : fc_zero_filters (make_network (α := α)) where
  v10 := by
    simp [make_network, rd, make_vol_sx, make_vol_sy, make_vol_depth, make_conv_layer,
      make_relu_layer, make_pool_layer, make_fc_layer, make_softmax_layer, u64,
      show Int.tdiv 30 2 = 15 from by decide, show Int.tdiv 14 2 = 7 from by decide,
      show Int.tdiv 6 2 = 3 from by decide]
  v11 := by
    simp [make_network, rd, make_vol_sx, make_vol_sy, make_vol_depth, make_conv_layer,
      make_relu_layer, make_pool_layer, make_fc_layer, make_softmax_layer, u64,
      show Int.tdiv 30 2 = 15 from by decide, show Int.tdiv 14 2 = 7 from by decide,
      show Int.tdiv 6 2 = 3 from by decide]
  l9_out := rfl
  l10_out := by
    have := make_network_layer_dims (α := α)
    simp only [layer_dims, List.cons.injEq, Prod.mk.injEq] at this
    exact this.2.2.2.2.2.2.2.2.2.2.1.2.2.2
  filters := fun i d => by
    obtain ⟨a, b, c, h⟩ := make_network_l9 (α := α)
    rw [h]
    exact make_fc_layer_filters_zero a b c 10 i d

/-- The maximal activation of a vector whose elements all read `c`. -/
theorem softmax_amax_const (l : softmax_layer) (V : vol α) (c : α)
    (h : ∀ i, rd 0 V.w i = c) : softmax_amax l V = c := by
  unfold softmax_amax
  refine loop_inv (fun _ (a : α) => a = c) _ _ _ (h 0) ?_
  intro k _ a ha
  simp only [h, ha, gt_iff_lt, lt_self_iff_false, if_false]

/-- The softmax of a vector whose elements all read the same value is uniform. -/
theorem softmax_out_const (exp : α → α) (l : softmax_layer) (V : vol α) (c : α)
    (h : ∀ i, rd 0 V.w i = c) (hexp : exp 0 ≠ 0) (hn : 1 ≤ l.out_depth) (i : Nat) :
    softmax_out exp l V i = 1 / (l.out_depth.toNat : α) := by
  have hpos : (0 : α) < (l.out_depth.toNat : α) := by
    have : 0 < l.out_depth.toNat := by omega
    exact_mod_cast this
  unfold softmax_out softmax_esum softmax_e
  simp only [h, softmax_amax_const l V c h, sub_self, Finset.sum_const, Finset.card_range,
    nsmul_eq_mul]
  field_simp
  ring

end Classify

theorem bias_vol_make_network {α : Type} [LinearOrderedField α] (i : Nat) :
    rd 0 (bias_vol (make_network (α := α))).w i = 0 := by
  obtain ⟨a, b, c, h⟩ := make_network_l9 (α := α)
  have hb : ∀ k, rd 0 (make_network (α := α)).l9.biases.w k = 0 := by
    intro k
    rw [h]
    exact make_fc_layer_biases_zero a b c 10 k
  unfold bias_vol
  simp only [hb]
  rw [rd_eq, List.getElem?_map]
  by_cases hi : i < 10
  · rw [List.getElem?_range hi]
    simp only [Option.map_some', Option.getD_some]
  · rw [List.getElem?_eq_none (by simp; omega)]
    simp only [Option.map_none', Option.getD_none]

/-- C8. The all-zero network gives the uniform distribution: for the network
returned by `make_network` (every filter and bias is zero) and every
`32 × 32 × 3` input image, in exact real arithmetic, `net_forward` leaves in
the last slot of the batch the volume whose ten elements are `1/10`, and
`net_classify_cats` writes `1/10` for every image. -/
theorem zero_network_uniform (input : List (vol ℝ)) (output : List ℝ) (n : Nat)
    (_hin : input.length = n) (hout : output.length = n)
    (_hshape : ∀ image, image ∈ input →
      vol_dims image = (32, 32, 3) ∧ image.w.length = 32 * 32 * 3) :
    (∀ image, image ∈ input →
      rd [] (net_forward Real.exp make_network (image_batch make_network image) 0 0) 11
        = [{ sx := 1, sy := 1, depth := 10, w := List.replicate 10 (1 / 10) }]) ∧
      net_classify_cats Real.exp make_network input output (n : Int)
        = List.replicate n (1 / 10) := by
  have hout10 : ∀ i, softmax_out Real.exp (make_network (α := ℝ)).l10
      (bias_vol make_network) i = 1 / 10 := by
    intro i
    rw [softmax_out_const Real.exp _ _ 0 bias_vol_make_network
      (by rw [Real.exp_zero]; exact one_ne_zero)
      (by rw [make_network_fc_zero.l10_out]; norm_num), make_network_fc_zero.l10_out,
      show (10 : Int).toNat = 10 from rfl]
    norm_num
  refine ⟨fun image _ => ?_, ?_⟩
  · rw [net_forward_tail Real.exp make_network image make_network_fc_zero,
      show softmax_out Real.exp (make_network (α := ℝ)).l10 (bias_vol make_network)
        = fun _ => 1 / 10 from funext hout10]
    rfl
  · rw [Writes_all (net_classify_cats_writes Real.exp make_network input output n)
      (by simpa using hout)]
    simp only [Int.toNat_natCast, classify_one_tail Real.exp make_network _ make_network_fc_zero,
      hout10]
    apply List.ext_getElem?
    intro j
    by_cases hj : j < n
    · rw [List.getElem?_eq_getElem (by simpa using hj), List.getElem?_eq_getElem (by simpa using hj)]
      simp
    · rw [List.getElem?_eq_none (by simp; omega), List.getElem?_eq_none (by simp; omega)]

theorem zero_network_uniform_witness :
    [(⟨32, 32, 3, List.replicate 3072 7⟩ : vol ℝ)].length = 1 ∧ [(0 : ℝ)].length = 1 ∧
    (∀ image, image ∈ [(⟨32, 32, 3, List.replicate 3072 7⟩ : vol ℝ)] →
      rd [] (net_forward Real.exp make_network (image_batch make_network image) 0 0) 11
        = [{ sx := 1, sy := 1, depth := 10, w := List.replicate 10 (1 / 10) }]) ∧
      net_classify_cats Real.exp make_network [(⟨32, 32, 3, List.replicate 3072 7⟩ : vol ℝ)]
          [(0 : ℝ)] ((1 : Nat) : Int)
        = List.replicate 1 (1 / 10) :=
  ⟨rfl, rfl, zero_network_uniform [(⟨32, 32, 3, List.replicate 3072 7⟩ : vol ℝ)] [(0 : ℝ)] 1
    rfl rfl (by
      intro image himage
      rw [List.mem_singleton] at himage
      subst himage
      exact ⟨rfl, by rw [List.length_replicate]⟩)⟩

section CatBias

variable {α : Type} [LinearOrderedField α]

theorem cat_bias_network_fc_zero (b : α) : fc_zero_filters (cat_bias_network b) where
  v10 := (make_network_fc_zero (α := α)).v10
  v11 := (make_network_fc_zero (α := α)).v11
  l9_out := rfl
  l10_out := (make_network_fc_zero (α := α)).l10_out
  filters := (make_network_fc_zero (α := α)).filters

theorem cat_bias_network_biases (b : α) :
    (cat_bias_network b).l9.biases.w = wr (make_network (α := α)).l9.biases.w CAT_LABEL b := by
  unfold cat_bias_network
  simp only []

/-- The bias vector of `cat_bias_network b`. -/
theorem bias_vol_cat_bias (b : α) :
    bias_vol (cat_bias_network b)
      = { sx := 1, sy := 1, depth := 10, w := [0, 0, 0, b, 0, 0, 0, 0, 0, 0] } := by
  obtain ⟨a1, a2, a3, h⟩ := make_network_l9 (α := α)
  have hz : ∀ k, rd 0 (make_network (α := α)).l9.biases.w k = 0 := by
    intro k
    rw [h]
    exact make_fc_layer_biases_zero a1 a2 a3 10 k
  have hlen : (make_network (α := α)).l9.biases.w.length = 10 := by
    rw [h]
    exact make_vol_length 1 1 10 0
  have hb : ∀ k, rd 0 (cat_bias_network b).l9.biases.w k = if k = 3 then b else 0 := by
    intro k
    rw [cat_bias_network_biases]
    by_cases hk : k = 3
    · subst hk
      rw [if_pos rfl]
      exact rd_wr_self 0 _ 3 b (by rw [hlen]; norm_num)
    · rw [if_neg hk, rd_wr_ne 0 _ CAT_LABEL k b (fun e => hk (by rw [← e]; rfl)), hz]
  unfold bias_vol
  simp only [hb]
  simp [List.range_succ]

/-- The likelihood computed by the network with the single bias `b`, for
`b > 0`. -/
theorem softmax_cat_pos (exp : α → α) (b : α) (hb : 0 < b) (l : softmax_layer)
    (hl : l.out_depth = 10) :
    softmax_out exp l { sx := 1, sy := 1, depth := 10, w := [0, 0, 0, b, 0, 0, 0, 0, 0, 0] }
        CAT_LABEL
      = exp (b - b) / (9 * exp (0 - b) + exp (b - b)) := by
  have hamax : softmax_amax l
      ({ sx := 1, sy := 1, depth := 10, w := [0, 0, 0, b, 0, 0, 0, 0, 0, 0] } : vol α) = b := by
    unfold softmax_amax
    rw [hl]
    simp [loop, List.range_succ, rd, hb, not_lt_of_gt hb]
  unfold softmax_out softmax_esum softmax_e
  rw [hamax, hl]
  simp [Finset.sum_range_succ, rd, CAT_LABEL]
  ring_nf

/-- The likelihood computed by the network with the single bias `b`, for
`b ≤ 0`. -/
theorem softmax_cat_nonpos (exp : α → α) (b : α) (hb : b ≤ 0) (l : softmax_layer)
    (hl : l.out_depth = 10) :
    softmax_out exp l { sx := 1, sy := 1, depth := 10, w := [0, 0, 0, b, 0, 0, 0, 0, 0, 0] }
        CAT_LABEL
      = exp (b - 0) / (9 * exp (0 - 0) + exp (b - 0)) := by
  have hamax : softmax_amax l
      ({ sx := 1, sy := 1, depth := 10, w := [0, 0, 0, b, 0, 0, 0, 0, 0, 0] } : vol α) = 0 := by
    unfold softmax_amax
    rw [hl]
    simp [loop, List.range_succ, rd, not_lt_of_ge hb]
  unfold softmax_out softmax_esum softmax_e
  rw [hamax, hl]
  simp [Finset.sum_range_succ, rd, CAT_LABEL]
  ring_nf

end CatBias

/-- The likelihood `net_classify_cats` writes at index `i` on the network with
the single bias `b`. -/
theorem cat_bias_output (b : ℝ) (input : List (vol ℝ)) (output : List ℝ) (n : Nat)
    (hout : output.length = n) (i : Nat) (hi : i < n) :
    rd 0 (net_classify_cats Real.exp (cat_bias_network b) input output (n : Int)) i
      = softmax_out Real.exp (cat_bias_network b).l10
          { sx := 1, sy := 1, depth := 10, w := [0, 0, 0, b, 0, 0, 0, 0, 0, 0] } CAT_LABEL := by
  rw [Writes_rd_mem (net_classify_cats_writes Real.exp (cat_bias_network b) input output n) 0 i
    (by simpa using hi) (by omega),
    classify_one_tail Real.exp (cat_bias_network b) _ (cat_bias_network_fc_zero b),
    bias_vol_cat_bias]

/-- C9 (as stated, refuted). With the bias `b = -1` at `CAT_LABEL` and every
other parameter zero, the likelihood written for a `32 × 32 × 3` image is not
greater than `1/10`. -/
theorem cat_bias_negative_not_above :
    ¬ (1 / 10 < rd 0 (net_classify_cats Real.exp (cat_bias_network (-1))
        [(⟨32, 32, 3, List.replicate 3072 7⟩ : vol ℝ)] [(0 : ℝ)] ((1 : Nat) : Int)) 0) := by
  rw [cat_bias_output (-1) [(⟨32, 32, 3, List.replicate 3072 7⟩ : vol ℝ)] [(0 : ℝ)] 1 rfl 0
      (by norm_num),
    softmax_cat_nonpos Real.exp (-1) (by norm_num) _ (cat_bias_network_fc_zero (-1 : ℝ)).l10_out]
  have h1 : Real.exp (-1 - 0) ≤ 1 := by
    have := Real.exp_le_exp.mpr (show (-1 - 0 : ℝ) ≤ 0 by norm_num)
    rwa [Real.exp_zero] at this
  have h2 : 0 < Real.exp (-1 - 0) := Real.exp_pos _
  rw [sub_self, Real.exp_zero, not_lt, div_le_div_iff₀ (by linarith) (by norm_num)]
  linarith

/-- C9 (amended). For the network in which the bias of the fully-connected
layer at `CAT_LABEL = 3` is a positive value `b` and every other filter weight
and bias is zero, `net_classify_cats` writes for every `32 × 32 × 3` input
image a likelihood strictly greater than `1/10` (exact real arithmetic). -/
theorem cat_bias_positive_above (b : ℝ) (hb : 0 < b) (input : List (vol ℝ))
    (output : List ℝ) (n : Nat) (_hin : input.length = n) (hout : output.length = n)
    (_hshape : ∀ image, image ∈ input →
      vol_dims image = (32, 32, 3) ∧ image.w.length = 32 * 32 * 3)
    (i : Nat) (hi : i < n) :
    1 / 10 < rd 0 (net_classify_cats Real.exp (cat_bias_network b) input output (n : Int)) i := by
  rw [cat_bias_output b input output n hout i hi,
    softmax_cat_pos Real.exp b hb _ (cat_bias_network_fc_zero b).l10_out]
  have h1 : Real.exp (0 - b) < 1 := by
    have := Real.exp_lt_exp.mpr (show 0 - b < 0 by linarith)
    rwa [Real.exp_zero] at this
  have h2 : 0 < Real.exp (0 - b) := Real.exp_pos _
  rw [sub_self, Real.exp_zero, div_lt_div_iff₀ (by norm_num) (by linarith)]
  linarith

theorem cat_bias_positive_above_witness :
    (0 : ℝ) < 2 ∧ [(⟨32, 32, 3, List.replicate 3072 7⟩ : vol ℝ)].length = 1 ∧
    [(0 : ℝ)].length = 1 ∧ 0 < 1 ∧
    1 / 10 < rd 0 (net_classify_cats Real.exp (cat_bias_network 2)
      [(⟨32, 32, 3, List.replicate 3072 7⟩ : vol ℝ)] [(0 : ℝ)] ((1 : Nat) : Int)) 0 :=
  ⟨by norm_num, rfl, rfl, by norm_num,
    cat_bias_positive_above 2 (by norm_num) [(⟨32, 32, 3, List.replicate 3072 7⟩ : vol ℝ)]
      [(0 : ℝ)] 1 rfl rfl (by
        intro image himage
        rw [List.mem_singleton] at himage
        subst himage
        exact ⟨rfl, by rw [List.length_replicate]⟩) 0 (by norm_num)⟩

section Independence

variable {α : Type} [LinearOrderedField α]

/-- The cell `i` of the result of `net_classify_cats`, for `i` below `n`: the
likelihood computed from the image `i` alone. -/
theorem net_classify_cats_get (exp : α → α) (net : network α) (input : List (vol α))
    (output : List α) (n : Nat) (hout : output.length = n) (i : Nat) (hi : i < n) :
    rd 0 (net_classify_cats exp net input output (n : Int)) i
      = classify_one exp net (rd default input i) :=
  Writes_rd_mem (net_classify_cats_writes exp net input output n) 0 i (by simpa using hi)
    (by omega)

/-- C10. Per-image independence of `net_classify_cats`: for every network,
every `n`, every array of `n` input images and every `i < n`, `output[i]` is
the value obtained by classifying `input[i]` alone (`n = 1`); hence two input
arrays that agree at the index `i` give the same `output[i]`, and an input
array whose image `k` is the image `σ k` of the first one gives at `k` the
output the first one gives at `σ k`. -/
theorem net_classify_cats_independent (exp : α → α) (net : network α)
    (input : List (vol α)) (output : List α) (n : Nat) (_hin : input.length = n)
    (hout : output.length = n) (i : Nat) (hi : i < n) :
    (∀ o : α, rd 0 (net_classify_cats exp net input output (n : Int)) i
        = rd 0 (net_classify_cats exp net [rd default input i] [o] ((1 : Nat) : Int)) 0) ∧
    (∀ (input' : List (vol α)) (output' : List α), input'.length = n → output'.length = n →
      rd default input' i = rd default input i →
      rd 0 (net_classify_cats exp net input' output' (n : Int)) i
        = rd 0 (net_classify_cats exp net input output (n : Int)) i) ∧
    (∀ (input' : List (vol α)) (output' : List α) (σ : Nat → Nat),
      input'.length = n → output'.length = n →
      (∀ k, k < n → σ k < n ∧ rd default input' k = rd default input (σ k)) →
      ∀ k, k < n → rd 0 (net_classify_cats exp net input' output' (n : Int)) k
        = rd 0 (net_classify_cats exp net input output (n : Int)) (σ k)) := by
  refine ⟨fun o => ?_, fun input' output' _ hout' heq => ?_,
    fun input' output' σ _ hout' hσ k hk => ?_⟩
  · rw [net_classify_cats_get exp net input output n hout i hi,
      net_classify_cats_get exp net [rd default input i] [o] 1 rfl 0 (by norm_num)]
    rfl
  · rw [net_classify_cats_get exp net input' output' n hout' i hi,
      net_classify_cats_get exp net input output n hout i hi, heq]
  · rw [net_classify_cats_get exp net input' output' n hout' k hk,
      net_classify_cats_get exp net input output n hout (σ k) (hσ k hk).1, (hσ k hk).2]

end Independence

theorem net_classify_cats_independent_witness :
    example_images.length = 3 ∧ [(0 : ℚ), 0, 0].length = 3 ∧ 1 < 3 ∧
    ((∀ o : ℚ, rd 0 (net_classify_cats (fun x => 1 + x * x) example_network example_images
          [(0 : ℚ), 0, 0] ((3 : Nat) : Int)) 1
        = rd 0 (net_classify_cats (fun x => 1 + x * x) example_network
            [rd default example_images 1] [o] ((1 : Nat) : Int)) 0) ∧
    (∀ (input' : List (vol ℚ)) (output' : List ℚ), input'.length = 3 → output'.length = 3 →
      rd default input' 1 = rd default example_images 1 →
      rd 0 (net_classify_cats (fun x => 1 + x * x) example_network input' output'
          ((3 : Nat) : Int)) 1
        = rd 0 (net_classify_cats (fun x => 1 + x * x) example_network example_images
            [(0 : ℚ), 0, 0] ((3 : Nat) : Int)) 1) ∧
    (∀ (input' : List (vol ℚ)) (output' : List ℚ) (σ : Nat → Nat),
      input'.length = 3 → output'.length = 3 →
      (∀ k, k < 3 → σ k < 3 ∧ rd default input' k = rd default example_images (σ k)) →
      ∀ k, k < 3 → rd 0 (net_classify_cats (fun x => 1 + x * x) example_network input' output'
          ((3 : Nat) : Int)) k
        = rd 0 (net_classify_cats (fun x => 1 + x * x) example_network example_images
            [(0 : ℚ), 0, 0] ((3 : Nat) : Int)) (σ k))) ∧
    (∀ k, k < 3 →
      rd 0 (net_classify_cats (fun x => 1 + x * x) example_network example_images_rotated
          [(5 : ℚ), 6, 7] ((3 : Nat) : Int)) k
        = rd 0 (net_classify_cats (fun x => 1 + x * x) example_network example_images
            [(0 : ℚ), 0, 0] ((3 : Nat) : Int)) ((k + 1) % 3)) :=
  ⟨rfl, rfl, by norm_num,
    net_classify_cats_independent (fun x => 1 + x * x) example_network example_images
      [(0 : ℚ), 0, 0] 3 rfl rfl 1 (by norm_num),
    (net_classify_cats_independent (fun x => 1 + x * x) example_network example_images
      [(0 : ℚ), 0, 0] 3 rfl rfl 1 (by norm_num)).2.2 example_images_rotated [(5 : ℚ), 6, 7]
      (fun k => (k + 1) % 3) rfl rfl (fun k hk => by
        have h3 : k = 0 ∨ k = 1 ∨ k = 2 := by omega
        rcases h3 with h | h | h <;> subst h <;>
          exact ⟨by norm_num, by simp [rd, example_images, example_images_rotated]⟩)⟩
/-! ## Tensor addressing and allocation -/

section Addressing

variable {α : Type} [LinearOrderedField α]

/-- Distinct in-range coordinates have distinct buffer indices. -/
theorem flat_injective {sx depth x y d x' y' d' : Nat} (hx : x < sx) (hd : d < depth)
    (hx' : x' < sx) (hd' : d' < depth)
    (h : flat sx depth x y d = flat sx depth x' y' d') : x = x' ∧ y = y' ∧ d = d' := by
  refine ⟨?_, ?_, ?_⟩
  · rw [← unflat_x_flat (y := y) hx hd, h, unflat_x_flat hx' hd']
  · rw [← unflat_y_flat (y := y) hx hd, h, unflat_y_flat hx' hd']
  · rw [← @unflat_d_flat sx depth x y d hd, h, unflat_d_flat hd']

theorem get_set_vol_same (v : vol α) (x y d : Nat) (val : α)
    (hlen : v.w.length = v.sx * v.sy * v.depth) (hsz : v.sx * v.sy * v.depth < 2 ^ 64)
    (hx : x < v.sx) (hy : y < v.sy) (hd : d < v.depth) :
    get_vol (set_vol v (x : Int) (y : Int) (d : Int) val) (x : Int) (y : Int) (d : Int) = val := by
  have hflt := flat_lt hx hy hd
  have hw := set_vol_writes v x y d val (fun a b c => if a = x ∧ b = y ∧ c = d then val else 0)
    hx hy hd hsz (by simp)
  rw [get_vol_eq_rd _ x y d (by rw [hw.1, hw.2.2.1]; omega), hw.1, hw.2.2.1,
    Writes_rd_mem hw.2.2.2 0 _ rfl (by omega)]
  unfold coord_val
  rw [unflat_x_flat hx hd, unflat_y_flat hx hd, unflat_d_flat hd]
  simp

theorem get_set_vol_other (v : vol α) (x y d x' y' d' : Nat) (val : α)
    (hsz : v.sx * v.sy * v.depth < 2 ^ 64)
    (hx : x < v.sx) (hy : y < v.sy) (hd : d < v.depth)
    (hx' : x' < v.sx) (hy' : y' < v.sy) (hd' : d' < v.depth)
    (hne : ¬ (x' = x ∧ y' = y ∧ d' = d)) :
    get_vol (set_vol v (x : Int) (y : Int) (d : Int) val) (x' : Int) (y' : Int) (d' : Int)
      = get_vol v (x' : Int) (y' : Int) (d' : Int) := by
  have hflt := flat_lt hx' hy' hd'
  have hw := set_vol_writes v x y d val (fun _ _ _ => val) hx hy hd hsz rfl
  rw [get_vol_eq_rd _ x' y' d' (by rw [hw.1, hw.2.2.1]; omega), hw.1, hw.2.2.1,
    Writes_rd_not_mem hw.2.2.2 0 _ (fun h => hne (flat_injective hx' hd' hx hd h)),
    get_vol_eq_rd v x' y' d' (by omega)]

/-- C18. Tensor addressing: for a volume of shape `sx × sy × depth` whose
buffer has `sx * sy * depth` cells, and every in-range coordinate
`(x, y, d)`, the index used by `get_vol` and `set_vol` is
`((sx * y) + x) * depth + d`, it is less than `sx * sy * depth`, and distinct
in-range coordinates have distinct indices; consequently `get_vol` after
`set_vol v x y d val` returns `val` at `(x, y, d)` and the previous value at
every other in-range coordinate. -/
theorem vol_addressing (v : vol α) (x y d : Nat)
    (hlen : v.w.length = v.sx * v.sy * v.depth) (hsz : v.sx * v.sy * v.depth < 2 ^ 64)
    (hx : x < v.sx) (hy : y < v.sy) (hd : d < v.depth) :
    vol_index v (x : Int) (y : Int) (d : Int) = ((v.sx * y) + x) * v.depth + d ∧
    vol_index v (x : Int) (y : Int) (d : Int) < v.sx * v.sy * v.depth ∧
    (∀ x' y' d' : Nat, x' < v.sx → y' < v.sy → d' < v.depth →
      vol_index v (x' : Int) (y' : Int) (d' : Int) = vol_index v (x : Int) (y : Int) (d : Int) →
      x' = x ∧ y' = y ∧ d' = d) ∧
    (∀ val : α,
      get_vol (set_vol v (x : Int) (y : Int) (d : Int) val) (x : Int) (y : Int) (d : Int) = val ∧
      ∀ x' y' d' : Nat, x' < v.sx → y' < v.sy → d' < v.depth →
        ¬ (x' = x ∧ y' = y ∧ d' = d) →
        get_vol (set_vol v (x : Int) (y : Int) (d : Int) val) (x' : Int) (y' : Int) (d' : Int)
          = get_vol v (x' : Int) (y' : Int) (d' : Int)) := by
  have hflt := flat_lt hx hy hd
  have hidx := vol_index_eq v x y d (lt_trans hflt hsz)
  refine ⟨hidx, by rw [hidx]; exact hflt, ?_, fun val => ⟨?_, ?_⟩⟩
  · intro x' y' d' hx' hy' hd' h
    rw [hidx, vol_index_eq v x' y' d' (lt_trans (flat_lt hx' hy' hd') hsz)] at h
    exact flat_injective hx' hd' hx hd h
  · exact get_set_vol_same v x y d val hlen hsz hx hy hd
  · intro x' y' d' hx' hy' hd' hne
    exact get_set_vol_other v x y d x' y' d' val hsz hx hy hd hx' hy' hd' hne

/-- C19. `make_vol sx sy d v` (for dimensions that fit) returns a volume with
the dimensions `(sx, sy, d)` whose buffer has length `sx * sy * d` and in which
every element, at every buffer index below `sx * sy * d` and at every in-range
coordinate, is the fill value `v`. -/
theorem make_vol_filled (sx sy d : Nat) (v : α) (hsx : sx < 2 ^ 64) (hsy : sy < 2 ^ 64)
    (hd : d < 2 ^ 64) (hsz : sx * sy * d < 2 ^ 64) :
    (make_vol (sx : Int) (sy : Int) (d : Int) v).sx = sx ∧
    (make_vol (sx : Int) (sy : Int) (d : Int) v).sy = sy ∧
    (make_vol (sx : Int) (sy : Int) (d : Int) v).depth = d ∧
    (make_vol (sx : Int) (sy : Int) (d : Int) v).w.length = sx * sy * d ∧
    (∀ j, j < sx * sy * d → (make_vol (sx : Int) (sy : Int) (d : Int) v).w[j]? = some v) ∧
    (∀ x y z : Nat, x < sx → y < sy → z < d →
      get_vol (make_vol (sx : Int) (sy : Int) (d : Int) v) (x : Int) (y : Int) (z : Int) = v) := by
  rw [make_vol_eq sx sy d v hsx hsy hd hsz]
  refine ⟨rfl, rfl, rfl, by simp, ?_, ?_⟩
  · intro j hj
    rw [List.getElem?_eq_getElem (by simpa using hj)]
    simp
  · intro x y z hx hy hz
    have hflt : flat sx d x y z < sx * sy * d := flat_lt hx hy hz
    rw [get_vol_eq_rd _ x y z (lt_trans hflt hsz), rd_eq,
      List.getElem?_eq_getElem (by simpa using hflt)]
    simp

end Addressing

theorem vol_addressing_witness :
    conv_example_in.w.length = conv_example_in.sx * conv_example_in.sy * conv_example_in.depth ∧
    conv_example_in.sx * conv_example_in.sy * conv_example_in.depth < 2 ^ 64 ∧
    1 < conv_example_in.sx ∧ 2 < conv_example_in.sy ∧ 3 < conv_example_in.depth ∧
    vol_index conv_example_in ((1 : Nat) : Int) ((2 : Nat) : Int) ((3 : Nat) : Int)
      = ((conv_example_in.sx * 2) + 1) * conv_example_in.depth + 3 ∧
    vol_index conv_example_in ((1 : Nat) : Int) ((2 : Nat) : Int) ((3 : Nat) : Int)
      < conv_example_in.sx * conv_example_in.sy * conv_example_in.depth ∧
    (∀ x' y' d' : Nat, x' < conv_example_in.sx → y' < conv_example_in.sy →
      d' < conv_example_in.depth →
      vol_index conv_example_in (x' : Int) (y' : Int) (d' : Int)
        = vol_index conv_example_in ((1 : Nat) : Int) ((2 : Nat) : Int) ((3 : Nat) : Int) →
      x' = 1 ∧ y' = 2 ∧ d' = 3) ∧
    (∀ val : ℚ,
      get_vol (set_vol conv_example_in ((1 : Nat) : Int) ((2 : Nat) : Int) ((3 : Nat) : Int) val)
        ((1 : Nat) : Int) ((2 : Nat) : Int) ((3 : Nat) : Int) = val ∧
      ∀ x' y' d' : Nat, x' < conv_example_in.sx → y' < conv_example_in.sy →
        d' < conv_example_in.depth → ¬ (x' = 1 ∧ y' = 2 ∧ d' = 3) →
        get_vol (set_vol conv_example_in ((1 : Nat) : Int) ((2 : Nat) : Int)
            ((3 : Nat) : Int) val) (x' : Int) (y' : Int) (d' : Int)
          = get_vol conv_example_in (x' : Int) (y' : Int) (d' : Int)) :=
  ⟨by decide, by decide, by decide, by decide, by decide,
    vol_addressing conv_example_in 1 2 3 (by decide) (by decide) (by decide) (by decide)
      (by decide)⟩

theorem make_vol_filled_witness :
    (2 : Nat) < 2 ^ 64 ∧ (3 : Nat) < 2 ^ 64 ∧ (4 : Nat) < 2 ^ 64 ∧ 2 * 3 * 4 < 2 ^ 64 ∧
    (make_vol ((2 : Nat) : Int) ((3 : Nat) : Int) ((4 : Nat) : Int) (5 : ℚ)).sx = 2 ∧
    (make_vol ((2 : Nat) : Int) ((3 : Nat) : Int) ((4 : Nat) : Int) (5 : ℚ)).sy = 3 ∧
    (make_vol ((2 : Nat) : Int) ((3 : Nat) : Int) ((4 : Nat) : Int) (5 : ℚ)).depth = 4 ∧
    (make_vol ((2 : Nat) : Int) ((3 : Nat) : Int) ((4 : Nat) : Int) (5 : ℚ)).w.length
      = 2 * 3 * 4 ∧
    (∀ j, j < 2 * 3 * 4 →
      (make_vol ((2 : Nat) : Int) ((3 : Nat) : Int) ((4 : Nat) : Int) (5 : ℚ)).w[j]? = some 5) ∧
    (∀ x y z : Nat, x < 2 → y < 3 → z < 4 →
      get_vol (make_vol ((2 : Nat) : Int) ((3 : Nat) : Int) ((4 : Nat) : Int) (5 : ℚ))
        (x : Int) (y : Int) (z : Int) = 5) :=
  ⟨by norm_num, by norm_num, by norm_num, by norm_num,
    make_vol_filled 2 3 4 5 (by norm_num) (by norm_num) (by norm_num) (by norm_num)⟩

/-! ## Algebraic properties of the rectify and convolution layers -/

section ReluIdem

variable {α : Type} [LinearOrderedField α]

theorem relu_relu (x : α) :
    (if (if x < 0 then 0 else x) < 0 then 0 else (if x < 0 then 0 else x))
      = (if x < 0 then 0 else x) := by
  by_cases h : x < 0
  · simp [h]
  · simp [h]

/-- The sample body of `relu_forward` for an output buffer of
`in_sx * in_sy * in_depth` cells. -/
theorem relu_sample_eq (l : relu_layer) (V A : vol α)
    (hlen : A.w.length = (l.in_sx * l.in_sy * l.in_depth).toNat) :
    relu_sample l V A
      = { A with
          w := List.map (fun i => if rd 0 V.w i < 0 then 0 else rd 0 V.w i)
            (List.range (l.in_sx * l.in_sy * l.in_depth).toNat) } :=
  VWrites_all (relu_sample_writes l V A) hlen

theorem relu_sample_idem (l : relu_layer) (V A B : vol α) (hAB : SameShape A B)
    (hlen : A.w.length = (l.in_sx * l.in_sy * l.in_depth).toNat) :
    relu_sample l (relu_sample l V A) B = relu_sample l V A := by
  rw [relu_sample_eq l _ B (hAB.2.2.2.trans hlen), relu_sample_eq l V A hlen]
  obtain ⟨h1, h2, h3, _⟩ := hAB
  cases A; cases B
  simp only at h1 h2 h3
  subst h1 h2 h3
  simp only [vol.mk.injEq, true_and]
  apply List.map_congr_left
  intro i hi
  have hi' : i < (l.in_sx * l.in_sy * l.in_depth).toNat := List.mem_range.mp hi
  have : rd 0 (List.map (fun i => if rd 0 V.w i < 0 then 0 else rd 0 V.w i)
      (List.range (l.in_sx * l.in_sy * l.in_depth).toNat)) i
      = if rd 0 V.w i < 0 then 0 else rd 0 V.w i := by
    rw [rd_eq, List.getElem?_map, List.getElem?_range hi']
    simp only [Option.map_some', Option.getD_some]
  rw [this, relu_relu]

/-- C17. Rectify is idempotent: for a sample `j` of the range whose volumes
have `in_sx * in_sy * in_depth` cells, applying `relu_forward` to the output
of `relu_forward` (into an output volume of the same shape) gives a volume
equal to the output of the first application. -/
theorem relu_forward_idempotent (l : relu_layer) (inp out out' : List (vol α))
    (start end_ : Int) (j : Nat) (V A B : vol α) (hstart : 0 ≤ start)
    (hj : start ≤ (j : Int) ∧ (j : Int) ≤ end_)
    (hV : inp[j]? = some V) (hA : out[j]? = some A) (hB : out'[j]? = some B)
    (hAB : SameShape A B)
    (_hVlen : V.w.length = (l.in_sx * l.in_sy * l.in_depth).toNat)
    (hAlen : A.w.length = (l.in_sx * l.in_sy * l.in_depth).toNat) :
    (relu_forward l (relu_forward l inp out start end_) out' start end_)[j]?
      = (relu_forward l inp out start end_)[j]? := by
  have h1 := relu_forward_get l inp out start end_ j V A hstart hj hV hA
  rw [relu_forward_get l _ out' start end_ j (relu_sample l V A) B hstart hj h1 hB, h1,
    relu_sample_idem l V A B hAB hAlen]

end ReluIdem

theorem relu_forward_idempotent_witness :
    (0 : Int) ≤ 0 ∧ ((0 : Int) ≤ ((0 : Nat) : Int) ∧ ((0 : Nat) : Int) ≤ 0) ∧
    SameShape (⟨1, 1, 3, [0, 0, 0]⟩ : vol ℚ) ⟨1, 1, 3, [9, 9, 9]⟩ ∧
    (relu_forward (make_relu_layer 1 1 3)
        (relu_forward (make_relu_layer 1 1 3) [(⟨1, 1, 3, [5, -6, 7]⟩ : vol ℚ)]
          [⟨1, 1, 3, [0, 0, 0]⟩] 0 0)
        [⟨1, 1, 3, [9, 9, 9]⟩] 0 0)[0]?
      = (relu_forward (make_relu_layer 1 1 3) [(⟨1, 1, 3, [5, -6, 7]⟩ : vol ℚ)]
          [⟨1, 1, 3, [0, 0, 0]⟩] 0 0)[0]? :=
  ⟨by decide, by decide, ⟨rfl, rfl, rfl, rfl⟩,
    relu_forward_idempotent (make_relu_layer 1 1 3) [(⟨1, 1, 3, [5, -6, 7]⟩ : vol ℚ)]
      [⟨1, 1, 3, [0, 0, 0]⟩] [⟨1, 1, 3, [9, 9, 9]⟩] 0 0 0 ⟨1, 1, 3, [5, -6, 7]⟩
      ⟨1, 1, 3, [0, 0, 0]⟩ ⟨1, 1, 3, [9, 9, 9]⟩ (by decide) (by decide) rfl rfl rfl
      ⟨rfl, rfl, rfl, rfl⟩ rfl rfl⟩

section ConvLinear

variable {α : Type} [LinearOrderedField α]

theorem rd_all_zero (w : List α) (h : ∀ x, x ∈ w → x = 0) (j : Nat) : rd 0 w j = 0 := by
  rw [rd_eq]
  by_cases hj : j < w.length
  · rw [List.getElem?_eq_getElem hj]
    exact h _ (List.getElem_mem hj)
  · rw [List.getElem?_eq_none (by omega)]
    rfl

theorem zero_ext_all_zero (V : vol α) (h : ∀ x, x ∈ V.w → x = 0) (in_sx in_sy x y d : Int) :
    zero_ext V in_sx in_sy x y d = 0 := by
  unfold zero_ext get_vol
  split
  · exact rd_all_zero V.w h _
  · rfl

theorem rd_map_mul (c : α) (w : List α) (j : Nat) :
    rd 0 (w.map (fun x => c * x)) j = c * rd 0 w j := by
  rw [rd_eq, rd_eq, List.getElem?_map]
  cases w[j]? with
  | none => simp
  | some x => simp

theorem zero_ext_scale (c : α) (V : vol α) (in_sx in_sy x y d : Int) :
    zero_ext (scale_vol c V) in_sx in_sy x y d = c * zero_ext V in_sx in_sy x y d := by
  unfold zero_ext get_vol
  split
  · exact rd_map_mul c V.w _
  · simp

theorem conv_ok_scale (l : conv_layer α) (c : α) (V A : vol α) (h : conv_ok l V A) :
    conv_ok l (scale_vol c V) A where
  V_sx := h.V_sx
  V_sy := h.V_sy
  V_depth := h.V_depth
  V_len := by
    show (V.w.map (fun x => c * x)).length = _
    rw [List.length_map]
    exact h.V_len
  V_size := h.V_size
  A_sx := h.A_sx
  A_sy := h.A_sy
  A_depth := h.A_depth
  A_len := h.A_len
  A_size := h.A_size
  filters_len := h.filters_len
  filters_shape := h.filters_shape
  biases_len := h.biases_len

/-- C15. Zero input yields the bias: for every conv layer and an input volume
whose elements are all zero, `conv_forward` writes `biases[d]` at every output
coordinate `(ax, ay, d)`. -/
theorem conv_forward_zero_input (l : conv_layer α) (inp out : List (vol α))
    (start end_ : Int) (i : Nat) (V A : vol α) (hstart : 0 ≤ start)
    (hi : start ≤ (i : Int) ∧ (i : Int) ≤ end_)
    (hV : inp[i]? = some V) (hA : out[i]? = some A) (hok : conv_ok l V A)
    (hzero : ∀ x, x ∈ V.w → x = 0)
    (ax ay d : Nat) (hax : (ax : Int) < l.out_sx) (hay : (ay : Int) < l.out_sy)
    (hd : (d : Int) < l.out_depth) :
    ∃ A', (conv_forward l inp out start end_)[i]? = some A' ∧
      get_vol A' (ax : Int) (ay : Int) (d : Int) = rd 0 l.biases.w d := by
  refine ⟨conv_sample l V A, conv_forward_get l inp out start end_ i V A hstart hi hV hA, ?_⟩
  rw [conv_sample_get l V A hok ax ay d hax hay hd]
  simp [zero_ext_all_zero V hzero]

/-- C14. Convolution is homogeneous when bias-free: for a conv layer whose
biases are all zero, an input volume `V` of the layer's input shape and a
constant `c`, `conv_forward` applied to `c * V` produces at every output
coordinate `c` times what it produces for `V`. -/
theorem conv_forward_homogeneous (l : conv_layer α) (inp inp' out : List (vol α))
    (start end_ : Int) (i : Nat) (V A : vol α) (c : α) (hstart : 0 ≤ start)
    (hi : start ≤ (i : Int) ∧ (i : Int) ≤ end_)
    (hV : inp[i]? = some V) (hV' : inp'[i]? = some (scale_vol c V))
    (hA : out[i]? = some A) (hok : conv_ok l V A)
    (hbias : ∀ d, d < l.out_depth.toNat → rd 0 l.biases.w d = 0)
    (ax ay d : Nat) (hax : (ax : Int) < l.out_sx) (hay : (ay : Int) < l.out_sy)
    (hd : (d : Int) < l.out_depth) :
    ∃ A' A'', (conv_forward l inp out start end_)[i]? = some A' ∧
      (conv_forward l inp' out start end_)[i]? = some A'' ∧
      get_vol A'' (ax : Int) (ay : Int) (d : Int)
        = c * get_vol A' (ax : Int) (ay : Int) (d : Int) := by
  refine ⟨conv_sample l V A, conv_sample l (scale_vol c V) A,
    conv_forward_get l inp out start end_ i V A hstart hi hV hA,
    conv_forward_get l inp' out start end_ i _ A hstart hi hV' hA, ?_⟩
  rw [conv_sample_get l V A hok ax ay d hax hay hd,
    conv_sample_get l _ A (conv_ok_scale l c V A hok) ax ay d hax hay hd,
    hbias d (by omega)]
  simp only [zero_ext_scale, zero_add, Finset.mul_sum]
  refine Finset.sum_congr rfl (fun fx _ => Finset.sum_congr rfl (fun fy _ =>
    Finset.sum_congr rfl (fun fd _ => ?_)))
  ring

end ConvLinear

theorem conv_example_zero_ok :
    conv_ok conv_example_layer conv_example_zero conv_example_out where
  V_sx := by decide
  V_sy := by decide
  V_depth := by decide
  V_len := by decide
  V_size := by decide
  A_sx := conv_example_ok.A_sx
  A_sy := conv_example_ok.A_sy
  A_depth := conv_example_ok.A_depth
  A_len := conv_example_ok.A_len
  A_size := conv_example_ok.A_size
  filters_len := conv_example_ok.filters_len
  filters_shape := conv_example_ok.filters_shape
  biases_len := conv_example_ok.biases_len

theorem conv_example_nobias_ok :
    conv_ok conv_example_nobias conv_example_in conv_example_out where
  V_sx := conv_example_ok.V_sx
  V_sy := conv_example_ok.V_sy
  V_depth := conv_example_ok.V_depth
  V_len := conv_example_ok.V_len
  V_size := conv_example_ok.V_size
  A_sx := conv_example_ok.A_sx
  A_sy := conv_example_ok.A_sy
  A_depth := conv_example_ok.A_depth
  A_len := conv_example_ok.A_len
  A_size := conv_example_ok.A_size
  filters_len := conv_example_ok.filters_len
  filters_shape := conv_example_ok.filters_shape
  biases_len := by decide

theorem conv_forward_zero_input_witness :
    conv_ok conv_example_layer conv_example_zero conv_example_out ∧
    (∀ x, x ∈ conv_example_zero.w → x = 0) ∧
    ∃ A', (conv_forward conv_example_layer [conv_example_zero] [conv_example_out] 0 0)[0]?
        = some A' ∧
      get_vol A' ((1 : Nat) : Int) ((2 : Nat) : Int) ((0 : Nat) : Int)
        = rd 0 conv_example_layer.biases.w 0 :=
  ⟨conv_example_zero_ok, fun _ hx => List.eq_of_mem_replicate hx,
    conv_forward_zero_input conv_example_layer [conv_example_zero] [conv_example_out] 0 0 0
      conv_example_zero conv_example_out (by decide) (by decide) rfl rfl conv_example_zero_ok
      (fun _ hx => List.eq_of_mem_replicate hx) 1 2 0 (by decide) (by decide) (by decide)⟩

theorem conv_forward_homogeneous_witness :
    conv_ok conv_example_nobias conv_example_in conv_example_out ∧
    (∀ d, d < conv_example_nobias.out_depth.toNat → rd 0 conv_example_nobias.biases.w d = 0) ∧
    ∃ A' A'', (conv_forward conv_example_nobias [conv_example_in] [conv_example_out] 0 0)[0]?
        = some A' ∧
      (conv_forward conv_example_nobias [scale_vol 3 conv_example_in] [conv_example_out]
        0 0)[0]? = some A'' ∧
      get_vol A'' ((1 : Nat) : Int) ((2 : Nat) : Int) ((0 : Nat) : Int)
        = 3 * get_vol A' ((1 : Nat) : Int) ((2 : Nat) : Int) ((0 : Nat) : Int) :=
  ⟨conv_example_nobias_ok, by decide,
    conv_forward_homogeneous conv_example_nobias [conv_example_in]
      [scale_vol 3 conv_example_in] [conv_example_out] 0 0 0 conv_example_in conv_example_out 3
      (by decide) (by decide) rfl rfl rfl conv_example_nobias_ok (by decide) 1 2 0
      (by decide) (by decide) (by decide)⟩

/-! ## Shift invariance of softmax -/

section Relational

/-- Relational invariant rule for two counting loops run side by side. -/
theorem loop_rel {σ τ : Type} (R : σ → τ → Prop) (n : Nat) (body : Nat → σ → σ)
    (body' : Nat → τ → τ) (s : σ) (s' : τ) (h0 : R s s')
    (hstep : ∀ k, k < n → ∀ t t', R t t' → R (body k t) (body' k t')) :
    R (loop n body s) (loop n body' s') := by
  induction n with
  | zero => simpa [loop_zero] using h0
  | succ n ih =>
    rw [loop_succ, loop_succ]
    exact hstep n (Nat.lt_succ_self n) _ _
      (ih (fun k hk t t' ht => hstep k (Nat.lt_succ_of_lt hk) t t' ht))

variable {α : Type}

theorem VWrites_congr_val {W : Nat → Prop} {val val' : Nat → α} {A B : vol α}
    (h : VWrites W val A B) (hval : ∀ j, W j → val j = val' j) : VWrites W val' A B :=
  ⟨h.1, h.2.1, h.2.2.1, h.2.2.2.1, fun j =>
    ⟨fun hj hlt => by rw [← hval j hj]; exact (h.2.2.2.2 j).1 hj hlt, (h.2.2.2.2 j).2⟩⟩

end Relational

section SoftmaxShift

variable {α : Type} [LinearOrderedField α]

theorem rd_shift_vol (c : α) (V : vol α) (i : Nat) (hi : i < V.w.length) :
    rd 0 (shift_vol c V).w i = rd 0 V.w i + c := by
  unfold shift_vol
  simp only
  rw [rd_eq, rd_eq, List.getElem?_map, List.getElem?_eq_getElem hi]
  simp only [Option.map_some', Option.getD_some]

/-- Adding `c` to every element adds `c` to the maximal activation. -/
theorem softmax_amax_shift (l : softmax_layer) (c : α) (V : vol α)
    (h1 : 1 ≤ l.out_depth) (hlen : l.out_depth.toNat ≤ V.w.length) :
    softmax_amax l (shift_vol c V) = softmax_amax l V + c := by
  unfold softmax_amax
  refine loop_rel (fun (a' a : α) => a' = a + c) _ _ _ _ _
    (rd_shift_vol c V 0 (by omega)) ?_
  intro k hk t' t ht
  simp only []
  rw [rd_shift_vol c V (k + 1) (by omega), ht]
  by_cases h : rd 0 V.w (k + 1) > t
  · rw [if_pos h, if_pos (by linarith)]
  · rw [if_neg h, if_neg (by linarith)]

theorem softmax_e_shift (exp : α → α) (l : softmax_layer) (c : α) (V : vol α)
    (h1 : 1 ≤ l.out_depth) (hlen : l.out_depth.toNat ≤ V.w.length)
    (i : Nat) (hi : i < l.out_depth.toNat) :
    softmax_e exp l (shift_vol c V) i = softmax_e exp l V i := by
  unfold softmax_e
  rw [softmax_amax_shift l c V h1 hlen, rd_shift_vol c V i (by omega)]
  congr 1
  ring

/-- The values `softmax_forward` stores are unchanged when a constant is added
to every input element. -/
theorem softmax_out_shift (exp : α → α) (l : softmax_layer) (c : α) (V : vol α)
    (h1 : 1 ≤ l.out_depth) (hlen : l.out_depth.toNat ≤ V.w.length)
    (i : Nat) (hi : i < l.out_depth.toNat) :
    softmax_out exp l (shift_vol c V) i = softmax_out exp l V i := by
  unfold softmax_out softmax_esum
  rw [softmax_e_shift exp l c V h1 hlen i hi,
    Finset.sum_congr rfl (fun k hk =>
      softmax_e_shift exp l c V h1 hlen k (Finset.mem_range.mp hk))]

end SoftmaxShift

/-- C13. Softmax is shift-invariant: in exact real arithmetic, for a sample
of the range whose input vector `v` has length `out_depth` with
`1 ≤ out_depth ≤ 16`, and every constant `c`, `softmax_forward` applied to
the vector with `c` added to every element gives the same output volume as
`softmax_forward` applied to `v`. -/
theorem softmax_forward_shift (l : softmax_layer) (inp inp' out : List (vol ℝ))
    (start end_ : Int) (j : Nat) (V A : vol ℝ) (c : ℝ) (hstart : 0 ≤ start)
    (hj : start ≤ (j : Int) ∧ (j : Int) ≤ end_)
    (hV : inp[j]? = some V) (hV' : inp'[j]? = some (shift_vol c V)) (hA : out[j]? = some A)
    (h1 : 1 ≤ l.out_depth) (h16 : l.out_depth ≤ 16)
    (hVlen : V.w.length = l.out_depth.toNat) :
    (softmax_forward Real.exp l inp' out start end_)[j]?
      = (softmax_forward Real.exp l inp out start end_)[j]? := by
  have hn : l.out_depth.toNat ≤ MAX_ES := by unfold MAX_ES; omega
  obtain ⟨A1, hA1, hw1⟩ :=
    softmax_forward_get Real.exp l inp out start end_ j V A hstart hj hV hA hn
  obtain ⟨A2, hA2, hw2⟩ :=
    softmax_forward_get Real.exp l inp' out start end_ j _ A hstart hj hV' hA hn
  rw [hA1, hA2, VWrites_unique (VWrites_congr_val hw2
    (fun i hi => softmax_out_shift Real.exp l c V h1 (by omega) i hi)) hw1]

theorem softmax_forward_shift_witness :
    (0 : Int) ≤ 0 ∧ ((0 : Int) ≤ ((0 : Nat) : Int) ∧ (((0 : Nat) : Int)) ≤ 0) ∧
    1 ≤ (make_softmax_layer 1 1 3).out_depth ∧ (make_softmax_layer 1 1 3).out_depth ≤ 16 ∧
    (softmax_forward Real.exp (make_softmax_layer 1 1 3)
        [shift_vol 5 (⟨1, 1, 3, [1, 2, 3]⟩ : vol ℝ)] [⟨1, 1, 3, [0, 0, 0]⟩] 0 0)[0]?
      = (softmax_forward Real.exp (make_softmax_layer 1 1 3)
          [(⟨1, 1, 3, [1, 2, 3]⟩ : vol ℝ)] [⟨1, 1, 3, [0, 0, 0]⟩] 0 0)[0]? :=
  ⟨by decide, by decide, by decide, by decide,
    softmax_forward_shift (make_softmax_layer 1 1 3) [(⟨1, 1, 3, [1, 2, 3]⟩ : vol ℝ)]
      [shift_vol 5 (⟨1, 1, 3, [1, 2, 3]⟩ : vol ℝ)] [⟨1, 1, 3, [0, 0, 0]⟩] 0 0 0
      ⟨1, 1, 3, [1, 2, 3]⟩ ⟨1, 1, 3, [0, 0, 0]⟩ 5 (by decide) (by decide) rfl rfl rfl
      (by decide) (by decide) rfl⟩

/-! ## Monotonicity of pooling -/

section Pool

variable {α : Type} [LinearOrderedField α]

theorem pool_col_eq (l : pool_layer) (V : vol α) (d ax : Nat) (x : Int) (A : vol α) :
    pool_col l V d ax x A
      = loop l.out_sy.toNat (fun ay A => set_vol A (ax : Int) (ay : Int) (d : Int)
          (pool_window l V x (-l.pad + (ay : Int) * l.stride) (d : Int))) A :=
  congrArg Prod.snd (loop_run l.out_sy.toNat l.stride (-l.pad)
    (fun ay y A => set_vol A (ax : Int) (ay : Int) (d : Int) (pool_window l V x y (d : Int))) A)

theorem pool_plane_eq (l : pool_layer) (V : vol α) (d : Nat) (A : vol α) :
    pool_plane l V d A
      = loop l.out_sx.toNat (fun ax A =>
          pool_col l V d ax (-l.pad + (ax : Int) * l.stride) A) A :=
  congrArg Prod.snd (loop_run l.out_sx.toNat l.stride (-l.pad)
    (fun ax x A => pool_col l V d ax x A) A)

/-- The sample body of `pool_forward` as three nested loops of `set_vol`. -/
theorem pool_sample_eq (l : pool_layer) (V A : vol α) :
    pool_sample l V A
      = loop l.out_depth.toNat (fun d A =>
          loop l.out_sx.toNat (fun ax A =>
            loop l.out_sy.toNat (fun ay A =>
              set_vol A (ax : Int) (ay : Int) (d : Int) (pool_out l V ax ay d)) A) A) A := by
  unfold pool_sample
  simp only [pool_plane_eq, pool_col_eq, pool_out]

/-- The sample body of `pool_forward` writes `pool_out` at every coordinate of
the output volume and keeps its dimensions. -/
theorem pool_sample_writes (l : pool_layer) (V A : vol α)
    (hsx : (A.sx : Int) = l.out_sx) (hsy : (A.sy : Int) = l.out_sy)
    (hdepth : (A.depth : Int) = l.out_depth) (hsz : A.sx * A.sy * A.depth < 2 ^ 64) :
    VWrites (fun j => ∃ x y d, (x < A.sx ∧ y < A.sy ∧ d < A.depth) ∧
        j = flat A.sx A.depth x y d)
      (coord_val A.sx A.depth (pool_out l V)) A (pool_sample l V A) := by
  rw [pool_sample_eq]
  have h3 := VWrites_loop3 l.out_depth.toNat l.out_sx.toNat l.out_sy.toNat
    (fun d ax ay B => set_vol B (ax : Int) (ay : Int) (d : Int) (pool_out l V ax ay d))
    (fun d ax ay j => j = flat A.sx A.depth ax ay d)
    (coord_val A.sx A.depth (pool_out l V)) A ?_
  · refine VWrites_mono h3 (fun j => ⟨?_, ?_⟩)
    · rintro ⟨d, hd, ax, hax, ay, hay, hj⟩
      exact ⟨ax, ay, d, ⟨by omega, by omega, by omega⟩, hj⟩
    · rintro ⟨x, y, d, ⟨hx, hy, hd⟩, hj⟩
      exact ⟨d, by omega, x, by omega, y, by omega, hj⟩
  · intro d hd ax hax ay hay B hB
    have := set_vol_writes B ax ay d (pool_out l V ax ay d) (pool_out l V)
      (by rw [hB.1]; omega) (by rw [hB.2.1]; omega) (by rw [hB.2.2.1]; omega)
      (by rw [hB.1, hB.2.1, hB.2.2.1]; exact hsz) rfl
    rw [hB.1, hB.2.2.1] at this
    exact this

/-- The sample `i` of the result of `pool_forward`, for `i` in the range. -/
theorem pool_forward_get (l : pool_layer) (inp out : List (vol α)) (start end_ : Int)
    (i : Nat) (V A : vol α) (hstart : 0 ≤ start)
    (hi : start ≤ (i : Int) ∧ (i : Int) ≤ end_)
    (hV : inp[i]? = some V) (hA : out[i]? = some A) :
    (pool_forward l inp out start end_)[i]? = some (pool_sample l V A) := by
  unfold pool_forward
  have := sample_loop_get default (pool_sample l) inp out start end_ hstart i
  simp only [] at this ⊢
  rw [this, if_pos hi, hA, rd_of_getElem? default inp i V hV]
  rfl

/-- The value of `pool_sample` at an output coordinate. -/
theorem pool_sample_get (l : pool_layer) (V A : vol α) (hok : pool_ok l V A)
    (ax ay d : Nat) (hax : (ax : Int) < l.out_sx) (hay : (ay : Int) < l.out_sy)
    (hd : (d : Int) < l.out_depth) :
    get_vol (pool_sample l V A) (ax : Int) (ay : Int) (d : Int) = pool_out l V ax ay d := by
  have hx : ax < A.sx := by have := hok.A_sx; omega
  have hy : ay < A.sy := by have := hok.A_sy; omega
  have hdd : d < A.depth := by have := hok.A_depth; omega
  exact VWrites_get_vol_eq
    (pool_sample_writes l V A hok.A_sx hok.A_sy hok.A_depth hok.A_size)
    hok.A_len hok.A_size ax ay d ⟨hx, hy, hdd⟩ hx hy hdd

/-- The window scan is monotone in the input buffer. -/
theorem pool_window_mono (l : pool_layer) (V V' : vol α) (x y d : Int)
    (hsx : V'.sx = V.sx) (hsy : V'.sy = V.sy) (hdepth : V'.depth = V.depth)
    (hle : ∀ j, rd 0 V.w j ≤ rd 0 V'.w j) :
    pool_window l V x y d ≤ pool_window l V' x y d := by
  unfold pool_window
  refine loop_rel (fun (a a' : α) => a ≤ a') _ _ _ _ _ (le_refl _) ?_
  intro fx _ a a' ha
  refine loop_rel (fun (a a' : α) => a ≤ a') _ _ _ _ _ ha ?_
  intro fy _ b b' hb
  simp only [hsx, hsy]
  have hv : get_vol V (x + (fx : Int)) (y + (fy : Int)) d
      ≤ get_vol V' (x + (fx : Int)) (y + (fy : Int)) d := by
    unfold get_vol vol_index
    rw [hsx, hdepth]
    exact hle _
  split
  · by_cases h1 : get_vol V (x + (fx : Int)) (y + (fy : Int)) d > b
    · rw [if_pos h1]
      by_cases h2 : get_vol V' (x + (fx : Int)) (y + (fy : Int)) d > b'
      · rw [if_pos h2]; exact hv
      · rw [if_neg h2]; exact le_trans hv (not_lt.mp h2)
    · rw [if_neg h1]
      by_cases h2 : get_vol V' (x + (fx : Int)) (y + (fy : Int)) d > b'
      · rw [if_pos h2]; exact le_trans hb (le_of_lt h2)
      · rw [if_neg h2]; exact hb
  · exact hb

/-- Raising one cell of a buffer does not lower any cell. -/
theorem rd_le_rd_wr (w : List α) (i : Nat) (v' : α) (h : rd 0 w i < v') (j : Nat) :
    rd 0 w j ≤ rd 0 (wr w i v') j := by
  rw [rd_eq 0 (wr w i v'), getElem?_wr]
  by_cases hij : i = j
  · subst hij
    rw [if_pos rfl]
    by_cases hlt : i < w.length
    · rw [if_pos hlt]
      exact le_of_lt h
    · rw [if_neg hlt, rd_eq, List.getElem?_eq_none (by omega)]
  · rw [if_neg hij, ← rd_eq]

/-- C16. Pooling is monotone: for a pool layer and two input volumes of the
layer's input shape that are equal everywhere except at one position
`(px, py, pd)`, where the second holds a larger value, every output element
of `pool_forward` on the second is greater than or equal to the corresponding
output element of `pool_forward` on the first. -/
theorem pool_forward_monotone (l : pool_layer) (inp inp' out : List (vol α))
    (start end_ : Int) (i : Nat) (V A : vol α) (px py pd : Nat) (v' : α)
    (hstart : 0 ≤ start) (hi : start ≤ (i : Int) ∧ (i : Int) ≤ end_)
    (hV : inp[i]? = some V)
    (hV' : inp'[i]? = some (set_vol V (px : Int) (py : Int) (pd : Int) v'))
    (hA : out[i]? = some A) (hok : pool_ok l V A)
    (_hpx : px < V.sx) (_hpy : py < V.sy) (_hpd : pd < V.depth)
    (hlarger : get_vol V (px : Int) (py : Int) (pd : Int) < v')
    (ax ay d : Nat) (hax : (ax : Int) < l.out_sx) (hay : (ay : Int) < l.out_sy)
    (hd : (d : Int) < l.out_depth) :
    ∃ A1 A2, (pool_forward l inp out start end_)[i]? = some A1 ∧
      (pool_forward l inp' out start end_)[i]? = some A2 ∧
      get_vol A1 (ax : Int) (ay : Int) (d : Int) ≤ get_vol A2 (ax : Int) (ay : Int) (d : Int) := by
  have hok' : pool_ok l (set_vol V (px : Int) (py : Int) (pd : Int) v') A :=
    { V_sx := hok.V_sx, V_sy := hok.V_sy, V_depth := hok.V_depth,
      V_len := (wr_length _ _ _).trans hok.V_len, V_size := hok.V_size,
      A_sx := hok.A_sx, A_sy := hok.A_sy, A_depth := hok.A_depth,
      A_len := hok.A_len, A_size := hok.A_size }
  refine ⟨pool_sample l V A, pool_sample l _ A,
    pool_forward_get l inp out start end_ i V A hstart hi hV hA,
    pool_forward_get l inp' out start end_ i _ A hstart hi hV' hA, ?_⟩
  rw [pool_sample_get l V A hok ax ay d hax hay hd,
    pool_sample_get l _ A hok' ax ay d hax hay hd]
  exact pool_window_mono l V _ _ _ _ rfl rfl rfl
    (fun j => rd_le_rd_wr V.w _ v' hlarger j)

end Pool

theorem pool_example_ok :
    pool_ok (make_pool_layer 2 2 1 2 2) pool_example_in (⟨1, 1, 1, [0]⟩ : vol ℚ) where
  V_sx := by decide
  V_sy := by decide
  V_depth := by decide
  V_len := by decide
  V_size := by decide
  A_sx := by decide
  A_sy := by decide
  A_depth := by decide
  A_len := by decide
  A_size := by decide

theorem pool_forward_monotone_witness :
    pool_ok (make_pool_layer 2 2 1 2 2) pool_example_in (⟨1, 1, 1, [0]⟩ : vol ℚ) ∧
    get_vol pool_example_in ((1 : Nat) : Int) ((0 : Nat) : Int) ((0 : Nat) : Int) < 9 ∧
    ∃ A1 A2, (pool_forward (make_pool_layer 2 2 1 2 2) [pool_example_in]
        [(⟨1, 1, 1, [0]⟩ : vol ℚ)] 0 0)[0]? = some A1 ∧
      (pool_forward (make_pool_layer 2 2 1 2 2)
        [set_vol pool_example_in ((1 : Nat) : Int) ((0 : Nat) : Int) ((0 : Nat) : Int) 9]
        [(⟨1, 1, 1, [0]⟩ : vol ℚ)] 0 0)[0]? = some A2 ∧
      get_vol A1 ((0 : Nat) : Int) ((0 : Nat) : Int) ((0 : Nat) : Int)
        ≤ get_vol A2 ((0 : Nat) : Int) ((0 : Nat) : Int) ((0 : Nat) : Int) :=
  ⟨pool_example_ok, by decide,
    pool_forward_monotone (make_pool_layer 2 2 1 2 2) [pool_example_in]
      [set_vol pool_example_in ((1 : Nat) : Int) ((0 : Nat) : Int) ((0 : Nat) : Int) 9]
      [(⟨1, 1, 1, [0]⟩ : vol ℚ)] 0 0 0 pool_example_in ⟨1, 1, 1, [0]⟩ 1 0 0 9
      (by decide) (by decide) rfl rfl rfl pool_example_ok (by decide) (by decide) (by decide)
      (by decide) 0 0 0 (by decide) (by decide) (by decide)⟩

/-! ## Parameter loading -/

section LoadHeader

variable {α : Type} [LinearOrderedField α]

theorem conv_load_isSome (l : conv_layer α) (sx sy depth filters : Int) (vals : List α) :
    (conv_load l sx sy depth filters vals).isSome
      ↔ (sx = l.sx ∧ sy = l.sy ∧ depth = l.in_depth ∧ filters = l.out_depth) := by
  unfold conv_load
  by_cases h1 : sx = l.sx
  · by_cases h2 : sy = l.sy
    · by_cases h3 : depth = l.in_depth
      · by_cases h4 : filters = l.out_depth
        · simp [h1, h2, h3, h4]
        · simp [h1, h2, h3, h4]
      · simp [h1, h2, h3]
    · simp [h1, h2]
  · simp [h1]

theorem fc_load_isSome (l : fc_layer α) (num_inputs out_depth : Int) (vals : List α) :
    (fc_load l num_inputs out_depth vals).isSome
      ↔ (num_inputs = l.num_inputs ∧ out_depth = l.out_depth) := by
  unfold fc_load
  by_cases h1 : out_depth = l.out_depth
  · by_cases h2 : num_inputs = l.num_inputs
    · simp [h1, h2]
    · simp [h1, h2]
  · simp [h1]

/-- C11. Parameter loading rejects a mismatching header: `conv_load` fails
(result `none`: the assertion aborts and no layer with loaded weights is
produced) exactly when one of the four header integers differs from the
layer's `(sx, sy, in_depth, out_depth)`, as for the header `5 5 3 16` against
a layer built for `3 3 3 16`, and it returns a layer when all four match;
likewise `fc_load` fails exactly when the header `(num_inputs, out_depth)`
differs from the layer's values. -/
theorem load_rejects_mismatch (l : conv_layer α) (sx sy depth filters : Int)
    (lf : fc_layer α) (num_inputs out_depth : Int) (vals : List α) :
    (conv_load l sx sy depth filters vals = none
      ↔ (sx ≠ l.sx ∨ sy ≠ l.sy ∨ depth ≠ l.in_depth ∨ filters ≠ l.out_depth)) ∧
    ((sx = l.sx ∧ sy = l.sy ∧ depth = l.in_depth ∧ filters = l.out_depth)
      → ∃ l', conv_load l sx sy depth filters vals = some l') ∧
    conv_load (make_conv_layer 32 32 3 3 16 1 1 : conv_layer α) 5 5 3 16 vals = none ∧
    (fc_load lf num_inputs out_depth vals = none
      ↔ (num_inputs ≠ lf.num_inputs ∨ out_depth ≠ lf.out_depth)) ∧
    ((num_inputs = lf.num_inputs ∧ out_depth = lf.out_depth)
      → ∃ l', fc_load lf num_inputs out_depth vals = some l') := by
  have hc := conv_load_isSome l sx sy depth filters vals
  have hf := fc_load_isSome lf num_inputs out_depth vals
  refine ⟨?_, ?_, ?_, ?_, ?_⟩
  · rw [← Option.not_isSome_iff_eq_none, hc]
    tauto
  · intro h
    exact Option.isSome_iff_exists.mp (hc.mpr h)
  · rw [← Option.not_isSome_iff_eq_none, conv_load_isSome]
    intro h
    have : (5 : Int) = 3 := h.1
    omega
  · rw [← Option.not_isSome_iff_eq_none, hf]
    tauto
  · intro h
    exact Option.isSome_iff_exists.mp (hf.mpr h)

end LoadHeader

section Load

variable {α : Type} [LinearOrderedField α]

/-- A loop that carries a counter incremented by `c` in each iteration: the
counter at iteration `k` is `x0 + k * c`. -/
theorem loop_run_nat {σ : Type} (n c x0 : Nat) (body : Nat → Nat × σ → Nat × σ)
    (g : Nat → Nat → σ → σ) (s : σ)
    (h : ∀ k, k < n → ∀ t, body k t = (t.1 + c, g k t.1 t.2)) :
    loop n body (x0, s) = (x0 + n * c, loop n (fun k u => g k (x0 + k * c) u) s) := by
  induction n with
  | zero => simp [loop_zero]
  | succ n ih =>
    rw [loop_succ, loop_succ, ih (fun k hk t => h k (Nat.lt_succ_of_lt hk) t),
      h n (Nat.lt_succ_self n)]
    simp only [Prod.mk.injEq, and_true]
    ring

/-- The loops of `conv_load` for one filter read `sx * sy * depth` values and
store the value number `pos + x * (sy * depth) + y * depth + z` at
`(x, y, z)`. -/
theorem conv_load_filter_eq (sx sy depth : Nat) (vals : List α) (pos : Nat) (f : vol α) :
    conv_load_filter (sx : Int) (sy : Int) (depth : Int) vals pos f
      = (pos + sx * (sy * depth),
          loop sx (fun x f => loop sy (fun y f => loop depth (fun z f =>
            set_vol f (x : Int) (y : Int) (z : Int)
              (rd 0 vals (pos + x * (sy * depth) + y * depth + z * 1))) f) f) f) := by
  unfold conv_load_filter
  simp only [Int.toNat_natCast]
  have hz : ∀ (x y : Nat) (t : Nat × vol α),
      loop depth (fun z (s : Nat × vol α) =>
        (s.1 + 1, set_vol s.2 (x : Int) (y : Int) (z : Int) (rd 0 vals s.1))) t
      = (t.1 + depth, loop depth (fun z u =>
          set_vol u (x : Int) (y : Int) (z : Int) (rd 0 vals (t.1 + z * 1))) t.2) := by
    intro x y t
    obtain ⟨p, u⟩ := t
    have := loop_run_nat depth 1 p
      (fun z (s : Nat × vol α) =>
        (s.1 + 1, set_vol s.2 (x : Int) (y : Int) (z : Int) (rd 0 vals s.1)))
      (fun z q u => set_vol u (x : Int) (y : Int) (z : Int) (rd 0 vals q)) u
      (fun _ _ _ => rfl)
    rw [Nat.mul_one] at this
    exact this
  have hy : ∀ (x : Nat) (t : Nat × vol α),
      loop sy (fun y (s : Nat × vol α) =>
        loop depth (fun z (s : Nat × vol α) =>
          (s.1 + 1, set_vol s.2 (x : Int) (y : Int) (z : Int) (rd 0 vals s.1))) s) t
      = (t.1 + sy * depth, loop sy (fun y u => loop depth (fun z u =>
          set_vol u (x : Int) (y : Int) (z : Int)
            (rd 0 vals (t.1 + y * depth + z * 1))) u) t.2) := by
    intro x t
    obtain ⟨p, u⟩ := t
    exact loop_run_nat sy depth p _
      (fun y q u => loop depth (fun z u =>
        set_vol u (x : Int) (y : Int) (z : Int) (rd 0 vals (q + z * 1))) u) u
      (fun y _ t => hz x y t)
  exact loop_run_nat sx (sy * depth) pos _
    (fun x q u => loop sy (fun y u => loop depth (fun z u =>
      set_vol u (x : Int) (y : Int) (z : Int) (rd 0 vals (q + y * depth + z * 1))) u) u) f
    (fun x _ t => hy x t)

/-- After the loops of `conv_load` for one filter, the filter holds at every
coordinate `(x, y, z)` the value number `pos + x * (sy * depth) + y * depth + z`
of the file. -/
theorem conv_load_filter_get (vals : List α) (pos : Nat) (f : vol α)
    (hlen : f.w.length = f.sx * f.sy * f.depth) (hsz : f.sx * f.sy * f.depth < 2 ^ 64)
    (x y z : Nat) (hx : x < f.sx) (hy : y < f.sy) (hz : z < f.depth) :
    get_vol (conv_load_filter (f.sx : Int) (f.sy : Int) (f.depth : Int) vals pos f).2
        (x : Int) (y : Int) (z : Int)
      = rd 0 vals (pos + x * (f.sy * f.depth) + y * f.depth + z) := by
  rw [conv_load_filter_eq]
  simp only []
  have h3 := VWrites_loop3 f.sx f.sy f.depth
    (fun x y z B => set_vol B (x : Int) (y : Int) (z : Int)
      (rd 0 vals (pos + x * (f.sy * f.depth) + y * f.depth + z * 1)))
    (fun x y z j => j = flat f.sx f.depth x y z)
    (coord_val f.sx f.depth
      (fun x y z => rd 0 vals (pos + x * (f.sy * f.depth) + y * f.depth + z * 1))) f ?_
  · have h := VWrites_get_vol_eq (S := fun x y z => x < f.sx ∧ y < f.sy ∧ z < f.depth)
      (VWrites_mono h3 (fun j => ⟨?_, ?_⟩)) hlen hsz x y z ⟨hx, hy, hz⟩ hx hy hz
    · rw [h, Nat.mul_one]
    · rintro ⟨a, ha, b, hb, c, hc, hj⟩
      exact ⟨a, b, c, ⟨ha, hb, hc⟩, hj⟩
    · rintro ⟨a, b, c, ⟨ha, hb, hc⟩, hj⟩
      exact ⟨a, ha, b, hb, c, hc, hj⟩
  · intro a ha b hb c hc B hB
    have := set_vol_writes B a b c
      (rd 0 vals (pos + a * (f.sy * f.depth) + b * f.depth + c * 1))
      (fun x y z => rd 0 vals (pos + x * (f.sy * f.depth) + y * f.depth + z * 1))
      (by rw [hB.1]; exact ha) (by rw [hB.2.1]; exact hb) (by rw [hB.2.2.1]; exact hc)
      (by rw [hB.1, hB.2.1, hB.2.2.1]; exact hsz) rfl
    rw [hB.1, hB.2.2.1] at this
    exact this

end Load

section Load2

variable {α : Type} [LinearOrderedField α]

/-- A loop whose iteration `k` replaces the cell `k` by a function of its
current contents maps that function over the cells below the bound. -/
theorem loop_pointwise_zero {β : Type} (dflt : β) (n : Nat) (G : Nat → β → β) (w : List β)
    (j : Nat) :
    (loop n (fun k w => wr w k (G k (rd dflt w k))) w)[j]?
      = if j < n then (w[j]?).map (G j) else w[j]? := by
  have h := loop_pointwise dflt n 0 G w j
  rw [loop_congr n _ (fun k w => wr w k (G k (rd dflt w k))) w
    (fun k _ t => by simp only [Nat.zero_add])] at h
  rw [h]
  by_cases hj : j < n
  · rw [if_pos hj, if_pos (by omega)]
  · rw [if_neg hj, if_neg (by omega)]

/-- The filter loop of `conv_load`: the number of values read, and the filters
after it. -/
theorem conv_load_filters_eq (sx sy depth n : Nat) (vals : List α) (fs : List (vol α)) :
    loop n (fun d (s : Nat × List (vol α)) =>
        ((conv_load_filter (sx : Int) (sy : Int) (depth : Int) vals s.1 (rd default s.2 d)).1,
          wr s.2 d
            (conv_load_filter (sx : Int) (sy : Int) (depth : Int) vals s.1
              (rd default s.2 d)).2)) (0, fs)
      = (0 + n * (sx * (sy * depth)),
          loop n (fun d F => wr F d
            ((fun d f => (conv_load_filter (sx : Int) (sy : Int) (depth : Int) vals
              (0 + d * (sx * (sy * depth))) f).2) d (rd default F d))) fs) :=
  loop_run_nat n (sx * (sy * depth)) 0 _
    (fun d p F => wr F d
      (conv_load_filter (sx : Int) (sy : Int) (depth : Int) vals p (rd default F d)).2) fs
    (fun d _ t => by simp only [conv_load_filter_eq])

/-- The bias loop of `conv_load` stores the value number `pos + d` of the file
at `(0, 0, d)`. -/
theorem conv_load_biases_get (n : Nat) (vals : List α) (pos : Nat) (b : vol α)
    (hsx : b.sx = 1) (hsy : b.sy = 1) (hdepth : b.depth = n) (hlen : b.w.length = b.depth)
    (hsz : b.depth < 2 ^ 64) (d : Nat) (hd : d < n) :
    get_vol (loop n (fun d (s : Nat × vol α) =>
        (s.1 + 1, set_vol s.2 0 0 (d : Int) (rd 0 vals s.1))) (pos, b)).2 0 0 (d : Int)
      = rd 0 vals (pos + d) := by
  show get_vol (loop n (fun d (s : Nat × vol α) =>
      (s.1 + 1, set_vol s.2 ((0 : Nat) : Int) ((0 : Nat) : Int) (d : Int) (rd 0 vals s.1)))
      (pos, b)).2 ((0 : Nat) : Int) ((0 : Nat) : Int) (d : Int) = rd 0 vals (pos + d)
  rw [loop_run_nat n 1 pos _
    (fun d p u => set_vol u ((0 : Nat) : Int) ((0 : Nat) : Int) (d : Int) (rd 0 vals p)) b
    (fun _ _ _ => rfl)]
  simp only []
  have hw := VWrites_loop n
    (fun d u => set_vol u ((0 : Nat) : Int) ((0 : Nat) : Int) (d : Int)
      (rd 0 vals (pos + d * 1)))
    (fun d j => j = flat b.sx b.depth 0 0 d)
    (coord_val b.sx b.depth (fun _ _ z => rd 0 vals (pos + z * 1))) b ?_
  · have h := VWrites_get_vol_eq (S := fun x y z => x = 0 ∧ y = 0 ∧ z < n)
      (VWrites_mono hw (fun j => ⟨?_, ?_⟩)) (by rw [hlen, hsx, hsy]; ring)
      (by rw [hsx, hsy]; omega) 0 0 d ⟨rfl, rfl, hd⟩ (by omega) (by omega) (by omega)
    · rw [h, Nat.mul_one]
    · rintro ⟨k, hk, hj⟩
      exact ⟨0, 0, k, ⟨rfl, rfl, hk⟩, hj⟩
    · rintro ⟨x, y, z, ⟨hx, hy, hz⟩, hj⟩
      subst hx hy
      exact ⟨z, hz, hj⟩
  · intro k hk B hB
    have := set_vol_writes B 0 0 k (rd 0 vals (pos + k * 1))
      (fun _ _ z => rd 0 vals (pos + z * 1))
      (by rw [hB.1]; omega) (by rw [hB.2.1]; omega) (by rw [hB.2.2.1]; omega)
      (by rw [hB.1, hB.2.1, hB.2.2.1, hsx, hsy]; omega) rfl
    rw [hB.1, hB.2.2.1] at this
    exact this

end Load2

section Load3

variable {α : Type} [LinearOrderedField α]

/-- `conv_load` on a matching header, with the two loops in closed form. -/
theorem conv_load_eq (l : conv_layer α) (SX SY DEP D : Nat) (vals : List α)
    (hSX : l.sx = SX) (hSY : l.sy = SY) (hDEP : l.in_depth = DEP) (hD : l.out_depth = D) :
    conv_load l l.sx l.sy l.in_depth l.out_depth vals
      = some { l with
          filters := loop D (fun d F => wr F d
            ((fun d f => (conv_load_filter (SX : Int) (SY : Int) (DEP : Int) vals
              (0 + d * (SX * (SY * DEP))) f).2) d (rd default F d))) l.filters
          biases := (loop D (fun d (s : Nat × vol α) =>
            (s.1 + 1, set_vol s.2 0 0 (d : Int) (rd 0 vals s.1)))
            (0 + D * (SX * (SY * DEP)), l.biases)).2 } := by
  unfold conv_load
  rw [if_pos rfl, if_pos rfl, if_pos rfl, if_pos rfl]
  simp only [hSX, hSY, hDEP, hD, Int.toNat_natCast, conv_load_filters_eq]

end Load3

section Load4

variable {α : Type} [LinearOrderedField α]

/-- C12. `conv_load` places weights in `(filter, x, y, z)` nesting order: when
the header matches, after loading, for every filter `d` and every `x < sx`,
`y < sy`, `z < depth`, `get_vol (filters[d]) x y z` is the weight value number
`((d*sx + x)*sy + y)*depth + z` (0-based) of the file's value sequence, and
the bias of channel `d` is the value number `d` of those that follow the
`filters*sx*sy*depth` weights. -/
theorem conv_load_order (l : conv_layer α) (sx sy depth filters : Int) (vals : List α)
    (hsx : sx = l.sx) (hsy : sy = l.sy) (hdepth : depth = l.in_depth)
    (hfilters : filters = l.out_depth) (hok : conv_load_ok l)
    (_hvals : filters.toNat * sx.toNat * sy.toNat * depth.toNat + filters.toNat
      ≤ vals.length) :
    ∃ l', conv_load l sx sy depth filters vals = some l' ∧
      (∀ d x y z : Nat, d < filters.toNat → x < sx.toNat → y < sy.toNat → z < depth.toNat →
        get_vol (rd default l'.filters d) (x : Int) (y : Int) (z : Int)
          = rd 0 vals (((d * sx.toNat + x) * sy.toNat + y) * depth.toNat + z)) ∧
      (∀ d : Nat, d < filters.toNat →
        get_vol l'.biases 0 0 (d : Int)
          = rd 0 vals (filters.toNat * sx.toNat * sy.toNat * depth.toNat + d)) := by
  subst hsx hsy hdepth hfilters
  obtain ⟨SX, hSX⟩ := Int.eq_ofNat_of_zero_le hok.sx_nonneg
  obtain ⟨SY, hSY⟩ := Int.eq_ofNat_of_zero_le hok.sy_nonneg
  obtain ⟨DEP, hDEP⟩ := Int.eq_ofNat_of_zero_le hok.depth_nonneg
  obtain ⟨D, hD⟩ := Int.eq_ofNat_of_zero_le hok.out_nonneg
  refine ⟨_, conv_load_eq l SX SY DEP D vals hSX hSY hDEP hD, ?_, ?_⟩
  · intro d x y z hd hx hy hz
    simp only [hSX, hSY, hDEP, hD, Int.toNat_natCast] at hd hx hy hz ⊢
    have hdlt : d < l.filters.length := by rw [hok.filters_len, hD]; simpa using hd
    have hget := loop_pointwise_zero default D
      (fun d f => (conv_load_filter (SX : Int) (SY : Int) (DEP : Int) vals
        (0 + d * (SX * (SY * DEP))) f).2) l.filters d
    rw [if_pos hd, List.getElem?_eq_getElem hdlt] at hget
    rw [rd_of_getElem? default _ d _ hget]
    obtain ⟨fsx, fsy, fdep, flen, fsz⟩ := hok.filters_shape _ (List.getElem_mem hdlt)
    have e1 : l.filters[d].sx = SX := by omega
    have e2 : l.filters[d].sy = SY := by omega
    have e3 : l.filters[d].depth = DEP := by omega
    have h := conv_load_filter_get vals (0 + d * (SX * (SY * DEP))) l.filters[d] flen fsz
      x y z (by omega) (by omega) (by omega)
    rw [e1, e2, e3] at h
    rw [h]
    congr 1
    ring
  · intro d hd
    simp only [hSX, hSY, hDEP, hD, Int.toNat_natCast] at hd ⊢
    rw [conv_load_biases_get D vals _ l.biases hok.biases_sx hok.biases_sy
      (by have := hok.biases_depth; omega) hok.biases_len hok.biases_size d hd]
    congr 1
    ring

end Load4

theorem load_example_ok : conv_load_ok load_example_layer where
  sx_nonneg := by decide
  sy_nonneg := by decide
  depth_nonneg := by decide
  out_nonneg := by decide
  filters_len := by decide
  filters_shape := by
    intro f hf
    have hfs : load_example_layer.filters
        = [make_vol ((2 : Nat) : Int) ((2 : Nat) : Int) ((2 : Nat) : Int) 0,
            make_vol ((2 : Nat) : Int) ((2 : Nat) : Int) ((2 : Nat) : Int) 0] := rfl
    rw [hfs, make_vol_eq 2 2 2 0 (by norm_num) (by norm_num) (by norm_num) (by norm_num)] at hf
    simp only [List.mem_cons, List.mem_singleton, List.not_mem_nil, or_false, or_self] at hf
    subst hf
    exact ⟨by decide, by decide, by decide, by decide, by decide⟩
  biases_sx := by
    show (make_vol ((1 : Nat) : Int) ((1 : Nat) : Int) ((2 : Nat) : Int) (0 : ℚ)).sx = 1
    rw [make_vol_eq 1 1 2 0 (by norm_num) (by norm_num) (by norm_num) (by norm_num)]
  biases_sy := by
    show (make_vol ((1 : Nat) : Int) ((1 : Nat) : Int) ((2 : Nat) : Int) (0 : ℚ)).sy = 1
    rw [make_vol_eq 1 1 2 0 (by norm_num) (by norm_num) (by norm_num) (by norm_num)]
  biases_depth := by
    show (((make_vol ((1 : Nat) : Int) ((1 : Nat) : Int) ((2 : Nat) : Int) (0 : ℚ)).depth
      : Nat) : Int) = 2
    rw [make_vol_eq 1 1 2 0 (by norm_num) (by norm_num) (by norm_num) (by norm_num)]
    rfl
  biases_len := by
    show (make_vol ((1 : Nat) : Int) ((1 : Nat) : Int) ((2 : Nat) : Int) (0 : ℚ)).w.length
      = (make_vol ((1 : Nat) : Int) ((1 : Nat) : Int) ((2 : Nat) : Int) (0 : ℚ)).depth
    rw [make_vol_eq 1 1 2 0 (by norm_num) (by norm_num) (by norm_num) (by norm_num)]
    rfl
  biases_size := by
    show (make_vol ((1 : Nat) : Int) ((1 : Nat) : Int) ((2 : Nat) : Int) (0 : ℚ)).depth < 2 ^ 64
    rw [make_vol_eq 1 1 2 0 (by norm_num) (by norm_num) (by norm_num) (by norm_num)]
    norm_num

theorem conv_load_order_witness :
    (2 : Int) = load_example_layer.sx ∧ (2 : Int) = load_example_layer.sy ∧
    (2 : Int) = load_example_layer.in_depth ∧ (2 : Int) = load_example_layer.out_depth ∧
    conv_load_ok load_example_layer ∧
    ∃ l', conv_load load_example_layer 2 2 2 2 (List.replicate 18 (1 : ℚ)) = some l' ∧
      (∀ d x y z : Nat, d < (2 : Int).toNat → x < (2 : Int).toNat → y < (2 : Int).toNat →
        z < (2 : Int).toNat →
        get_vol (rd default l'.filters d) (x : Int) (y : Int) (z : Int)
          = rd 0 (List.replicate 18 (1 : ℚ))
              (((d * (2 : Int).toNat + x) * (2 : Int).toNat + y) * (2 : Int).toNat + z)) ∧
      (∀ d : Nat, d < (2 : Int).toNat →
        get_vol l'.biases 0 0 (d : Int)
          = rd 0 (List.replicate 18 (1 : ℚ))
              ((2 : Int).toNat * (2 : Int).toNat * (2 : Int).toNat * (2 : Int).toNat + d)) :=
  ⟨rfl, rfl, rfl, rfl, load_example_ok,
    conv_load_order load_example_layer 2 2 2 2 (List.replicate 18 (1 : ℚ)) rfl rfl rfl rfl
      load_example_ok (by simp)⟩

/-! ## Range processing -/

section SampleLoop2

variable {α : Type}

theorem wrI_length {β : Type} (w : List β) (i : Int) (x : β) : (wrI w i x).length = w.length := by
  unfold wrI
  split
  · rfl
  · simp

theorem sample_loop_length (F : vol α → vol α → vol α) (inp out : List (vol α))
    (s e : Int) : (sample_loop F inp out s e).length = out.length := by
  unfold sample_loop
  exact loop_inv (fun _ (o : List (vol α)) => o.length = out.length) _ _ _ rfl
    (fun k _ o ho => (wrI_length _ _ _).trans ho)

theorem sample_loop_empty (F : vol α → vol α → vol α) (inp out : List (vol α))
    (s e : Int) (h : e < s) : sample_loop F inp out s e = out := by
  unfold sample_loop
  rw [show (e + 1 - s).toNat = 0 from by omega, loop_zero]

/-- The sample `i` after the sample loop. -/
theorem sample_loop_at (F : vol α → vol α → vol α) (inp out : List (vol α))
    (s e : Int) (h0 : 0 ≤ s) (i : Nat) :
    (sample_loop F inp out s e)[i]?
      = if s ≤ (i : Int) ∧ (i : Int) ≤ e then (out[i]?).map (F (rd default inp i))
        else out[i]? :=
  sample_loop_get default F inp out s e h0 i

/-- A sample loop is framed and per-sample, for every body that is determined
by the dimensions of an output volume satisfying `P`. -/
theorem sample_loop_framed (P : vol α → Prop) (F : vol α → vol α → vol α)
    (hF : ∀ V A A', P A → P A' → same_dims A A' → F V A = F V A') :
    range_framed P (sample_loop F) := by
  refine ⟨sample_loop_length F, sample_loop_empty F, ?_, ?_, ?_⟩
  · intro inp out s e j h0 hj
    rw [sample_loop_at F inp out s e h0 j, if_neg hj]
  · intro inp out s e i h0 h1 h2
    rw [sample_loop_at F inp out s e h0 i, if_pos ⟨h1, h2⟩,
      sample_loop_at F inp out i i (by omega) i, if_pos ⟨le_refl _, le_refl _⟩]
  · intro inp inp' out out' s e i V A A' h0 h1 h2 hV hV' hA hA' hP hP' hd
    rw [sample_loop_at F inp out s e h0 i, if_pos ⟨h1, h2⟩,
      sample_loop_at F inp' out' i i (by omega) i, if_pos ⟨le_refl _, le_refl _⟩,
      hA, hA', rd_of_getElem? default inp i V hV, rd_of_getElem? default inp' i V hV']
    simp only [Option.map_some', Option.some.injEq]
    exact hF V A A' hP hP' hd

end SampleLoop2

section Determined

variable {α : Type}

/-- Writes at every coordinate of a volume determine its buffer. -/
theorem VWrites_coords_all {val : Nat → α} {A B : vol α}
    (h : VWrites (fun j => ∃ x y d, (x < A.sx ∧ y < A.sy ∧ d < A.depth) ∧
      j = flat A.sx A.depth x y d) val A B)
    (hlen : A.w.length = A.sx * A.sy * A.depth) :
    B = { A with w := (List.range (A.sx * A.sy * A.depth)).map val } := by
  refine VWrites_all (VWrites_mono h (fun j => ⟨?_, ?_⟩)) hlen
  · rintro ⟨x, y, d, ⟨hx, hy, hd⟩, rfl⟩
    exact flat_lt hx hy hd
  · intro hj
    obtain ⟨hf, hx, hy, hd⟩ := flat_unflat hj
    exact ⟨_, _, _, ⟨hx, hy, hd⟩, hf.symm⟩

theorem with_w_congr (A A' : vol α) (w : List α) (h : same_dims A A') :
    ({ A with w := w } : vol α) = { A' with w := w } := by
  obtain ⟨h1, h2, h3⟩ := h
  cases A; cases A'
  simp only at h1 h2 h3
  subst h1 h2 h3
  rfl

variable [LinearOrderedField α]

theorem conv_sample_determined (l : conv_layer α) :
    determined (out_ok l.out_sx l.out_sy l.out_depth) (conv_sample l) := by
  intro V A A' hA hA' hd
  rw [VWrites_coords_all (conv_sample_writes l V A hA.1 hA.2.1 hA.2.2.1 hA.2.2.2.2)
      hA.2.2.2.1,
    VWrites_coords_all (conv_sample_writes l V A' hA'.1 hA'.2.1 hA'.2.2.1 hA'.2.2.2.2)
      hA'.2.2.2.1, ← hd.1, ← hd.2.1, ← hd.2.2]

theorem pool_sample_determined (l : pool_layer) :
    determined (α := α) (out_ok l.out_sx l.out_sy l.out_depth) (pool_sample l) := by
  intro V A A' hA hA' hd
  rw [VWrites_coords_all (pool_sample_writes l V A hA.1 hA.2.1 hA.2.2.1 hA.2.2.2.2)
      hA.2.2.2.1,
    VWrites_coords_all (pool_sample_writes l V A' hA'.1 hA'.2.1 hA'.2.2.1 hA'.2.2.2.2)
      hA'.2.2.2.1, ← hd.1, ← hd.2.1, ← hd.2.2]

theorem relu_sample_determined (l : relu_layer) :
    determined (α := α) (buf_ok (l.in_sx * l.in_sy * l.in_depth).toNat) (relu_sample l) := by
  intro V A A' hA hA' hd
  rw [VWrites_all (relu_sample_writes l V A) hA, VWrites_all (relu_sample_writes l V A') hA']
  exact with_w_congr A A' _ hd

theorem fc_sample_determined (l : fc_layer α) :
    determined (buf_ok l.out_depth.toNat) (fc_sample l) := by
  intro V A A' hA hA' hd
  rw [VWrites_all (fc_sample_writes l V A) hA, VWrites_all (fc_sample_writes l V A') hA']
  exact with_w_congr A A' _ hd

theorem softmax_sample_determined (exp : α → α) (l : softmax_layer)
    (hn : l.out_depth.toNat ≤ MAX_ES) :
    determined (buf_ok l.out_depth.toNat)
      (fun V A => (softmax_sample exp l V (List.replicate MAX_ES 0) A).2) := by
  intro V A A' hA hA' hd
  simp only []
  rw [VWrites_all (softmax_sample_eq exp l V _ A (by simpa using hn)).2 hA,
    VWrites_all (softmax_sample_eq exp l V _ A' (by simpa using hn)).2 hA']
  exact with_w_congr A A' _ hd

theorem conv_forward_framed (l : conv_layer α) :
    range_framed (out_ok l.out_sx l.out_sy l.out_depth) (conv_forward l) :=
  sample_loop_framed _ (conv_sample l) (conv_sample_determined l)

theorem relu_forward_framed (l : relu_layer) :
    range_framed (α := α) (buf_ok (l.in_sx * l.in_sy * l.in_depth).toNat) (relu_forward l) :=
  sample_loop_framed _ (relu_sample l) (relu_sample_determined l)

theorem pool_forward_framed (l : pool_layer) :
    range_framed (α := α) (out_ok l.out_sx l.out_sy l.out_depth) (pool_forward l) :=
  sample_loop_framed _ (pool_sample l) (pool_sample_determined l)

theorem fc_forward_framed (l : fc_layer α) :
    range_framed (buf_ok l.out_depth.toNat) (fc_forward l) :=
  sample_loop_framed _ (fc_sample l) (fc_sample_determined l)

theorem softmax_forward_sample_loop (exp : α → α) (l : softmax_layer)
    (hn : l.out_depth.toNat ≤ MAX_ES) :
    softmax_forward exp l
      = sample_loop (fun V A => (softmax_sample exp l V (List.replicate MAX_ES 0) A).2) := by
  funext inp out s e
  exact softmax_forward_eq exp l inp out s e hn

theorem softmax_forward_framed (exp : α → α) (l : softmax_layer)
    (hn : l.out_depth.toNat ≤ MAX_ES) :
    range_framed (buf_ok l.out_depth.toNat) (softmax_forward exp l) := by
  rw [softmax_forward_sample_loop exp l hn]
  exact sample_loop_framed _ _ (softmax_sample_determined exp l hn)

end Determined

section NetFold

variable {α : Type}

theorem rd_wr {β : Type} (dflt : β) (w : List β) (i j : Nat) (x : β) :
    rd dflt (wr w i x) j = if i = j ∧ i < w.length then x else rd dflt w j := by
  rw [rd_eq, getElem?_wr]
  by_cases h : i = j
  · by_cases h2 : i < w.length
    · rw [if_pos h, if_pos h2, if_pos ⟨h, h2⟩]; rfl
    · rw [if_pos h, if_neg h2, if_neg (fun c => h2 c.2), rd_eq,
        List.getElem?_eq_none (by omega)]
  · rw [if_neg h, if_neg (fun c => h c.1), rd_eq]

theorem wr_rd_self {β : Type} (dflt : β) (w : List β) (i : Nat) : wr w i (rd dflt w i) = w := by
  apply List.ext_getElem?
  intro j
  rw [getElem?_wr]
  by_cases h : i = j
  · subst h
    rw [if_pos rfl]
    by_cases h2 : i < w.length
    · rw [if_pos h2, rd_eq, List.getElem?_eq_getElem h2]; rfl
    · rw [if_neg h2, List.getElem?_eq_none (by omega)]
  · rw [if_neg h]

theorem net_fold_length (Fs : List (vol α → vol α → vol α)) (k : Nat)
    (v : List (List (vol α))) (s e : Int) : (net_fold Fs k v s e).length = v.length := by
  induction Fs generalizing k v with
  | nil => rfl
  | cons F Fs ih =>
    unfold net_fold
    rw [ih, wr_length]

/-- The chain leaves the slots up to its input slot as they are. -/
theorem net_fold_low (Fs : List (vol α → vol α → vol α)) (k : Nat)
    (v : List (List (vol α))) (s e : Int) (m : Nat) (hm : m ≤ k) :
    rd [] (net_fold Fs k v s e) m = rd [] v m := by
  induction Fs generalizing k v with
  | nil => rfl
  | cons F Fs ih =>
    unfold net_fold
    rw [ih (k + 1) _ (by omega), rd_wr_ne _ _ _ _ _ (by omega)]

/-- Nothing changes when the range is empty. -/
theorem net_fold_empty (Fs : List (vol α → vol α → vol α)) (k : Nat)
    (v : List (List (vol α))) (s e : Int) (h : e < s) : net_fold Fs k v s e = v := by
  induction Fs generalizing k v with
  | nil => rfl
  | cons F Fs ih =>
    unfold net_fold
    rw [sample_loop_empty F _ _ s e h, wr_rd_self, ih]

/-- The samples outside the range are left unchanged in every slot. -/
theorem net_fold_frame (Fs : List (vol α → vol α → vol α)) (k : Nat)
    (v : List (List (vol α))) (s e : Int) (h0 : 0 ≤ s) (j : Nat)
    (hj : ¬ (s ≤ (j : Int) ∧ (j : Int) ≤ e)) (m : Nat) :
    (rd [] (net_fold Fs k v s e) m)[j]? = (rd [] v m)[j]? := by
  induction Fs generalizing k v with
  | nil => rfl
  | cons F Fs ih =>
    unfold net_fold
    rw [ih, rd_wr]
    split
    · rename_i hc
      rw [sample_loop_at F _ _ s e h0 j, if_neg hj, hc.1]
    · rfl

/-- Batches that agree on the sample `i` in every slot agree on it in every
slot after the chain, whatever ranges containing `i` are processed. -/
theorem net_fold_sample (Fs : List (vol α → vol α → vol α)) (k : Nat)
    (v v' : List (List (vol α))) (s e s' e' : Int) (i : Nat)
    (h0 : 0 ≤ s) (hi : s ≤ (i : Int) ∧ (i : Int) ≤ e)
    (h0' : 0 ≤ s') (hi' : s' ≤ (i : Int) ∧ (i : Int) ≤ e')
    (hlen : v.length = v'.length)
    (hv : ∀ m, (rd [] v m)[i]? = (rd [] v' m)[i]?) (m : Nat) :
    (rd [] (net_fold Fs k v s e) m)[i]? = (rd [] (net_fold Fs k v' s' e') m)[i]? := by
  induction Fs generalizing k v v' with
  | nil => exact hv m
  | cons F Fs ih =>
    unfold net_fold
    refine ih (k + 1) _ _ (by rw [wr_length, wr_length, hlen]) ?_
    intro n
    rw [rd_wr, rd_wr, ← hlen]
    split
    · rw [sample_loop_at F _ _ s e h0 i, if_pos hi, sample_loop_at F _ _ s' e' h0' i,
        if_pos hi', hv (k + 1), rd_eq default (rd [] v k), rd_eq default (rd [] v' k), hv k]
    · exact hv n

end NetFold

section NetFold2

variable {α : Type}

/-- When every body of the chain is determined on output volumes that satisfy
its condition, two batches whose sample `i` has the same input volume, and
output volumes of the same dimensions satisfying the conditions, have the
same sample `i` in every slot the chain writes. -/
theorem net_fold_determined (Fs : List (vol α → vol α → vol α)) (Ps : List (vol α → Prop))
    (k : Nat) (v v' : List (List (vol α))) (s e s' e' : Int) (i : Nat)
    (h0 : 0 ≤ s) (hi : s ≤ (i : Int) ∧ (i : Int) ≤ e)
    (h0' : 0 ≤ s') (hi' : s' ≤ (i : Int) ∧ (i : Int) ≤ e')
    (hPs : Ps.length = Fs.length)
    (hlen : k + Fs.length < v.length) (hlen' : k + Fs.length < v'.length)
    (hin : (rd [] v k)[i]? = (rd [] v' k)[i]?)
    (hdet : ∀ (n : Nat) (F : vol α → vol α → vol α) (P : vol α → Prop),
      Fs[n]? = some F → Ps[n]? = some P → determined P F)
    (hok : ∀ (n : Nat) (P : vol α → Prop), Ps[n]? = some P →
      ∃ A A', (rd [] v (k + 1 + n))[i]? = some A ∧ (rd [] v' (k + 1 + n))[i]? = some A' ∧
        P A ∧ P A' ∧ same_dims A A')
    (m : Nat) (hm : k < m) (hm' : m ≤ k + Fs.length) :
    (rd [] (net_fold Fs k v s e) m)[i]? = (rd [] (net_fold Fs k v' s' e') m)[i]? := by
  induction Fs generalizing Ps k v v' with
  | nil => simp at hm'; omega
  | cons F Fs ih =>
    cases Ps with
    | nil => simp at hPs
    | cons P Ps =>
      simp only [List.length_cons] at hlen hlen' hm' hPs
      obtain ⟨A, A', hA, hA', hP, hP', hd⟩ := hok 0 P (List.getElem?_cons_zero ..)
      have hX : rd default (rd [] v k) i = rd default (rd [] v' k) i := by
        rw [rd_eq default (rd [] v k) i, rd_eq default (rd [] v' k) i, hin]
      have hin1 : (rd [] (wr v (k + 1) (sample_loop F (rd [] v k) (rd [] v (k + 1)) s e))
            (k + 1))[i]?
          = (rd [] (wr v' (k + 1) (sample_loop F (rd [] v' k) (rd [] v' (k + 1)) s' e'))
            (k + 1))[i]? := by
        rw [rd_wr_self _ _ _ _ (by omega), rd_wr_self _ _ _ _ (by omega),
          sample_loop_at F _ _ s e h0 i, if_pos hi, sample_loop_at F _ _ s' e' h0' i,
          if_pos hi', hA, hA', hX]
        simp only [Option.map_some', Option.some.injEq]
        exact hdet 0 F P (List.getElem?_cons_zero ..) (List.getElem?_cons_zero ..) _ A A' hP hP' hd
      unfold net_fold
      by_cases hmk : m = k + 1
      · subst hmk
        rw [net_fold_low Fs (k + 1) _ s e (k + 1) (le_refl _),
          net_fold_low Fs (k + 1) _ s' e' (k + 1) (le_refl _)]
        exact hin1
      · refine ih Ps (k + 1) _ _ (by omega) (by rw [wr_length]; omega)
          (by rw [wr_length]; omega) hin1 ?_ ?_ (by omega) (by omega)
        · intro n G Q hG hQ
          exact hdet (n + 1) G Q (by simpa using hG) (by simpa using hQ)
        · intro n Q hQ
          obtain ⟨B, B', hB, hB', hQB, hQB', hdB⟩ := hok (n + 1) Q (by simpa using hQ)
          refine ⟨B, B', ?_, ?_, hQB, hQB', hdB⟩
          · rw [rd_wr_ne _ _ _ _ _ (by omega), ← hB]
            congr 2
            omega
          · rw [rd_wr_ne _ _ _ _ _ (by omega), ← hB']
            congr 2
            omega

end NetFold2

section NetForwardFold

variable {α : Type} [LinearOrderedField α]

/-- `net_forward` is the chain of the sample loops of its eleven layers. -/
theorem net_forward_eq_fold (exp : α → α) (net : network α) (v : List (List (vol α)))
    (s e : Int) (hn : net.l10.out_depth.toNat ≤ MAX_ES) :
    net_forward exp net v s e = net_fold (net_bodies exp net) 0 v s e := by
  unfold net_forward
  simp only [softmax_forward_sample_loop exp net.l10 hn]
  rfl

theorem net_bodies_determined (exp : α → α) (net : network α)
    (hn : net.l10.out_depth.toNat ≤ MAX_ES) (n : Nat) (F : vol α → vol α → vol α)
    (P : vol α → Prop) (hF : (net_bodies exp net)[n]? = some F)
    (hP : (net_out_ok net)[n]? = some P) : determined P F := by
  unfold net_bodies at hF
  unfold net_out_ok at hP
  have hlt : n < 11 := by
    by_contra hge
    rw [List.getElem?_eq_none (by simp; omega)] at hF
    exact Option.noConfusion hF
  interval_cases n <;>
    simp only [List.getElem?_cons_zero, List.getElem?_cons_succ, Option.some.injEq] at hF hP <;>
    subst hF <;> subst hP
  · exact conv_sample_determined _
  · exact relu_sample_determined _
  · exact pool_sample_determined _
  · exact conv_sample_determined _
  · exact relu_sample_determined _
  · exact pool_sample_determined _
  · exact conv_sample_determined _
  · exact relu_sample_determined _
  · exact pool_sample_determined _
  · exact fc_sample_determined _
  · exact softmax_sample_determined exp _ hn

end NetForwardFold

section NetFramed

variable {α : Type} [LinearOrderedField α]

theorem net_forward_framed (exp : α → α) (net : network α)
    (hn : net.l10.out_depth.toNat ≤ MAX_ES) : net_framed exp net := by
  refine ⟨fun v s e => ?_, fun v s e h => ?_, fun v s e j h0 hj m => ?_,
    fun v s e i h0 h1 h2 m => ?_, fun v v' s e i h0 h1 h2 hv hv' hin hok m => ?_⟩
  · rw [net_forward_eq_fold exp net v s e hn, net_fold_length]
  · rw [net_forward_eq_fold exp net v s e hn, net_fold_empty _ _ _ _ _ h]
  · rw [net_forward_eq_fold exp net v s e hn]
    exact net_fold_frame _ 0 v s e h0 j hj m
  · rw [net_forward_eq_fold exp net v s e hn, net_forward_eq_fold exp net v i i hn]
    exact net_fold_sample _ 0 v v s e i i i h0 ⟨h1, h2⟩ (by omega) ⟨le_refl _, le_refl _⟩ rfl
      (fun _ => rfl) m
  · rw [net_forward_eq_fold exp net v s e hn, net_forward_eq_fold exp net v' i i hn]
    have hbl : (net_bodies exp net).length = 11 := rfl
    have hpl : (net_out_ok net).length = 11 := rfl
    unfold LAYERS at hv hv'
    by_cases hm0 : m = 0
    · subst hm0
      rw [net_fold_low _ 0 v s e 0 (le_refl _), net_fold_low _ 0 v' i i 0 (le_refl _)]
      exact hin
    · by_cases hm : m ≤ 11
      · refine net_fold_determined (net_bodies exp net) (net_out_ok net) 0 v v' s e i i i h0
          ⟨h1, h2⟩ (by omega) ⟨le_refl _, le_refl _⟩ (by rw [hbl, hpl])
          (by rw [hbl, hv]; norm_num) (by rw [hbl, hv']; norm_num) hin
          (net_bodies_determined exp net hn) ?_ m (by omega) (by rw [hbl]; omega)
        intro n P hP
        obtain ⟨A, A', hA, hA', hPA, hPA', hd⟩ := hok n P hP
        refine ⟨A, A', ?_, ?_, hPA, hPA', hd⟩
        · rw [← hA]; congr 2; omega
        · rw [← hA']; congr 2; omega
      · have e1 : (net_fold (net_bodies exp net) 0 v s e)[m]? = none :=
          List.getElem?_eq_none (by rw [net_fold_length, hv]; omega)
        have e2 : (net_fold (net_bodies exp net) 0 v' (i : Int) (i : Int))[m]? = none :=
          List.getElem?_eq_none (by rw [net_fold_length, hv']; omega)
        rw [rd_eq [] _ m, rd_eq [] _ m, e1, e2]

/-- C20. Range processing is framed and per-sample: for each layer forward
operation (`conv_forward`, `relu_forward`, `pool_forward`, `fc_forward`,
`softmax_forward` with `out_depth ≤ MAX_ES`) and for `net_forward`, called with
the range `[start, end]`, the volumes of every sample outside the range are
left unchanged (nothing changes when `start > end`), and the output volume of
a sample `i` inside the range is that of the call with the range `[i, i]` and
is determined by the input volume of that sample and the layer alone, for
output volumes of the dimensions the layer records. -/
theorem range_processing_framed (exp : α → α) (net : network α)
    (hn : net.l10.out_depth.toNat ≤ MAX_ES) :
    (∀ l : conv_layer α,
      range_framed (out_ok l.out_sx l.out_sy l.out_depth) (conv_forward l)) ∧
    (∀ l : relu_layer,
      range_framed (α := α) (buf_ok (l.in_sx * l.in_sy * l.in_depth).toNat)
        (relu_forward l)) ∧
    (∀ l : pool_layer,
      range_framed (α := α) (out_ok l.out_sx l.out_sy l.out_depth) (pool_forward l)) ∧
    (∀ l : fc_layer α, range_framed (buf_ok l.out_depth.toNat) (fc_forward l)) ∧
    (∀ l : softmax_layer, l.out_depth.toNat ≤ MAX_ES →
      range_framed (buf_ok l.out_depth.toNat) (softmax_forward exp l)) ∧
    net_framed exp net :=
  ⟨conv_forward_framed, relu_forward_framed, pool_forward_framed, fc_forward_framed,
    softmax_forward_framed exp, net_forward_framed exp net hn⟩

end NetFramed

theorem range_processing_framed_witness :
    (make_network (α := ℚ)).l10.out_depth.toNat ≤ MAX_ES ∧
    (∀ l : conv_layer ℚ,
      range_framed (out_ok l.out_sx l.out_sy l.out_depth) (conv_forward l)) ∧
    (∀ l : relu_layer,
      range_framed (α := ℚ) (buf_ok (l.in_sx * l.in_sy * l.in_depth).toNat)
        (relu_forward l)) ∧
    (∀ l : pool_layer,
      range_framed (α := ℚ) (out_ok l.out_sx l.out_sy l.out_depth) (pool_forward l)) ∧
    (∀ l : fc_layer ℚ, range_framed (buf_ok l.out_depth.toNat) (fc_forward l)) ∧
    (∀ l : softmax_layer, l.out_depth.toNat ≤ MAX_ES →
      range_framed (buf_ok l.out_depth.toNat) (softmax_forward (fun x : ℚ => 1 + x * x) l)) ∧
    net_framed (fun x : ℚ => 1 + x * x) make_network :=
  ⟨by rw [(make_network_fc_zero (α := ℚ)).l10_out]; decide,
    range_processing_framed (fun x : ℚ => 1 + x * x) make_network
      (by rw [(make_network_fc_zero (α := ℚ)).l10_out]; decide)⟩

/-! ## Softmax without stabilisation -/

/-- The value `softmax_forward` computes with the maximum subtracted is the
unstabilised softmax. -/
theorem softmax_out_unstabilized (l : softmax_layer) (V : vol ℝ) (i : Nat) :
    softmax_out Real.exp l V i = softmax_unstabilized Real.exp l.out_depth.toNat V i := by
  unfold softmax_out softmax_unstabilized softmax_esum softmax_e
  have h : ∀ k, Real.exp (rd 0 V.w k - softmax_amax l V)
      = Real.exp (rd 0 V.w k) * (Real.exp (softmax_amax l V))⁻¹ := by
    intro k
    rw [Real.exp_sub, div_eq_mul_inv]
  simp only [h]
  rw [← Finset.sum_mul]
  exact mul_div_mul_right _ _ (inv_ne_zero (Real.exp_ne_zero _))

/-- C21. Max-subtraction preserves the distribution: in exact real arithmetic,
for a sample of the range whose input and output vectors have length
`out_depth` with `1 ≤ out_depth ≤ 16`, the output element `i < out_depth` of
`softmax_forward` is `exp (v[i])` divided by the sum over `j < out_depth` of
`exp (v[j])`, the unstabilised softmax. -/
theorem softmax_forward_unstabilized (l : softmax_layer) (inp out : List (vol ℝ))
    (start end_ : Int) (j : Nat) (V A : vol ℝ) (hstart : 0 ≤ start)
    (hj : start ≤ (j : Int) ∧ (j : Int) ≤ end_)
    (hV : inp[j]? = some V) (hA : out[j]? = some A)
    (_h1 : 1 ≤ l.out_depth) (h16 : l.out_depth ≤ 16)
    (_hVlen : V.w.length = l.out_depth.toNat) (hAlen : A.w.length = l.out_depth.toNat) :
    ∃ A', (softmax_forward Real.exp l inp out start end_)[j]? = some A' ∧
      A'.w.length = l.out_depth.toNat ∧
      ∀ i, i < l.out_depth.toNat →
        rd 0 A'.w i = softmax_unstabilized Real.exp l.out_depth.toNat V i := by
  have hn : l.out_depth.toNat ≤ MAX_ES := by unfold MAX_ES; omega
  obtain ⟨A', hA', hw⟩ :=
    softmax_forward_get Real.exp l inp out start end_ j V A hstart hj hV hA hn
  refine ⟨A', hA', hw.2.2.2.1.trans hAlen, fun i hi => ?_⟩
  rw [Writes_rd_mem hw.2.2.2 0 i hi (by omega)]
  exact softmax_out_unstabilized l V i

theorem softmax_forward_unstabilized_witness :
    (0 : Int) ≤ 0 ∧ ((0 : Int) ≤ ((0 : Nat) : Int) ∧ (((0 : Nat) : Int)) ≤ 0) ∧
    1 ≤ (make_softmax_layer 1 1 3).out_depth ∧ (make_softmax_layer 1 1 3).out_depth ≤ 16 ∧
    ∃ A', (softmax_forward Real.exp (make_softmax_layer 1 1 3)
        [(⟨1, 1, 3, [1, 2, 3]⟩ : vol ℝ)] [⟨1, 1, 3, [0, 0, 0]⟩] 0 0)[0]? = some A' ∧
      A'.w.length = (make_softmax_layer 1 1 3).out_depth.toNat ∧
      ∀ i, i < (make_softmax_layer 1 1 3).out_depth.toNat →
        rd 0 A'.w i = softmax_unstabilized Real.exp (make_softmax_layer 1 1 3).out_depth.toNat
          ⟨1, 1, 3, [1, 2, 3]⟩ i :=
  ⟨by decide, by decide, by decide, by decide,
    softmax_forward_unstabilized (make_softmax_layer 1 1 3)
      [(⟨1, 1, 3, [1, 2, 3]⟩ : vol ℝ)] [⟨1, 1, 3, [0, 0, 0]⟩] 0 0 0
      ⟨1, 1, 3, [1, 2, 3]⟩ ⟨1, 1, 3, [0, 0, 0]⟩ (by decide) (by decide) rfl rfl
      (by decide) (by decide) rfl rfl⟩

/-! ## Pooling inside the network -/

section PoolChecks

variable {α : Type}

/-- With a window of `2`, stride `2` and no padding on an input of even
width and height, every position of every window passes the bounds test. -/
theorem pool_window_checks_even (n depth : Int) (hn : 0 ≤ n) (V : vol α)
    (hsx : (V.sx : Int) = 2 * n) (hsy : (V.sy : Int) = 2 * n) (ax ay : Nat)
    (hax : (ax : Int) < (make_pool_layer (2 * n) (2 * n) depth 2 2).out_sx)
    (hay : (ay : Int) < (make_pool_layer (2 * n) (2 * n) depth 2 2).out_sy) :
    pool_window_checks (make_pool_layer (2 * n) (2 * n) depth 2 2) V
        (-(make_pool_layer (2 * n) (2 * n) depth 2 2).pad
          + (ax : Int) * (make_pool_layer (2 * n) (2 * n) depth 2 2).stride)
        (-(make_pool_layer (2 * n) (2 * n) depth 2 2).pad
          + (ay : Int) * (make_pool_layer (2 * n) (2 * n) depth 2 2).stride)
      = [true, true, true, true] := by
  have ho : (2 * n + 0 * 2 - 2).tdiv 2 + 1 ≤ n := by
    by_cases h : 2 * n + 0 * 2 - 2 < 0
    · have : n = 0 := by omega
      subst this
      decide
    · rw [Int.tdiv_eq_ediv (by omega) (by norm_num)]; omega
  simp only [make_pool_layer] at hax hay ⊢
  unfold pool_window_checks
  simp only [show (2 : Int).toNat = 2 from rfl, loop, List.range_succ, List.range_zero,
    List.nil_append, List.foldl_cons, List.foldl_nil, List.cons_append, hsx, hsy]
  simp only [List.cons.injEq, decide_eq_true_eq, and_true]
  refine ⟨?_, ?_, ?_, ?_⟩ <;> (push_cast; omega)

/-- The dimensions of the volume at an index of a list, from the list of the
dimensions. -/
theorem vol_dims_rd (v : List (vol α)) (k : Nat) (d : Int × Int × Int)
    (h : (v.map vol_dims)[k]? = some d) : vol_dims (rd default v k) = d := by
  rw [List.getElem?_map] at h
  rw [rd_eq]
  cases hv : v[k]? with
  | none => rw [hv] at h; cases h
  | some a =>
    rw [hv] at h
    simpa using h

end PoolChecks

section PoolGeometry

variable {α : Type} [LinearOrderedField α]

/-- The three pool layers of `make_network`. -/
theorem make_network_pool_layers :
    (make_network (α := α)).l2 = make_pool_layer 32 32 16 2 2 ∧
    (make_network (α := α)).l5 = make_pool_layer 16 16 20 2 2 ∧
    (make_network (α := α)).l8 = make_pool_layer 8 8 20 2 2 := by
  simp [make_network, make_vol_sx, make_vol_sy, make_vol_depth, make_conv_layer,
    make_relu_layer, make_pool_layer, make_fc_layer, make_softmax_layer, u64,
    show Int.tdiv 30 2 = 15 from by decide, show Int.tdiv 14 2 = 7 from by decide,
    show Int.tdiv 6 2 = 3 from by decide]

/-- The boundary volumes read by the three pool layers of `make_network`. -/
theorem make_network_pool_inputs :
    vol_dims (rd default (make_network (α := α)).v 2) = (32, 32, 16) ∧
    vol_dims (rd default (make_network (α := α)).v 5) = (16, 16, 20) ∧
    vol_dims (rd default (make_network (α := α)).v 8) = (8, 8, 20) := by
  refine ⟨vol_dims_rd _ 2 _ ?_, vol_dims_rd _ 5 _ ?_, vol_dims_rd _ 8 _ ?_⟩ <;>
    rw [make_network_v_dims] <;> rfl

end PoolGeometry

/-- C22. The pool sentinel case is unreachable in the fixed network: the three
pool layers built by `make_network` are those of window 2, stride 2 and pad 0
on inputs `32 × 32`, `16 × 16` and `8 × 8`, the boundary volumes they read
have these dimensions, and for each of them, for an input volume of the
dimensions of its boundary volume and every output coordinate
`(ax < out_sx, ay < out_sy)`, each of the `4` bounds tests of the window scan
succeeds (and there are output coordinates). -/
theorem pool_windows_in_bounds {α : Type} [LinearOrderedField α] :
    ((make_network (α := α)).l2 = make_pool_layer 32 32 16 2 2 ∧
      (make_network (α := α)).l5 = make_pool_layer 16 16 20 2 2 ∧
      (make_network (α := α)).l8 = make_pool_layer 8 8 20 2 2) ∧
    (vol_dims (rd default (make_network (α := α)).v 2) = (32, 32, 16) ∧
      vol_dims (rd default (make_network (α := α)).v 5) = (16, 16, 20) ∧
      vol_dims (rd default (make_network (α := α)).v 8) = (8, 8, 20)) ∧
    ∀ (l : pool_layer) (k : Nat),
      (l, k) ∈ [((make_network (α := α)).l2, 2), ((make_network (α := α)).l5, 5),
        ((make_network (α := α)).l8, 8)] →
      0 < l.out_sx ∧ 0 < l.out_sy ∧
      ∀ V : vol α, vol_dims V = vol_dims (rd default (make_network (α := α)).v k) →
        ∀ ax ay : Nat, (ax : Int) < l.out_sx → (ay : Int) < l.out_sy →
          pool_window_checks l V (-l.pad + (ax : Int) * l.stride)
            (-l.pad + (ay : Int) * l.stride) = [true, true, true, true] := by
  refine ⟨make_network_pool_layers, make_network_pool_inputs, ?_⟩
  intro l k hlk
  obtain ⟨h2, h5, h8⟩ := make_network_pool_layers (α := α)
  obtain ⟨d2, d5, d8⟩ := make_network_pool_inputs (α := α)
  simp only [List.mem_cons, Prod.mk.injEq, List.mem_singleton, List.not_mem_nil, or_false] at hlk
  rcases hlk with ⟨hl, hk⟩ | ⟨hl, hk⟩ | ⟨hl, hk⟩
  · subst hk
    rw [hl, h2, d2]
    refine ⟨by decide, by decide, fun V hV ax ay hax hay => ?_⟩
    simp only [vol_dims, Prod.mk.injEq] at hV
    exact pool_window_checks_even 16 16 (by decide) V (by omega) (by omega) ax ay hax hay
  · subst hk
    rw [hl, h5, d5]
    refine ⟨by decide, by decide, fun V hV ax ay hax hay => ?_⟩
    simp only [vol_dims, Prod.mk.injEq] at hV
    exact pool_window_checks_even 8 20 (by decide) V (by omega) (by omega) ax ay hax hay
  · subst hk
    rw [hl, h8, d8]
    refine ⟨by decide, by decide, fun V hV ax ay hax hay => ?_⟩
    simp only [vol_dims, Prod.mk.injEq] at hV
    exact pool_window_checks_even 4 20 (by decide) V (by omega) (by omega) ax ay hax hay

section NetFoldStep

variable {α : Type}

end NetFoldStep

section PoolAfterRelu

variable {α : Type} [LinearOrderedField α]

end PoolAfterRelu

section PoolInNetwork

variable {α : Type} [LinearOrderedField α]

end PoolInNetwork

section BatchShaped

variable {α : Type} [LinearOrderedField α]

/-- The network of `make_network` has its own layout. -/
theorem make_network_fixed_layout : fixed_layout (make_network (α := α)) :=
  ⟨rfl, rfl, rfl, rfl, rfl, rfl, rfl⟩

end BatchShaped

/-! ## The unrolled depth loop -/

section ConvDepthReads

variable {α : Type} [LinearOrderedField α]

/-- The accumulation of the two loops over `fd` is the accumulation of the
products along the list of the reads, in the order of the list. -/
theorem conv_depth_fold (f V : vol α) (fSx V_sx fdep vdep fy fx oy ox : Int) (a : α) :
    conv_depth f V fSx V_sx fdep vdep fy fx oy ox a
      = (conv_depth_reads f V fSx V_sx fdep vdep fy fx oy ox).foldl
          (fun a p => a + rdI 0 f.w p.1 * rdI 0 V.w p.2) a := by
  unfold conv_depth conv_depth_reads
  refine loop_rel (fun (b : α) (t : List (Int × Int)) =>
      b = t.foldl (fun a p => a + rdI 0 f.w p.1 * rdI 0 V.w p.2) a) _ _ _ _ _ ?_ ?_
  · refine loop_rel (fun (b : α) (t : List (Int × Int)) =>
      b = t.foldl (fun a p => a + rdI 0 f.w p.1 * rdI 0 V.w p.2) a) _ _ _ _ _ rfl ?_
    intro k _ b t hb
    unfold conv_block conv_block_reads
    simp only [List.foldl_append, List.foldl_cons, List.foldl_nil, hb]
  · intro k _ b t hb
    unfold conv_rest conv_rest_reads
    simp only [List.foldl_append, List.foldl_cons, List.foldl_nil, hb, rdI_natCast]

/-- The plain loop is the accumulation of the products along the list of the
index pairs of `fd = 0, 1, …, fdep - 1`. -/
theorem conv_depth_plain_fold (f V : vol α) (fx fy ox oy : Nat) (a : α)
    (hfx : fx < f.sx) (hfy : fy < f.sy) (hox : ox < V.sx) (hoy : oy < V.sy)
    (hdep : V.depth = f.depth)
    (hf : f.sx * f.sy * f.depth < 2 ^ 64) (hV : V.sx * V.sy * V.depth < 2 ^ 64) :
    conv_depth_plain f V fx fy ox oy a
      = ((List.range f.depth).map (fun fd =>
          (((flat f.sx f.depth fx fy fd : Nat) : Int),
            ((flat V.sx V.depth ox oy fd : Nat) : Int)))).foldl
          (fun a p => a + rdI 0 f.w p.1 * rdI 0 V.w p.2) a := by
  unfold conv_depth_plain loop
  rw [List.foldl_map]
  apply List.foldl_ext
  intro b fd hfd
  have hlt : fd < f.depth := List.mem_range.mp hfd
  simp only [rdI_natCast]
  rw [get_vol_eq_rd f fx fy fd (lt_trans (flat_lt hfx hfy hlt) hf),
    get_vol_eq_rd V ox oy fd (lt_trans (flat_lt hox hoy (hdep ▸ hlt)) hV)]

end ConvDepthReads

section ConvDepthIndices

variable {α : Type}

theorem range_add_four (n : Nat) :
    List.range (n + 4) = List.range n ++ [n, n + 1, n + 2, n + 3] := by
  rw [show n + 4 = n + 1 + 1 + 1 + 1 from rfl, List.range_succ, List.range_succ,
    List.range_succ, List.range_succ]
  simp

/-- The reads of the block loop followed by the remainder loop are the index
pairs of `fd = 0, 1, …, fdep - 1`, each once and in increasing order. -/
theorem conv_depth_reads_eq (f V : vol α) (fx fy ox oy : Nat)
    (hfx : fx < f.sx) (hfy : fy < f.sy) (hox : ox < V.sx) (hoy : oy < V.sy)
    (hdep : V.depth = f.depth)
    (hf : f.sx * f.sy * f.depth < 2 ^ 64) (hV : V.sx * V.sy * V.depth < 2 ^ 64) :
    conv_depth_reads f V (f.sx : Int) (V.sx : Int) (f.depth : Int) (V.depth : Int)
        (fy : Int) (fx : Int) (oy : Int) (ox : Int)
      = (List.range f.depth).map (fun fd =>
          (((flat f.sx f.depth fx fy fd : Nat) : Int),
            ((flat V.sx V.depth ox oy fd : Nat) : Int))) := by
  have hq : (f.depth : Int).tdiv 4 = ((f.depth / 4 : Nat) : Int) := by
    rw [Int.tdiv_eq_ediv (by omega) (by norm_num)]; omega
  have hcnt : (((f.depth : Int).tdiv 4 * 4 + 3).tdiv 4).toNat = f.depth / 4 := by
    rw [hq, Int.tdiv_eq_ediv (by omega) (by norm_num)]; omega
  have hrem : ((f.depth : Int) - (f.depth : Int).tdiv 4 * 4).toNat = f.depth % 4 := by
    rw [hq]; omega
  have hfirst : ∀ fd : Nat, (((f.sx : Int) * (fy : Int)) + (fx : Int)) * (f.depth : Int) + (fd : Int)
      = ((flat f.sx f.depth fx fy fd : Nat) : Int) := by
    intro fd; unfold flat; push_cast; ring
  have hsec : ∀ fd : Nat, (((V.sx : Int) * (oy : Int)) + (ox : Int)) * (V.depth : Int) + (fd : Int)
      = ((flat V.sx V.depth ox oy fd : Nat) : Int) := by
    intro fd; unfold flat; push_cast; ring
  unfold conv_depth_reads
  simp only [hcnt, hrem]
  have hblocks : loop (f.depth / 4)
      (fun k t => conv_block_reads (f.sx : Int) (V.sx : Int) (f.depth : Int) (V.depth : Int)
        (fy : Int) (fx : Int) (oy : Int) (ox : Int) (4 * (k : Int)) t) []
      = (List.range (4 * (f.depth / 4))).map (fun fd =>
          (((flat f.sx f.depth fx fy fd : Nat) : Int),
            ((flat V.sx V.depth ox oy fd : Nat) : Int))) := by
    refine loop_inv (fun k (t : List (Int × Int)) =>
      t = (List.range (4 * k)).map (fun fd =>
          (((flat f.sx f.depth fx fy fd : Nat) : Int),
            ((flat V.sx V.depth ox oy fd : Nat) : Int)))) _ _ _ rfl ?_
    intro k _ t ht
    have e0 : (4 * (k : Int)) = ((4 * k : Nat) : Int) := by push_cast; ring
    have ef : ∀ i : Nat, ((flat f.sx f.depth fx fy (4 * k) : Nat) : Int) + (i : Int)
        = ((flat f.sx f.depth fx fy (4 * k + i) : Nat) : Int) := by
      intro i; unfold flat; push_cast; ring
    have eV : ∀ i : Nat, ((flat V.sx V.depth ox oy (4 * k) : Nat) : Int) + (i : Int)
        = ((flat V.sx V.depth ox oy (4 * k + i) : Nat) : Int) := by
      intro i; unfold flat; push_cast; ring
    have ef1 := ef 1; have ef2 := ef 2; have ef3 := ef 3
    have eV1 := eV 1; have eV2 := eV 2; have eV3 := eV 3
    simp only [Nat.cast_one, Nat.cast_ofNat] at ef1 ef2 ef3 eV1 eV2 eV3
    unfold conv_block_reads
    simp only [e0, hfirst, hsec]
    rw [ef1, ef2, ef3, eV1, eV2, eV3, ht, show 4 * (k + 1) = 4 * k + 4 from by ring,
      range_add_four]
    simp
  rw [hblocks]
  have hgoal := loop_inv (fun k (t : List (Int × Int)) =>
      t = (List.range (4 * (f.depth / 4) + k)).map (fun fd =>
          (((flat f.sx f.depth fx fy fd : Nat) : Int),
            ((flat V.sx V.depth ox oy fd : Nat) : Int)))) (f.depth % 4)
    (fun k t => conv_rest_reads f V (V.sx : Int) (fy : Int) (fx : Int) (oy : Int) (ox : Int)
      ((f.depth : Int).tdiv 4 * 4 + (k : Int)) t)
    ((List.range (4 * (f.depth / 4))).map (fun fd =>
          (((flat f.sx f.depth fx fy fd : Nat) : Int),
            ((flat V.sx V.depth ox oy fd : Nat) : Int)))) rfl ?_
  · rw [hgoal, Nat.div_add_mod]
  · intro k hk t ht
    have hlt : 4 * (f.depth / 4) + k < f.depth := by omega
    have e : (f.depth : Int).tdiv 4 * 4 + (k : Int) = ((4 * (f.depth / 4) + k : Nat) : Int) := by
      rw [hq]; push_cast; ring
    show t ++ [((u64 ((((f.sx : Int) * (fy : Int)) + (fx : Int)) * (f.depth : Int)
          + ((f.depth : Int).tdiv 4 * 4 + (k : Int))) : Int),
        (u64 ((((V.sx : Int) * (oy : Int)) + (ox : Int)) * (V.depth : Int)
          + ((f.depth : Int).tdiv 4 * 4 + (k : Int))) : Int))] = _
    rw [e, hfirst, hsec, u64_natCast _ (lt_trans (flat_lt hfx hfy hlt) hf),
      u64_natCast _ (lt_trans (flat_lt hox hoy (hdep ▸ hlt)) hV), ht,
      show 4 * (f.depth / 4) + (k + 1) = 4 * (f.depth / 4) + k + 1 from rfl,
      List.range_succ, List.map_append]
    rfl

end ConvDepthIndices

section ConvDepthUnrolled

variable {α : Type} [LinearOrderedField α]

/-- C24. The 4-way unrolled depth loop of `conv_forward` equals the plain
loop: for every filter depth, with the input depth equal to it, at in-range
positions `(fx, fy)` of the filter and `(ox, oy)` of the input, the block loop
followed by the remainder loop gives the value of the plain loop over
`fd = 0, 1, …, fdep - 1`; the index pairs it reads are those of the elements
`(fx, fy, fd)` of the filter and `(ox, oy, fd)` of the input for
`fd = 0, 1, …, fdep - 1`, each once and in increasing order of `fd`; and its
value is the accumulation of the products in the order of these reads. -/
theorem conv_depth_unrolled (f V : vol α) (fx fy ox oy : Nat) (a : α)
    (hfx : fx < f.sx) (hfy : fy < f.sy) (hox : ox < V.sx) (hoy : oy < V.sy)
    (hdep : V.depth = f.depth)
    (hf : f.sx * f.sy * f.depth < 2 ^ 64) (hV : V.sx * V.sy * V.depth < 2 ^ 64) :
    conv_depth f V (f.sx : Int) (V.sx : Int) (f.depth : Int) (V.depth : Int)
        (fy : Int) (fx : Int) (oy : Int) (ox : Int) a
      = conv_depth_plain f V fx fy ox oy a ∧
    conv_depth_reads f V (f.sx : Int) (V.sx : Int) (f.depth : Int) (V.depth : Int)
        (fy : Int) (fx : Int) (oy : Int) (ox : Int)
      = (List.range f.depth).map (fun fd =>
          (((flat f.sx f.depth fx fy fd : Nat) : Int),
            ((flat V.sx V.depth ox oy fd : Nat) : Int))) ∧
    conv_depth f V (f.sx : Int) (V.sx : Int) (f.depth : Int) (V.depth : Int)
        (fy : Int) (fx : Int) (oy : Int) (ox : Int) a
      = (conv_depth_reads f V (f.sx : Int) (V.sx : Int) (f.depth : Int) (V.depth : Int)
          (fy : Int) (fx : Int) (oy : Int) (ox : Int)).foldl
          (fun a p => a + rdI 0 f.w p.1 * rdI 0 V.w p.2) a := by
  refine ⟨?_, conv_depth_reads_eq f V fx fy ox oy hfx hfy hox hoy hdep hf hV,
    conv_depth_fold f V _ _ _ _ _ _ _ _ a⟩
  rw [conv_depth_fold, conv_depth_reads_eq f V fx fy ox oy hfx hfy hox hoy hdep hf hV,
    conv_depth_plain_fold f V fx fy ox oy a hfx hfy hox hoy hdep hf hV]

end ConvDepthUnrolled

theorem conv_depth_unrolled_witness :
    1 < depth_example_f.sx ∧ 0 < depth_example_f.sy ∧ 2 < depth_example_V.sx ∧
    1 < depth_example_V.sy ∧ depth_example_V.depth = depth_example_f.depth ∧
    depth_example_f.sx * depth_example_f.sy * depth_example_f.depth < 2 ^ 64 ∧
    depth_example_V.sx * depth_example_V.sy * depth_example_V.depth < 2 ^ 64 ∧
    (conv_depth depth_example_f depth_example_V (depth_example_f.sx : Int)
        (depth_example_V.sx : Int) (depth_example_f.depth : Int) (depth_example_V.depth : Int)
        ((0 : Nat) : Int) ((1 : Nat) : Int) ((1 : Nat) : Int) ((2 : Nat) : Int) 5
      = conv_depth_plain depth_example_f depth_example_V 1 0 2 1 5 ∧
    conv_depth_reads depth_example_f depth_example_V (depth_example_f.sx : Int)
        (depth_example_V.sx : Int) (depth_example_f.depth : Int) (depth_example_V.depth : Int)
        ((0 : Nat) : Int) ((1 : Nat) : Int) ((1 : Nat) : Int) ((2 : Nat) : Int)
      = (List.range depth_example_f.depth).map (fun fd =>
          (((flat depth_example_f.sx depth_example_f.depth 1 0 fd : Nat) : Int),
            ((flat depth_example_V.sx depth_example_V.depth 2 1 fd : Nat) : Int))) ∧
    conv_depth depth_example_f depth_example_V (depth_example_f.sx : Int)
        (depth_example_V.sx : Int) (depth_example_f.depth : Int) (depth_example_V.depth : Int)
        ((0 : Nat) : Int) ((1 : Nat) : Int) ((1 : Nat) : Int) ((2 : Nat) : Int) 5
      = (conv_depth_reads depth_example_f depth_example_V (depth_example_f.sx : Int)
          (depth_example_V.sx : Int) (depth_example_f.depth : Int)
          (depth_example_V.depth : Int)
          ((0 : Nat) : Int) ((1 : Nat) : Int) ((1 : Nat) : Int) ((2 : Nat) : Int)).foldl
          (fun a p => a + rdI 0 depth_example_f.w p.1 * rdI 0 depth_example_V.w p.2) 5) :=
  ⟨by decide, by decide, by decide, by decide, by decide, by decide, by decide,
    conv_depth_unrolled depth_example_f depth_example_V 1 0 2 1 5
      (by decide) (by decide) (by decide) (by decide) (by decide) (by decide) (by decide)⟩

/-! ## The scratch array of softmax -/

section SoftmaxChecked

variable {α : Type} [LinearOrderedField α]

end SoftmaxChecked

section CopyVol

variable {α : Type} [LinearOrderedField α]

end CopyVol

section ImageBatch

variable {α : Type} [LinearOrderedField α]

end ImageBatch

namespace IEEE

/-! ## NaN inside the forward pass -/

end IEEE

end CNN
